import Mathlib

/-!
Verification development for the sym-engine production rule engine.

The definitions below are a shallow embedding of the Rust sources:

  * `src/data.rs`    -- values and their total comparison
  * `src/space.rs`   -- object space, attributes, transactions, GC
  * `src/compiler/cfg.rs`       -- AST lowering and binding checks
  * `src/compiler/optimizer.rs` -- scheduling of cfg ops
  * `src/runtime.rs` -- the backtracking search machine
  * `src/system.rs`  -- firing strategies and controls

Modelling conventions:

  * Rust `u64`/`i64` become `Nat`/`Int`; `i64` arithmetic is guarded
    explicitly by the `-2^63 .. 2^63-1` range checks that mirror
    `checked_add` / `checked_sub` / `checked_mul` / `checked_div`.
  * `f64` is modelled by the inductive `F64`: an exact rational payload
    plus the IEEE special values (negative/positive NaN and infinity and
    the negative zero), ordered exactly as `float_ord::FloatOrd` orders
    the underlying bit patterns.  `i64 as f64` conversion is modelled
    with the correct round-to-nearest, ties-to-even rounding; the other
    float arithmetic is exact rational arithmetic (no claim below
    depends on a rounded arithmetic result).
  * Hash maps (`FnvHashMap<Id, AttrData>`) become association lists
    with first-match lookup and replace-or-append insertion; the source
    guarantees unique keys, which theorems take as a `Nodup` hypothesis
    where the iteration-order of a commit matters.
  * Interned symbols (`string_cache::DefaultAtom`) become `String`
    compared by content, which is how `Atom`'s `Ord` behaves.
  * Rust panics (out-of-range indexing, `expect`) are modelled by
    `Option`/explicit `panic` outcomes; a `none`/panic result of an
    embedded function corresponds to a Rust panic, never to a regular
    error return.
  * `&mut` state threading (binding arrays, the global id counter, the
    optimizer's `Sequence`) is made explicit by passing and returning
    the state.
  * Loops whose termination is nontrivial (`collect_garbage`'s trace
    loop, `search_bindings`, `assemble_ops`, the saturation runners)
    are defined with an explicit fuel parameter; theorems either prove
    that a computed fuel bound suffices or quantify over the fuel.
-/

namespace SymEngine

/-! ## Values (`src/data.rs`) -/

/-- Object identifier; `Id` is a `NonZeroU64` in the source, modelled as `Nat`. -/
abbrev Id := Nat

/-- Interned symbol (`string_cache::DefaultAtom`), compared by content. -/
abbrev Symbol := String

/-- Model of `f64`: exact rational payload plus the IEEE special values.
`negZero` is the value `-0.0`, which `FloatOrd` distinguishes from `+0.0`
(`num 0`) while IEEE `==` identifies them. -/
inductive F64 where
  | negNaN
  | negInf
  | negZero
  | num (q : ℚ)
  | posInf
  | posNaN
deriving DecidableEq

/-- Total order on `F64` exactly as `float_ord::FloatOrd` orders `f64`
bit patterns: negative NaN < -inf < negative numbers < -0.0 < +0.0 <
positive numbers < +inf < positive NaN. -/
def floatOrdCompare : F64 → F64 → Ordering
  | .negNaN, .negNaN => .eq
  | .negNaN, _ => .lt
  | _, .negNaN => .gt
  | .posNaN, .posNaN => .eq
  | .posNaN, _ => .gt
  | _, .posNaN => .lt
  | .negInf, .negInf => .eq
  | .negInf, _ => .lt
  | _, .negInf => .gt
  | .posInf, .posInf => .eq
  | .posInf, _ => .gt
  | _, .posInf => .lt
  | .negZero, .negZero => .eq
  | .negZero, .num q => if q < 0 then .gt else .lt
  | .num q, .negZero => if q < 0 then .lt else .gt
  | .num a, .num b => compare a b

/-- IEEE `==` on `F64`: NaN compares unequal to everything (itself
included) and `-0.0 == +0.0`.  Used by the `right != 0.0` divisor check. -/
def F64.ieeeEq : F64 → F64 → Bool
  | .negNaN, _ => false
  | _, .negNaN => false
  | .posNaN, _ => false
  | _, .posNaN => false
  | .negInf, .negInf => true
  | .posInf, .posInf => true
  | .negZero, .negZero => true
  | .negZero, .num q => q = 0
  | .num q, .negZero => q = 0
  | .num a, .num b => a = b
  | _, _ => false

/-- Smallest power-of-two exponent `e` (starting from the candidate `e`)
with `a < 2 ^ (53 + e)`; the fuel of 64 covers every `u64` magnitude. -/
def f64exp (a : Nat) : Nat → Nat → Nat
  | 0, e => e
  | fuel + 1, e => if a < 2 ^ (53 + e) then e else f64exp a fuel (e + 1)

/-- Round `a / p` to the nearest integer, ties to even. -/
def roundEvenDiv (a p : Nat) : Nat :=
  let q := a / p
  let r := a % p
  if 2 * r < p then q
  else if p < 2 * r then q + 1
  else if q % 2 = 0 then q else q + 1

/-- Value of the Rust conversion `n as f64` for an `i64` payload:
exact when the magnitude fits in 53 bits, otherwise rounded to the
nearest representable (ties to even).  The result is always an integer. -/
def i64ToF64val (n : Int) : Int :=
  let a := n.natAbs
  if a ≤ 2 ^ 53 then n
  else
    let e := f64exp a 64 1
    let m := roundEvenDiv a (2 ^ e)
    if n < 0 then -(m * 2 ^ e : Int) else (m * 2 ^ e : Int)

/-- Rust `n as f64` on an `i64`, as an `F64`. -/
def i64ToF64 (n : Int) : F64 := .num ((i64ToF64val n : Int) : ℚ)

/-- The `Value` enum of `src/data.rs`. -/
inductive Value where
  | obj (id : Id)
  | sym (s : Symbol)
  | int (n : Int)
  | float (f : F64)
  | tuple (vs : List Value)

mutual

/-- Embedding of `value_compare` from `src/data.rs`, arm for arm:
same-variant pairs compare componentwise (floats via `FloatOrd`),
`Int` vs `Float` converts the integer to a float, tuples compare
lexicographically, and the remaining cross-variant pairs follow the
fixed variant order Object > Symbol > Int > Float > Tuple. -/
def valueCompare : Value → Value → Ordering
  | .obj a, .obj b => compare a b
  | .sym a, .sym b => compare a b
  | .int a, .int b => compare a b
  | .float a, .float b => floatOrdCompare a b
  | .int a, .float b => floatOrdCompare (i64ToF64 a) b
  | .float a, .int b => floatOrdCompare a (i64ToF64 b)
  | .tuple a, .tuple b => valuesCompare a b
  | .obj _, _ => .gt
  | _, .obj _ => .lt
  | .sym _, _ => .gt
  | _, .sym _ => .lt
  | .int _, _ => .gt
  | _, .int _ => .lt
  | .float _, _ => .gt
  | _, .float _ => .lt

/-- Lexicographic comparison of tuple contents (`<[Value] as Ord>::cmp`). -/
def valuesCompare : List Value → List Value → Ordering
  | [], [] => .eq
  | [], _ :: _ => .lt
  | _ :: _, [] => .gt
  | a :: as, b :: bs =>
    match valueCompare a b with
    | .eq => valuesCompare as bs
    | ord => ord

end

/-- The `PartialEq` of `Value` is defined through `value_compare`
(`value_compare(self, other) == Ordering::Equal`), not structurally. -/
def valueEqb (a b : Value) : Bool :=
  match valueCompare a b with
  | .eq => true
  | _ => false

mutual

/-- Structural decidable equality for `Value` (used only to state and
decide concrete facts; runtime equality is `valueEqb`). -/
def valueDecEq : (a b : Value) → Decidable (a = b)
  | .obj a, .obj b =>
    match decEq a b with
    | isTrue h => isTrue (by rw [h])
    | isFalse h => isFalse (by intro hc; cases hc; exact h rfl)
  | .sym a, .sym b =>
    match decEq a b with
    | isTrue h => isTrue (by rw [h])
    | isFalse h => isFalse (by intro hc; cases hc; exact h rfl)
  | .int a, .int b =>
    match decEq a b with
    | isTrue h => isTrue (by rw [h])
    | isFalse h => isFalse (by intro hc; cases hc; exact h rfl)
  | .float a, .float b =>
    match decEq a b with
    | isTrue h => isTrue (by rw [h])
    | isFalse h => isFalse (by intro hc; cases hc; exact h rfl)
  | .tuple a, .tuple b =>
    match valuesDecEq a b with
    | isTrue h => isTrue (by rw [h])
    | isFalse h => isFalse (by intro hc; cases hc; exact h rfl)
  | .obj _, .sym _ => isFalse (by intro h; cases h)
  | .obj _, .int _ => isFalse (by intro h; cases h)
  | .obj _, .float _ => isFalse (by intro h; cases h)
  | .obj _, .tuple _ => isFalse (by intro h; cases h)
  | .sym _, .obj _ => isFalse (by intro h; cases h)
  | .sym _, .int _ => isFalse (by intro h; cases h)
  | .sym _, .float _ => isFalse (by intro h; cases h)
  | .sym _, .tuple _ => isFalse (by intro h; cases h)
  | .int _, .obj _ => isFalse (by intro h; cases h)
  | .int _, .sym _ => isFalse (by intro h; cases h)
  | .int _, .float _ => isFalse (by intro h; cases h)
  | .int _, .tuple _ => isFalse (by intro h; cases h)
  | .float _, .obj _ => isFalse (by intro h; cases h)
  | .float _, .sym _ => isFalse (by intro h; cases h)
  | .float _, .int _ => isFalse (by intro h; cases h)
  | .float _, .tuple _ => isFalse (by intro h; cases h)
  | .tuple _, .obj _ => isFalse (by intro h; cases h)
  | .tuple _, .sym _ => isFalse (by intro h; cases h)
  | .tuple _, .int _ => isFalse (by intro h; cases h)
  | .tuple _, .float _ => isFalse (by intro h; cases h)

/-- Structural decidable equality for lists of values. -/
def valuesDecEq : (a b : List Value) → Decidable (a = b)
  | [], [] => isTrue rfl
  | [], _ :: _ => isFalse (by intro h; cases h)
  | _ :: _, [] => isFalse (by intro h; cases h)
  | a :: as, b :: bs =>
    match valueDecEq a b with
    | isTrue h1 =>
      match valuesDecEq as bs with
      | isTrue h2 => isTrue (by rw [h1, h2])
      | isFalse h2 => isFalse (by intro hc; cases hc; exact h2 rfl)
    | isFalse h1 => isFalse (by intro hc; cases hc; exact h1 rfl)

end

instance : DecidableEq Value := valueDecEq

/-- Accessor `Value::object`. -/
def Value.object : Value → Option Id
  | .obj id => some id
  | _ => none

/-- Accessor `Value::tuple` (cloned contents). -/
def Value.tupleVals : Value → Option (List Value)
  | .tuple vs => some vs
  | _ => none

/-! ## Object space (`src/space.rs`) -/

/-- One attribute group list: `Vec<(Symbol, Arc<Vec<Value>>)>`. -/
abbrev AttrData := List (Symbol × List Value)

/-- The object map `FnvHashMap<Id, AttrData>` as an association list with
unique keys. -/
abbrev ObjectData := List (Id × AttrData)

/-- First-match association lookup (`HashMap::get`). -/
def odLookup : ObjectData → Id → Option AttrData
  | [], _ => none
  | (k, a) :: rest, id => if k = id then some a else odLookup rest id

/-- `HashMap::insert`: replace the existing entry or append a new one. -/
def odInsert : ObjectData → Id → AttrData → ObjectData
  | [], id, a => [(id, a)]
  | (k, b) :: rest, id, a =>
    if k = id then (id, a) :: rest else (k, b) :: odInsert rest id a

/-- Insertion-order-preserving id set (`ObjectSet`), add operation:
returns whether the id was newly added. -/
def osAdd (objects : List Id) (object : Id) : Bool × List Id :=
  if objects.contains object then (false, objects)
  else (true, objects ++ [object])

/-- The `ObjectSet::remove` operation: retain all other ids, report
whether the id was present. -/
def osRemove (objects : List Id) (object : Id) : Bool × List Id :=
  (objects.contains object, objects.filter (fun ex => ex ≠ object))

/-- The `Space` struct: root set plus object map. -/
structure Space where
  root_objects : List Id
  objects : ObjectData

/-- The attribute list the space exposes for an id (`Space::attributes`):
the stored list, or empty when the id has no entry. -/
def Space.attributes (s : Space) (object : Id) : AttrData :=
  (odLookup s.objects object).getD []

/-! ### Attribute read/write operations -/

/-- Embedding of `Attributes::has`: consult the first group whose name
matches and test whether any of its values matches.  The matcher
argument models the `MatchValue` bound. -/
def attrsHas (attrs : AttrData) (name : Symbol) (value : Value → Bool) : Bool :=
  match attrs with
  | [] => false
  | (exName, exValues) :: rest =>
    if exName = name then exValues.any value else attrsHas rest name value

/-- Embedding of `Attributes::has_named`: the first group with the name
must be nonempty. -/
def attrsHasNamed (attrs : AttrData) (name : Symbol) : Bool :=
  match attrs with
  | [] => false
  | (exName, exValues) :: rest =>
    if exName = name then !exValues.isEmpty else attrsHasNamed rest name

/-- Embedding of `Attributes::iter_named`: the values of the first group
with the given name, or the empty sequence. -/
def iterNamed (attrs : AttrData) (name : Symbol) : List Value :=
  match attrs with
  | [] => []
  | (exName, exValues) :: rest =>
    if exName = name then exValues else iterNamed rest name

/-- Embedding of `AttributesMut::add`: push onto the first group whose
name matches, else append a fresh group. -/
def attrAdd (attrs : AttrData) (name : Symbol) (value : Value) : AttrData :=
  match attrs with
  | [] => [(name, [value])]
  | (exName, exValues) :: rest =>
    if exName = name then (exName, exValues ++ [value]) :: rest
    else (exName, exValues) :: attrAdd rest name value

/-- Remove the first value satisfying the matcher from a value list,
returning the removed value and the remainder (the
`iter().position` + `remove(index)` pair in `remove_single`). -/
def removeFirstMatch (value : Value → Bool) : List Value → Option (Value × List Value)
  | [] => none
  | v :: rest =>
    if value v then some (v, rest)
    else
      match removeFirstMatch value rest with
      | some (w, rest2) => some (w, v :: rest2)
      | none => none

/-- Embedding of `AttributesMut::remove_single`: find the first group
whose name matches; inside it, remove and return the first matching
value; when that group has no matching value, or no group matches,
return `none` and leave everything unchanged.  Later groups with the
same name are never consulted. -/
def removeSingle (attrs : AttrData) (name : Symbol) (value : Value → Bool) :
    Option Value × AttrData :=
  match attrs with
  | [] => (none, [])
  | (exName, exValues) :: rest =>
    if exName = name then
      match removeFirstMatch value exValues with
      | some (w, remaining) => (some w, (exName, remaining) :: rest)
      | none => (none, (exName, exValues) :: rest)
    else
      ((removeSingle rest name value).1,
       (exName, exValues) :: (removeSingle rest name value).2)

/-! ### Transactions -/

/-- The `Transaction` struct: a copy-on-write overlay.  The borrowed
parent `&dyn Access` is modelled by `outerView`, the parent's flattened
object data (for a space, its `objects`; for a transaction, its local
entries in front of its own parent view), so that first-match lookup on
`local_objects ++ outerView` is exactly the overlay-first read. -/
structure Transaction where
  outerView : ObjectData
  local_root_objects : List Id
  local_objects : ObjectData

/-- Transaction reads (`Transaction::attributes`): local entry first,
then the parent. -/
def Transaction.attributes (tx : Transaction) (object : Id) : AttrData :=
  (odLookup (tx.local_objects ++ tx.outerView) object).getD []

/-- Transaction write access (`Transaction::attributes_mut`): materialize
the parent's attribute list into the overlay on first touch. -/
def Transaction.materialize (tx : Transaction) (object : Id) : Transaction :=
  match odLookup tx.local_objects object with
  | some _ => tx
  | none =>
    { tx with
        local_objects :=
          odInsert tx.local_objects object ((odLookup tx.outerView object).getD []) }

/-- Run a mutation of one object's attribute list through the overlay
(the `attributes_mut` + mutate pattern). -/
def Transaction.modifyAttrs (tx : Transaction) (object : Id) (f : AttrData → AttrData) :
    Transaction :=
  let tx2 := tx.materialize object
  { tx2 with
      local_objects :=
        odInsert tx2.local_objects object
          (f ((odLookup tx2.local_objects object).getD [])) }

/-- The fresh transaction `Space::transaction` hands to its body:
local roots cloned from the space, empty overlay. -/
def Space.newTransaction (s : Space) : Transaction :=
  { outerView := s.objects
    local_root_objects := s.root_objects
    local_objects := [] }

/-- Merge of a committed transaction into a `Space`
(the `Some(update)` branch of `Space::transaction`): replace the root
set, and insert every overlay entry into the object map. -/
def Space.commitTx (s : Space) (tx : Transaction) : Space :=
  { root_objects := tx.local_root_objects
    objects := tx.local_objects.foldl (fun m p => odInsert m p.1 p.2) s.objects }

/-- Embedding of `Space::transaction`: run the body on a fresh overlay;
commit on `Some`, discard on `None`; return whether a commit happened. -/
def Space.transaction (s : Space) (run : Transaction → Option Transaction) :
    Bool × Space :=
  match run (s.newTransaction) with
  | some update => (true, s.commitTx update)
  | none => (false, s)

/-- The fresh nested transaction `Transaction::transaction` hands to its
body: local roots cloned from the parent transaction, empty overlay,
parent view = the parent's overlay-first data. -/
def Transaction.newNested (t : Transaction) : Transaction :=
  { outerView := t.local_objects ++ t.outerView
    local_root_objects := t.local_root_objects
    local_objects := [] }

/-- Merge of a committed nested transaction into its parent transaction
(the `Some(update)` branch of `Transaction::transaction`). -/
def Transaction.commitTx (t : Transaction) (tx : Transaction) : Transaction :=
  { t with
      local_root_objects := tx.local_root_objects
      local_objects := tx.local_objects.foldl (fun m p => odInsert m p.1 p.2) t.local_objects }

/-- Embedding of `Transaction::transaction` (nested transactions). -/
def Transaction.transaction (t : Transaction) (run : Transaction → Option Transaction) :
    Bool × Transaction :=
  match run (t.newNested) with
  | some update => (true, t.commitTx update)
  | none => (false, t)

/-! ### Garbage collection (`Space::collect_garbage`) -/

mutual

/-- Size measure of a value tree (used for the trace-loop fuel bound). -/
def Value.weight : Value → Nat
  | .obj _ => 1
  | .sym _ => 1
  | .int _ => 1
  | .float _ => 1
  | .tuple vs => 1 + valuesWeight vs

/-- Total weight of a list of values. -/
def valuesWeight : List Value → Nat
  | [] => 0
  | v :: rest => v.weight + valuesWeight rest

end

mutual

/-- All object ids occurring in a value, tuples included. -/
def valueIds : Value → List Id
  | .obj id => [id]
  | .sym _ => []
  | .int _ => []
  | .float _ => []
  | .tuple vs => valuesIds vs

/-- All object ids occurring in a list of values. -/
def valuesIds : List Value → List Id
  | [] => []
  | v :: rest => valueIds v ++ valuesIds rest

end

/-- All attribute values of an attribute list, in group order
(the `for (_, values) in attributes` iteration). -/
def attrsValues : AttrData → List Value
  | [] => []
  | (_, vs) :: rest => vs ++ attrsValues rest

/-- Weight of an attribute list. -/
def attrsWeight (attrs : AttrData) : Nat := valuesWeight (attrsValues attrs)

/-- Total attribute weight of the whole object map. -/
def totalWeight : ObjectData → Nat
  | [] => 0
  | (_, a) :: rest => attrsWeight a + totalWeight rest

/-- Sorted insertion into the `marked` vector: the model of
`marked.binary_search(&id)` returning `Err(index)` followed by
`marked.insert(index, id)`; on a sorted vector this is exactly ordered
insertion, and `Ok(_)` (already present) leaves the vector unchanged. -/
def insortId (id : Id) : List Id → List Id
  | [] => [id]
  | m :: rest =>
    if id < m then id :: m :: rest
    else if id = m then m :: rest
    else m :: insortId id rest

/-- One fuelled run of the `'trace` loop of `Space::collect_garbage`.
The trace stack is kept top-first (`Vec::pop` takes the last element, so
`extend(values)` becomes prepending `values.reverse`).  `none` means the
fuel ran out; the fuel bound `gcFuel` below is proved sufficient. -/
def gcTraceF (objects : ObjectData) : Nat → List Id → List Value → Option (List Id)
  | 0, _, _ => none
  | _ + 1, marked, [] => some marked
  | fuel + 1, marked, v :: trace =>
    match v with
    | .tuple vs => gcTraceF objects fuel marked (vs.reverse ++ trace)
    | .sym _ => gcTraceF objects fuel marked trace
    | .int _ => gcTraceF objects fuel marked trace
    | .float _ => gcTraceF objects fuel marked trace
    | .obj id =>
      if marked.contains id then gcTraceF objects fuel marked trace
      else
        gcTraceF objects fuel (insortId id marked)
          ((attrsValues ((odLookup objects id).getD [])).reverse ++ trace)

/-- Number of object-map keys not yet marked (first component of the
termination measure). -/
def gcU (objects : ObjectData) (marked : List Id) : Nat :=
  ((objects.map Prod.fst).filter (fun id => !(marked.contains id))).length

/-- Termination measure for the trace loop: lexicographic
(unmarked keys, stack weight) flattened into one natural number. -/
def gcMeasure (objects : ObjectData) (marked : List Id) (trace : List Value) : Nat :=
  (gcU objects marked + 1) * (totalWeight objects + 1) + valuesWeight trace

/-- Initial trace stack: the root ids as object values (top-first). -/
def gcInitTrace (s : Space) : List Value :=
  (s.root_objects.map Value.obj).reverse

/-- Sufficient fuel for the trace loop of `collect_garbage`. -/
def gcFuel (s : Space) : Nat := gcMeasure s.objects [] (gcInitTrace s)

/-- The marked set computed by the trace loop of `collect_garbage`. -/
def gcMarked (s : Space) : List Id :=
  (gcTraceF s.objects (gcFuel s) [] (gcInitTrace s)).getD []

/-- Embedding of `Space::collect_garbage`: mark from the roots, then
retain exactly the entries whose key is marked
(`self.objects.retain(|id, _| marked.binary_search(id).is_ok())`), and
return `orig_len - new_len`. -/
def Space.collect_garbage (s : Space) : Nat × Space :=
  let marked := gcMarked s
  let retained := s.objects.filter (fun p => marked.contains p.1)
  (s.objects.length - retained.length, { s with objects := retained })

/-- Reachability through chains of attribute values: an id is reachable
when it is a registered root, or occurs (possibly nested inside tuples)
among the attribute values of a reachable object. -/
inductive Reaches (s : Space) : Id → Prop where
  | root (id : Id) : id ∈ s.root_objects → Reaches s id
  | step (a id : Id) : Reaches s a →
      id ∈ valuesIds (attrsValues (s.attributes a)) → Reaches s id

/-! ## Compiled rule ops (`src/compiler.rs`, `src/compiler/ops.rs`) -/

/-- A binding slot (`Binding(u16)`), used through `.index()` everywhere. -/
abbrev Binding := Nat

/-- Arithmetic operators of calculations (`data::ArithBinOp`). -/
inductive ArithBinOp where
  | add
  | sub
  | mul
  | div
deriving DecidableEq

/-- Comparison operators (`data::CompareOp`). -/
inductive CompareOp where
  | equal
  | notEqual
  | less
  | lessOrEqual
  | greater
  | greaterOrEqual
deriving DecidableEq

/-- Removal mode of apply removals (`RemovalMode`). -/
inductive RemovalMode where
  | required
  | optional
deriving DecidableEq

/-- Calculation expression tree (`compiler::Calculation`). -/
inductive Calculation where
  | value (v : Value)
  | binding (b : Binding)
  | binOp (op : ArithBinOp) (left right : Calculation)

/-- One side of a comparison (`compiler::CompareValue`). -/
inductive CompareValue where
  | binding (b : Binding)
  | value (v : Value)

/-- The bindings referenced by a `CompareValue` (`to_binding`). -/
def CompareValue.toBinding : CompareValue → Option Binding
  | .binding b => some b
  | .value _ => none

/-- Enum option (`compiler::EnumOption`). -/
inductive EnumOption where
  | binding (b : Binding)
  | value (v : Value)

/-- The binding of an enum option, when it has one (`to_binding`). -/
def EnumOption.toBinding : EnumOption → Option Binding
  | .binding b => some b
  | .value _ => none

/-- Scheduled tuple item (`ops::TupleItem`). -/
inductive TupleItem where
  | ignore
  | bind (b : Binding)
  | compareBinding (b : Binding)
  | compareValue (v : Value)

/-- A comparison op payload (`ops::Comparison`). -/
structure Comparison where
  operator : CompareOp
  left : CompareValue
  right : CompareValue

/-- Executable ops (`ops::Op`).  `done` is `Op::End`.  The source enum
also declares `CalculationCompare`, which the interpreter in
`src/runtime.rs` has no arm for and the optimizer never emits; it is
omitted here because `runtime.rs` gives it no semantics. -/
inductive Op where
  | done
  | beginNot (index : Nat) (sequence_len : Nat)
  | endNot (index : Nat)
  | searchAttributeBinding (binding : Binding) (attr : Symbol) (value_binding : Binding)
  | requireAttributeBinding (binding : Binding) (attr : Symbol) (value_binding : Binding)
  | requireAttributeValue (binding : Binding) (attr : Symbol) (value : Value)
  | requireAttribute (binding : Binding) (attr : Symbol)
  | assertObjectBinding (binding : Binding)
  | compareBinding (binding : Binding) (value : Value)
  | unpackTupleBinding (binding : Binding) (values : List TupleItem)
  | matchEnumBinding (binding : Binding) (options : List EnumOption)
  | calculation (binding : Binding) (operation : Calculation)
  | compare (comparison : Comparison)

/-- Apply tuple item (`ApplyTupleItem`). -/
inductive ApplyTupleItem where
  | value (v : Value)
  | binding (b : Binding)

/-- Application ops (`ops::OpApply`). -/
inductive OpApply where
  | createObject (binding : Binding)
  | createTuple (binding : Binding) (items : List ApplyTupleItem)
  | addBindingAttribute (binding : Binding) (attr : Symbol) (value_binding : Binding)
  | removeBindingAttribute (binding : Binding) (attr : Symbol) (value_binding : Binding)
      (mode : RemovalMode)
  | addValueAttribute (binding : Binding) (attr : Symbol) (value : Value)
  | removeValueAttribute (binding : Binding) (attr : Symbol) (value : Value)
      (mode : RemovalMode)
  | conditional (condition : List Op) (then_apply : List OpApply) (otherwise_apply : List OpApply)

/-! ## Runtime (`src/runtime.rs`) -/

/-- The binding array of one firing. -/
abbrev Bindings := List Value

/-- Indexing `bindings[i]`; `none` models the Rust index panic. -/
def bGet (bs : Bindings) (i : Nat) : Option Value := bs.get? i

/-- Assignment `bindings[i] = v`; `none` models the index panic. -/
def bSet (bs : Bindings) (i : Nat) (v : Value) : Option Bindings :=
  if i < bs.length then some (bs.set i v) else none

/-- The attribute data a `&dyn Access` exposes: for a `Space` its object
map, for a `Transaction` its overlay entries in front of the parent's
(first-match lookup is overlay-first). -/
abbrev AccessView := ObjectData

/-- Attribute list of one object as seen through an access view. -/
def viewAttrs (view : AccessView) (id : Id) : AttrData :=
  (odLookup view id).getD []

/-- Resolution of a comparison side (`CompareValue::resolve`). -/
def CompareValue.resolve (cv : CompareValue) (bs : Bindings) : Option Value :=
  match cv with
  | .binding b => bGet bs b
  | .value v => some v

/-- i64 range bounds. -/
def i64Min : Int := -(2 ^ 63)

/-- Largest i64. -/
def i64Max : Int := 2 ^ 63 - 1

/-- Model of `i64::checked_add`. -/
def checkedAdd (a b : Int) : Option Int :=
  if i64Min ≤ a + b ∧ a + b ≤ i64Max then some (a + b) else none

/-- Model of `i64::checked_sub`. -/
def checkedSub (a b : Int) : Option Int :=
  if i64Min ≤ a - b ∧ a - b ≤ i64Max then some (a - b) else none

/-- Model of `i64::checked_mul`. -/
def checkedMul (a b : Int) : Option Int :=
  if i64Min ≤ a * b ∧ a * b ≤ i64Max then some (a * b) else none

/-- Model of `i64::checked_div` (truncating division; fails on a zero
divisor and on the `i64::MIN / -1` overflow). -/
def checkedDiv (a b : Int) : Option Int :=
  if b = 0 then none
  else if a = i64Min ∧ b = -1 then none
  else some (a.tdiv b)

/-- IEEE-flavoured addition on the `F64` model: exact on rationals, NaN
and infinity combinations as in IEEE (NaN sign not tracked).  No
theorem below depends on a float arithmetic result. -/
def F64.add : F64 → F64 → F64
  | .negNaN, _ => .posNaN
  | _, .negNaN => .posNaN
  | .posNaN, _ => .posNaN
  | _, .posNaN => .posNaN
  | .posInf, .negInf => .posNaN
  | .negInf, .posInf => .posNaN
  | .posInf, _ => .posInf
  | _, .posInf => .posInf
  | .negInf, _ => .negInf
  | _, .negInf => .negInf
  | .negZero, .negZero => .negZero
  | .negZero, .num b => .num b
  | .num a, .negZero => .num a
  | .num a, .num b => .num (a + b)

/-- IEEE-flavoured subtraction on the `F64` model (same caveats as
`F64.add`). -/
def F64.sub : F64 → F64 → F64
  | .negNaN, _ => .posNaN
  | _, .negNaN => .posNaN
  | .posNaN, _ => .posNaN
  | _, .posNaN => .posNaN
  | .posInf, .posInf => .posNaN
  | .negInf, .negInf => .posNaN
  | .posInf, _ => .posInf
  | _, .posInf => .negInf
  | .negInf, _ => .negInf
  | _, .negInf => .posInf
  | .negZero, .negZero => .num 0
  | .negZero, .num b => .num (-b)
  | .num a, .negZero => .num a
  | .num a, .num b => .num (a - b)

/-- Multiplication on the `F64` model: exact on rationals; special-value
combinations are approximated by NaN (sign/zero conventions of IEEE
multiplication are not tracked; no theorem depends on them). -/
def F64.mul : F64 → F64 → F64
  | .num a, .num b => .num (a * b)
  | _, _ => .posNaN

/-- Division on the `F64` model; only reached with a divisor that is not
IEEE-zero, exact on rationals, special values approximated by NaN. -/
def F64.div : F64 → F64 → F64
  | .num a, .num b => if b = 0 then .posNaN else .num (a / b)
  | _, _ => .posNaN

/-- Embedding of `unify_numeric_types`: mixed `Int`/`Float` operands are
coerced to `Float` (via `to_f64`, which always succeeds on `i64`), all
other pairs pass through unchanged. -/
def unify_numeric_types : Value → Value → Option (Value × Value)
  | .int l, .float f => some (.float (i64ToF64 l), .float f)
  | .float f, .int r => some (.float f, .float (i64ToF64 r))
  | l, r => some (l, r)

/-- The per-operator arm of `perform_calculation` after unification:
checked integer arithmetic, float arithmetic with the `right != 0.0`
divisor guard, `none` for every non-`Int`/`Int`, non-`Float`/`Float`
pair. -/
def calcBinOp : ArithBinOp → Value → Value → Option Value
  | .add, .int l, .int r => (checkedAdd l r).map Value.int
  | .add, .float l, .float r => some (.float (F64.add l r))
  | .add, _, _ => none
  | .sub, .int l, .int r => (checkedSub l r).map Value.int
  | .sub, .float l, .float r => some (.float (F64.sub l r))
  | .sub, _, _ => none
  | .mul, .int l, .int r => (checkedMul l r).map Value.int
  | .mul, .float l, .float r => some (.float (F64.mul l r))
  | .mul, _, _ => none
  | .div, .int l, .int r => (checkedDiv l r).map Value.int
  | .div, .float l, .float r =>
    if F64.ieeeEq r (.num 0) then none else some (.float (F64.div l r))
  | .div, _, _ => none

/-- Embedding of `perform_calculation`.  The outer `Option` is a panic
(an out-of-range binding index); the inner `Option` is the op's
failure result (`None` in the source), which triggers backtracking. -/
def performCalculation (bs : Bindings) : Calculation → Option (Option Value)
  | .value v => some (some v)
  | .binding b =>
    match bGet bs b with
    | some v => some (some v)
    | none => none
  | .binOp op l r =>
    match performCalculation bs l with
    | none => none
    | some none => some none
    | some (some lv) =>
      match performCalculation bs r with
      | none => none
      | some none => some none
      | some (some rv) =>
        match unify_numeric_types lv rv with
        | none => some none
        | some (l2, r2) => some (calcBinOp op l2 r2)

/-- Search frames (`runtime::Frame`).  The frame stack is kept top-first
(`Vec::push`/`pop` act on the end of the vector, here on the head). -/
inductive Frame where
  | iter (iter : List Value) (binding : Nat) (continue_op_index : Nat)
  | notScope (index : Nat) (continue_ok : Nat)

/-- Control result of the search callback (`RuntimeControl`). -/
inductive RuntimeControl where
  | cont
  | stop
deriving DecidableEq

/-- Control flow of one op (`runtime::Flow`). -/
inductive Flow where
  | nextOp
  | nextBranch

/-- Outcome of executing one op (the body of the big `match` in
`search_bindings`): a flow with the updated frames/bindings/state, a
successful stop (`End` with `RuntimeControl::Stop`), or a panic. -/
inductive ExecOut (σ : Type) where
  | flow (f : Flow) (frames : List Frame) (bindings : Bindings) (c : σ)
  | stop (bindings : Bindings) (c : σ)
  | panic

/-- The tuple-unpacking walk of `UnpackTupleBinding`: `all` over the
zipped items, short-circuiting on the first mismatch; `Bind` writes
stick even when a later item fails.  `none` models the index panic. -/
def unpackItems : List TupleItem → List Value → Bindings → Option (Bool × Bindings)
  | item :: items, v :: vs, bs =>
    match item with
    | .ignore => unpackItems items vs bs
    | .bind x =>
      match bSet bs x v with
      | some bs2 => unpackItems items vs bs2
      | none => none
    | .compareBinding x =>
      match bGet bs x with
      | some xv => if valueEqb xv v then unpackItems items vs bs else some (false, bs)
      | none => none
    | .compareValue ev =>
      if valueEqb ev v then unpackItems items vs bs else some (false, bs)
  | _, _, bs => some (true, bs)

/-- The enum-matching loop of `MatchEnumBinding`; `none` is a panic. -/
def matchEnum (bs : Bindings) (bv : Value) : List EnumOption → Option Bool
  | [] => some false
  | .binding mb :: rest =>
    match bGet bs mb with
    | some mv => if valueEqb bv mv then some true else matchEnum bs bv rest
    | none => none
  | .value v :: rest =>
    if valueEqb bv v then some true else matchEnum bs bv rest

/-- Comparison outcome table of `Op::Compare` (the `matched` match). -/
def compareMatched (operator : CompareOp) : Option Ordering → Bool
  | some .eq =>
    match operator with
    | .equal | .lessOrEqual | .greaterOrEqual => true
    | _ => false
  | some .lt =>
    match operator with
    | .less | .lessOrEqual | .notEqual => true
    | _ => false
  | some .gt =>
    match operator with
    | .greater | .greaterOrEqual | .notEqual => true
    | _ => false
  | none =>
    match operator with
    | .notEqual => true
    | _ => false

/-- Truncation at the `NotScope` frame with the given index
(`EndNot`): `frames.iter().position(..)` finds the bottom-most matching
frame of the `Vec`, and `truncate` drops it together with everything
above it.  With the top-first representation this keeps the part
strictly below the deepest match; `none` models the
`expect("corresponding not-scope frame")` panic. -/
def truncAtNot (index : Nat) : List Frame → Option (List Frame)
  | [] => none
  | f :: rest =>
    match truncAtNot index rest with
    | some r => some r
    | none =>
      match f with
      | .notScope fidx _ => if fidx = index then some rest else none
      | .iter _ _ _ => none

/-- Execution of a single op at `op_index` (the `let flow = match … }`
block of `search_bindings`). -/
def execOp (ctrl : σ → Bindings → RuntimeControl × σ) (view : AccessView)
    (op_index : Nat) (op : Op) (frames : List Frame) (bs : Bindings) (c : σ) :
    ExecOut σ :=
  match op with
  | .assertObjectBinding b =>
    match bGet bs b with
    | none => .panic
    | some v =>
      match v.object with
      | some _ => .flow .nextOp frames bs c
      | none => .flow .nextBranch frames bs c
  | .requireAttributeBinding b attr vb =>
    match bGet bs b with
    | none => .panic
    | some v =>
      match v.object with
      | none => .flow .nextBranch frames bs c
      | some id =>
        match bGet bs vb with
        | none => .panic
        | some vv =>
          if attrsHas (viewAttrs view id) attr (fun ex => valueEqb ex vv)
          then .flow .nextOp frames bs c
          else .flow .nextBranch frames bs c
  | .requireAttributeValue b attr v =>
    match bGet bs b with
    | none => .panic
    | some bv =>
      match bv.object with
      | none => .flow .nextBranch frames bs c
      | some id =>
        if attrsHas (viewAttrs view id) attr (fun ex => valueEqb ex v)
        then .flow .nextOp frames bs c
        else .flow .nextBranch frames bs c
  | .requireAttribute b attr =>
    match bGet bs b with
    | none => .panic
    | some bv =>
      match bv.object with
      | none => .flow .nextBranch frames bs c
      | some id =>
        if attrsHasNamed (viewAttrs view id) attr
        then .flow .nextOp frames bs c
        else .flow .nextBranch frames bs c
  | .compareBinding b v =>
    match bGet bs b with
    | none => .panic
    | some bv =>
      if valueEqb bv v then .flow .nextOp frames bs c else .flow .nextBranch frames bs c
  | .searchAttributeBinding b attr vb =>
    match bGet bs b with
    | none => .panic
    | some bv =>
      match bv.object with
      | some id =>
        .flow .nextBranch
          (Frame.iter (iterNamed (viewAttrs view id) attr) vb (op_index + 1) :: frames)
          bs c
      | none => .flow .nextBranch frames bs c
  | .unpackTupleBinding b items =>
    match bGet bs b with
    | none => .panic
    | some bv =>
      match bv.tupleVals with
      | some vs =>
        if vs.length = items.length then
          match unpackItems items vs bs with
          | none => .panic
          | some (true, bs2) => .flow .nextOp frames bs2 c
          | some (false, bs2) => .flow .nextBranch frames bs2 c
        else .flow .nextBranch frames bs c
      | none => .flow .nextBranch frames bs c
  | .matchEnumBinding b options =>
    match bGet bs b with
    | none => .panic
    | some bv =>
      match matchEnum bs bv options with
      | none => .panic
      | some true => .flow .nextOp frames bs c
      | some false => .flow .nextBranch frames bs c
  | .compare cmp =>
    match cmp.left.resolve bs with
    | none => .panic
    | some lv =>
      match cmp.right.resolve bs with
      | none => .panic
      | some rv =>
        match unify_numeric_types lv rv with
        | none => .flow .nextBranch frames bs c
        | some (l2, r2) =>
          if compareMatched cmp.operator (some (valueCompare l2 r2))
          then .flow .nextOp frames bs c
          else .flow .nextBranch frames bs c
  | .calculation b operation =>
    match performCalculation bs operation with
    | none => .panic
    | some (some v) =>
      match bSet bs b v with
      | some bs2 => .flow .nextOp frames bs2 c
      | none => .panic
    | some none => .flow .nextBranch frames bs c
  | .beginNot idx len =>
    .flow .nextOp (Frame.notScope idx (op_index + len + 1) :: frames) bs c
  | .endNot idx =>
    match truncAtNot idx frames with
    | none => .panic
    | some frames2 => .flow .nextBranch frames2 bs c
  | .done =>
    match ctrl c bs with
    | (.cont, c2) => .flow .nextBranch frames bs c2
    | (.stop, c2) => .stop bs c2

/-- Result of the inner `'next_branch` unwinding loop. -/
inductive UnwindOut where
  | fail
  | go (op_index : Nat) (frames : List Frame) (bindings : Bindings)
  | panic

/-- The `'next_branch` loop: consult the top frame; a `NotScope` jumps
to its `continue_ok` and pops; an `Iter` yields its next value (assign
and jump) or pops when exhausted; an empty stack fails the search. -/
def unwind : List Frame → Bindings → UnwindOut
  | [], _ => .fail
  | .notScope _ cont :: rest, bs => .go cont rest bs
  | .iter [] _ _ :: rest, bs => unwind rest bs
  | .iter (v :: vs) b cont :: rest, bs =>
    match bSet bs b v with
    | some bs2 => .go cont (.iter vs b cont :: rest) bs2
    | none => .panic

/-- Machine state of `search_bindings`: program counter, frame stack,
binding array and the callback's captured state. -/
structure MState (σ : Type) where
  op_index : Nat
  frames : List Frame
  bindings : Bindings
  ctrlState : σ

/-- Outcome of one iteration of the main loop. -/
inductive StepOut (σ : Type) where
  | next (st : MState σ)
  | found (bindings : Bindings) (c : σ)
  | failed (bindings : Bindings) (c : σ)
  | panic

/-- One full iteration of the `loop` in `search_bindings`: read
`ops[op_index]` (out of range is the Rust index panic), execute it, and
resolve the resulting flow (`NextOp` increments the pc; `NextBranch`
runs the unwinding loop). -/
def step (ctrl : σ → Bindings → RuntimeControl × σ) (view : AccessView)
    (ops : List Op) (st : MState σ) : StepOut σ :=
  match ops.get? st.op_index with
  | none => .panic
  | some op =>
    match execOp ctrl view st.op_index op st.frames st.bindings st.ctrlState with
    | .panic => .panic
    | .stop bs c => .found bs c
    | .flow .nextOp frames bs c => .next ⟨st.op_index + 1, frames, bs, c⟩
    | .flow .nextBranch frames bs c =>
      match unwind frames bs with
      | .fail => .failed bs c
      | .panic => .panic
      | .go pc frames2 bs2 => .next ⟨pc, frames2, bs2, c⟩

/-- Terminal result of a search run: `found` is `search_bindings`
returning `true`, `exhausted` is `false`, `panicked` is a Rust panic. -/
inductive SearchRes (σ : Type) where
  | found (bindings : Bindings) (c : σ)
  | exhausted (bindings : Bindings) (c : σ)
  | panicked

/-- Fuelled main loop of `search_bindings`; `none` means out of fuel
(the fuel bound below is proved sufficient for every input). -/
def runFuel (ctrl : σ → Bindings → RuntimeControl × σ) (view : AccessView)
    (ops : List Op) : Nat → MState σ → Option (SearchRes σ)
  | 0, _ => none
  | fuel + 1, st =>
    match step ctrl view ops st with
    | .next st2 => runFuel ctrl view ops fuel st2
    | .found bs c => some (.found bs c)
    | .failed bs c => some (.exhausted bs c)
    | .panic => some .panicked

/-! ### Termination potential for the search machine -/

/-- Longest attribute group in one attribute list. -/
def attrsMaxLen : AttrData → Nat
  | [] => 0
  | (_, vs) :: rest => max vs.length (attrsMaxLen rest)

/-- Longest attribute group reachable through an access view; every
iterator a `SearchAttributeBinding` can push is at most this long. -/
def maxIterLen : AccessView → Nat
  | [] => 0
  | (_, a) :: rest => max (attrsMaxLen a) (maxIterLen rest)

/-- Potential of a program counter: `K ^ (N + 1 - min pc (N + 1))`,
exponentially decreasing as the pc advances through the `N` ops. -/
def pcPot (N K pc : Nat) : Nat := K ^ (N + 1 - min pc (N + 1))

/-- Potential of one frame, keyed by its forward continuation target:
iteration frames weigh `(remaining + 1)` continuation potentials. -/
def framePot (N K : Nat) : Frame → Nat
  | .iter vs _ cont => (vs.length + 1) * pcPot N K cont
  | .notScope _ cont => pcPot N K cont

/-- Total potential of a frame stack. -/
def framesPot (N K : Nat) : List Frame → Nat
  | [] => 0
  | f :: rest => framePot N K f + framesPot N K rest

/-- Potential of a machine state: every loop iteration that continues
strictly decreases it (proved below), so it bounds the number of steps
of `search_bindings` in terms of the op-list length and the attribute
iteration sizes. -/
def statePot (N K : Nat) (st : MState σ) : Nat :=
  pcPot N K st.op_index + framesPot N K st.frames

/-- The fuel `search_bindings` is run with: the initial potential (with
base `maxIterLen view + 3`) plus one step for the terminal outcome. -/
def searchFuel (view : AccessView) (ops : List Op) (st : MState σ) : Nat :=
  statePot ops.length (maxIterLen view + 3) st + 1

/-- Embedding of `search_bindings`: run the machine from pc 0 with an
empty frame stack; the fuel is sufficient (see the C4 theorems), so the
`.getD` default is never taken. -/
def search_bindings (ops : List Op) (view : AccessView) (bs : Bindings)
    (ctrl : σ → Bindings → RuntimeControl × σ) (c0 : σ) : SearchRes σ :=
  (runFuel ctrl view ops (searchFuel view ops ⟨0, [], bs, c0⟩) ⟨0, [], bs, c0⟩).getD .panicked

/-- Embedding of `find_first_bindings`: a search whose control stops at
the first satisfying assignment. -/
def find_first_bindings (ops : List Op) (view : AccessView) (bs : Bindings) :
    SearchRes Unit :=
  search_bindings ops view bs (fun u _b2 => (RuntimeControl.stop, u)) ()

/-! ## Optimizer (`src/compiler/optimizer.rs`)

Cost values (`f64` in the source) are modelled as exact rationals; the
decimal literals below (`1.2`, `1.4`, ...) are the exact decimal
fractions.  No theorem depends on a cost value, only on the structural
behaviour of the scheduler.  The optimizer's `Sequence` counter is
threaded explicitly as a `Nat`.  The beam search (`assemble_ops`) and
`transform_op` recurse into each other through `Not` bodies; the
recursion is paid for by a structural fuel parameter (`Nat.rec`), which
only the `Not` arm consumes. -/

/-- Open tuple item of a cfg tuple binding (`cfg_ops::OpenTupleItem`). -/
inductive OpenTupleItem where
  | ignore
  | binding (b : Binding)
  | compare (v : Value)

/-- Selection cfg-ops (`cfg_ops::CfgOpSelect`). -/
inductive CfgOpSelect where
  | assertObjectBinding (binding : Binding)
  | compareBinding (binding : Binding) (value : Value)
  | tupleBinding (binding : Binding) (values : List OpenTupleItem)
  | enumBinding (binding : Binding) (options : List EnumOption)
  | requireValueAttribute (binding : Binding) (attr : Symbol) (value : Value)
  | attributeBinding (binding : Binding) (attr : Symbol) (value_binding : Binding)
  | requireAttribute (binding : Binding) (attr : Symbol)
  | not (body : List CfgOpSelect)
  | compare (operator : CompareOp) (left : CompareValue) (right : CompareValue)
  | calculation (result_binding : Binding) (operation : Calculation)

/-- The bindings mentioned by a calculation
(`Calculation::bindings` via `for_each_binding`). -/
def Calculation.bindingsOf : Calculation → List Binding
  | .value _ => []
  | .binding b => [b]
  | .binOp _ l r => l.bindingsOf ++ r.bindingsOf

/-- Beam-search state (`optimizer::OpState`): assembled ops, scalar
cost, and the provided binding set (kept as an insertion-ordered list,
as in the source). -/
structure OpState where
  ops : List Op
  cost : ℚ
  provided : List Binding

/-- Membership test `OpState::bound`. -/
def OpState.bound (st : OpState) (b : Binding) : Bool :=
  st.provided.contains b

/-- The `OpState::all_bound` helper. -/
def OpState.allBound (st : OpState) (bs : List Binding) : Bool :=
  bs.all (fun b => st.provided.contains b)

/-- The `OpState::advance` step: append the op, add the new bindings
that are not yet provided (in order), and adjust the cost. -/
def OpState.advance (st : OpState) (op : Op) (adjust_cost : ℚ → ℚ)
    (new_bindings : List Binding) : OpState :=
  { ops := st.ops ++ [op]
    provided := new_bindings.foldl
      (fun pr b => if pr.contains b then pr else pr ++ [b]) st.provided
    cost := adjust_cost st.cost }

/-- The item loop of the `TupleBinding` arm of `transform_op`:
accumulate the newly bound items and the scheduled tuple items. -/
def tupleTransform (prev : OpState) :
    List OpenTupleItem → List Binding → List TupleItem → List Binding × List TupleItem
  | [], nb, nv => (nb, nv)
  | .ignore :: rest, nb, nv => tupleTransform prev rest nb (nv ++ [.ignore])
  | .compare v :: rest, nb, nv => tupleTransform prev rest nb (nv ++ [.compareValue v])
  | .binding b :: rest, nb, nv =>
    if prev.bound b || nb.contains b
    then tupleTransform prev rest nb (nv ++ [.compareBinding b])
    else tupleTransform prev rest (nb ++ [b]) (nv ++ [.bind b])

/-- Stable ordered insertion (insert after all elements that compare
less-or-equal), the building block of the stable sort below. -/
def insertAsc (le : α → α → Bool) (x : α) : List α → List α
  | [] => [x]
  | y :: ys => if le y x then y :: insertAsc le x ys else x :: y :: ys

/-- Stable insertion sort, extensionally the stable `Vec::sort_by` the
beam search uses to order branches by ascending cost. -/
def stableSort (le : α → α → Bool) (l : List α) : List α :=
  l.foldl (fun acc x => insertAsc le x acc) []

/-- Insert at a position (`Vec::insert`). -/
def insertAt (n : Nat) (x : α) (l : List α) : List α :=
  l.take n ++ x :: l.drop n

/-- A beam branch: partial `OpState` plus the remaining cfg ops. -/
abbrev Branch := OpState × List CfgOpSelect

/-- Transformer function type threaded through the beam-search helpers:
the partially applied, fuel-limited `transform_op`. -/
abbrev TransformFn := CfgOpSelect → OpState → Nat → Option OpState × Nat

/-- Inner candidate loop of `assemble_ops`
(`for next_op_index in 0..rest_ops.len()`): try to transform each
remaining op against the branch state; a successful candidate keeps the
other remaining ops (`pre ++ tail`).  The sequence counter threads
through every attempt, also the failed ones, as `&mut Sequence` does. -/
def expandOne (tf : TransformFn) (branch : OpState) :
    List CfgOpSelect → List CfgOpSelect → Nat → List Branch × Nat
  | _pre, [], seq => ([], seq)
  | pre, op :: tail, seq =>
    let r := tf op branch seq
    let more := expandOne tf branch (pre ++ [op]) tail r.2
    match r.1 with
    | some st2 => ((st2, pre ++ tail) :: more.1, more.2)
    | none => more

/-- Drain loop over the current branches (`branches.drain(..)`). -/
def expandBranches (tf : TransformFn) :
    List Branch → Nat → List Branch × Nat
  | [], seq => ([], seq)
  | (branch, rest_ops) :: more, seq =>
    let exp := expandOne tf branch [] rest_ops seq
    let expMore := expandBranches tf more exp.2
    (exp.1 ++ expMore.1, expMore.2)

/-- The `for _ in 0..select.len()` rounds of `assemble_ops`: expand all
branches, sort ascending by cost (stable), keep the best 16; `none`
models the `return None` when no branch remains. -/
def stepLoop (tf : TransformFn) :
    Nat → List Branch → Nat → Option (List Branch) × Nat
  | 0, branches, seq => (some branches, seq)
  | n + 1, branches, seq =>
    if branches.isEmpty then (none, seq)
    else
      let next := expandBranches tf branches seq
      stepLoop tf n
        (List.take 16 (stableSort (fun a b => decide (a.1.cost ≤ b.1.cost)) next.1))
        next.2

/-- The body of `assemble_ops`, parameterized by the transformer: start
from one branch holding all the select ops, run the rounds, and return
the cheapest branch.  A surviving branch with remaining ops would be
the source's `assert!(rest_ops.is_empty())` panic; it cannot occur
because every round removes one op from every branch. -/
def assembleOpsG (tf : TransformFn) (select : List CfgOpSelect) (prev : OpState)
    (seq : Nat) : Option OpState × Nat :=
  let r := stepLoop tf select.length [(prev, select)] seq
  match r.1 with
  | none => (none, r.2)
  | some [] => (none, r.2)
  | some ((selected, rest_ops) :: _) =>
    if rest_ops.isEmpty then (some selected, r.2) else (none, r.2)

/-- One layer of `transform_op`, parameterized by the transformer used
inside `Not` bodies.  Arm for arm the admissibility conditions, emitted
ops, cost adjustments and new bindings of the source table. -/
def transformOpStep (tf : TransformFn) : TransformFn := fun op prev seq =>
  match op with
  | .assertObjectBinding b =>
    if prev.bound b
    then (some (prev.advance (.assertObjectBinding b) (fun c => c - 1.0) []), seq)
    else (none, seq)
  | .compareBinding b v =>
    if prev.bound b
    then (some (prev.advance (.compareBinding b v) (fun c => c - 1.2) []), seq)
    else (none, seq)
  | .tupleBinding b values =>
    if prev.bound b then
      let r := tupleTransform prev values [] []
      (some (prev.advance (.unpackTupleBinding b r.2)
        (fun c => if r.1.isEmpty then c - 1.2 else c - 1.0) r.1), seq)
    else (none, seq)
  | .enumBinding b options =>
    if prev.bound b && prev.allBound (options.filterMap EnumOption.toBinding)
    then (some (prev.advance (.matchEnumBinding b options) (fun c => c - 1.2) []), seq)
    else (none, seq)
  | .requireValueAttribute b attr v =>
    if prev.bound b
    then (some (prev.advance (.requireAttributeValue b attr v) (fun c => c - 1.3) []), seq)
    else (none, seq)
  | .requireAttribute b attr =>
    if prev.bound b
    then (some (prev.advance (.requireAttribute b attr) (fun c => c - 2.0) []), seq)
    else (none, seq)
  | .attributeBinding b attr vb =>
    if prev.bound b then
      if prev.bound vb
      then (some (prev.advance (.requireAttributeBinding b attr vb)
        (fun c => c - 1.2) []), seq)
      else (some (prev.advance (.searchAttributeBinding b attr vb)
        (fun c => c * 1.4) [vb]), seq)
    else (none, seq)
  | .compare operator left right =>
    if (left.toBinding.map (fun b => prev.bound b)).getD true
      && (right.toBinding.map (fun b => prev.bound b)).getD true
    then (some (prev.advance (.compare ⟨operator, left, right⟩) (fun c => c - 2.0) []), seq)
    else (none, seq)
  | .calculation rb operation =>
    if prev.allBound operation.bindingsOf
    then (some (prev.advance (.calculation rb operation) (fun c => c) [rb]), seq)
    else (none, seq)
  | .not body =>
    let r := assembleOpsG tf body prev seq
    match r.1 with
    | some body_state =>
      let index := r.2
      let ops2 := body_state.ops ++ [Op.endNot index]
      let sequence_len := ops2.length - prev.ops.length
      (some { body_state with
                ops := insertAt prev.ops.length (Op.beginNot index sequence_len) ops2 },
       r.2 + 1)
    | none => (none, r.2)

/-- The fuel-limited `transform_op`; the fuel, consumed only when
entering a `Not` body, is the maximal `Not` nesting depth the call can
handle.  Defined through `Nat.rec` so that it computes by reduction. -/
def transformOp (fuel : Nat) : TransformFn :=
  Nat.rec (fun _ _ seq => (none, seq)) (fun _ ih => transformOpStep ih) fuel

/-- The fuel-limited `assemble_ops`. -/
def assembleOps (fuel : Nat) (select : List CfgOpSelect) (prev : OpState)
    (seq : Nat) : Option OpState × Nat :=
  assembleOpsG (transformOp fuel) select prev seq


/-! ## System runs (`src/system.rs`) and rule application (`apply_changes`)

The global `OBJECT_ID_SEQUENCE` counter behind `create_id` is threaded
explicitly as a `Nat`; the `&mut [Value]` binding array every firing
mutates in place is threaded as an explicit `Bindings` value.  A Rust
panic (index out of range) is the outer `none`. -/

/-- The flattened access view of a transaction: its overlay entries in
front of the parent view, so first-match lookup is overlay-first
(matches `Transaction.attributes`). -/
def Transaction.view (tx : Transaction) : AccessView :=
  tx.local_objects ++ tx.outerView

/-- Resolution of one `ApplyTupleItem` (the `CreateTuple` item map);
`none` is the binding-index panic. -/
def applyTupleItem (bs : Bindings) : ApplyTupleItem → Option Value
  | .value v => some v
  | .binding b => bGet bs b

/-- Resolution of a whole `CreateTuple` item list. -/
def applyTupleValues (bs : Bindings) : List ApplyTupleItem → Option (List Value)
  | [] => some []
  | item :: rest =>
    match applyTupleItem bs item with
    | none => none
    | some v =>
      match applyTupleValues bs rest with
      | none => none
      | some vs => some (v :: vs)

mutual

/-- Embedding of `runtime::apply_changes` on a transaction: run the
apply ops in order; `some (false, ..)` is an early `return false`
(the caller rolls the transaction back), `some (true, ..)` is reaching
the end, `none` is a panic.  The transaction, binding array and id
counter thread through because the source mutates them in place. -/
def applyChanges : List OpApply → Transaction → Bindings → Nat →
    Option (Bool × Transaction × Bindings × Nat)
  | [], tx, bs, ctr => some (true, tx, bs, ctr)
  | op :: rest, tx, bs, ctr =>
    match applyOne op tx bs ctr with
    | none => none
    | some (false, tx2, bs2, ctr2) => some (false, tx2, bs2, ctr2)
    | some (true, tx2, bs2, ctr2) => applyChanges rest tx2 bs2 ctr2

/-- One `OpApply` of `apply_changes`.  `CreateObject` draws a fresh id
from the sequence; the `Add`/`Remove` ops return `false` when the
object binding does not hold an object; a failed removal returns
`false` only in `RemovalMode::Required`; `Conditional` runs its
condition as a `find_first_bindings` search on a scratch copy of the
binding array and applies the matching arm to the real one. -/
def applyOne : OpApply → Transaction → Bindings → Nat →
    Option (Bool × Transaction × Bindings × Nat)
  | .createObject b, tx, bs, ctr =>
    match bSet bs b (.obj ctr) with
    | none => none
    | some bs2 => some (true, tx, bs2, ctr + 1)
  | .createTuple b items, tx, bs, ctr =>
    match applyTupleValues bs items with
    | none => none
    | some vs =>
      match bSet bs b (.tuple vs) with
      | none => none
      | some bs2 => some (true, tx, bs2, ctr)
  | .addBindingAttribute b attr vb, tx, bs, ctr =>
    match bGet bs b with
    | none => none
    | some bv =>
      match bv.object with
      | none => some (false, tx, bs, ctr)
      | some id =>
        match bGet bs vb with
        | none => none
        | some v =>
          some (true, tx.modifyAttrs id (fun a => attrAdd a attr v), bs, ctr)
  | .removeBindingAttribute b attr vb mode, tx, bs, ctr =>
    match bGet bs b with
    | none => none
    | some bv =>
      match bv.object with
      | none => some (false, tx, bs, ctr)
      | some id =>
        match bGet bs vb with
        | none => none
        | some v =>
          let removed := (removeSingle (tx.attributes id) attr
            (fun w => valueEqb w v)).1
          let tx2 := tx.modifyAttrs id
            (fun a => (removeSingle a attr (fun w => valueEqb w v)).2)
          match removed, mode with
          | none, .required => some (false, tx2, bs, ctr)
          | _, _ => some (true, tx2, bs, ctr)
  | .addValueAttribute b attr v, tx, bs, ctr =>
    match bGet bs b with
    | none => none
    | some bv =>
      match bv.object with
      | none => some (false, tx, bs, ctr)
      | some id =>
        some (true, tx.modifyAttrs id (fun a => attrAdd a attr v), bs, ctr)
  | .removeValueAttribute b attr v mode, tx, bs, ctr =>
    match bGet bs b with
    | none => none
    | some bv =>
      match bv.object with
      | none => some (false, tx, bs, ctr)
      | some id =>
        let removed := (removeSingle (tx.attributes id) attr
          (fun w => valueEqb w v)).1
        let tx2 := tx.modifyAttrs id
          (fun a => (removeSingle a attr (fun w => valueEqb w v)).2)
        match removed, mode with
        | none, .required => some (false, tx2, bs, ctr)
        | _, _ => some (true, tx2, bs, ctr)
  | .conditional condition then_apply otherwise_apply, tx, bs, ctr =>
    match find_first_bindings condition tx.view bs with
    | .panicked => none
    | .found _ _ => applyChanges then_apply tx bs ctr
    | .exhausted _ _ => applyChanges otherwise_apply tx bs ctr

end

/-- The compiled rule (`compiler::CompiledRule`). -/
structure CompiledRule where
  name : Symbol
  bindings_len : Nat
  ops : List Op
  apply_ops : List OpApply

/-- Embedding of `runtime::attempt_rule_firing` over a `Space`: search
for a first satisfying assignment and apply the changes inside a fresh
transaction (`space.transaction`), committing exactly when both
succeed; the `Bool` is the source's return value.  On a failed match or
application the space is left unchanged (rollback), but the binding
array and the id counter keep their mutations, as the `&mut` arguments
do in the source. -/
def attemptRuleFiring (rule : CompiledRule) (s : Space) (bs : Bindings)
    (ctr : Nat) : Option (Bool × Space × Bindings × Nat) :=
  let tx := s.newTransaction
  match find_first_bindings rule.ops tx.view bs with
  | .panicked => none
  | .exhausted bs2 _ => some (false, s, bs2, ctr)
  | .found bs2 _ =>
    match applyChanges rule.apply_ops tx bs2 ctr with
    | none => none
    | some (false, _, bs3, ctr2) => some (false, s, bs3, ctr2)
    | some (true, tx2, bs3, ctr2) => some (true, s.commitTx tx2, bs3, ctr2)

/-- The `System` struct (the fields its run methods read). -/
structure System where
  input_variables : List Symbol
  max_binding_len : Nat
  rules : List CompiledRule

/-- Runtime errors of a system run (`system::RuntimeError`). -/
inductive RuntimeError where
  | stopped (count : Nat)
  | invalidInputArgumentLen (expected received : Nat)
deriving DecidableEq

/-- Embedding of `System::make_bindings_storage` (with `verify_inputs`
inlined): the input ids as object values, padded with `Int(0)` up to
the system's maximal binding length.  A wrong input count is the
`InvalidInputArgumentLen` error; more inputs than the maximal binding
length is the `expect("less inputs than max bindings")` panic
(`none`). -/
def System.make_bindings_storage (sys : System) (inputs : List Id) :
    Option (Except RuntimeError Bindings) :=
  if inputs.length = sys.input_variables.length then
    if sys.max_binding_len < inputs.length then none
    else some (.ok (inputs.map Value.obj ++
      List.replicate (sys.max_binding_len - inputs.length) (Value.int 0)))
  else some (.error (.invalidInputArgumentLen
    sys.input_variables.length inputs.length))

/-- The inner `for rule in &self.rules` pass of
`run_saturation_with_control`: attempt each rule in order; the first
firing short-circuits with the fired rule's name and the updated state
(`continue 'firing`); `some none` is the fall-through (no rule fired),
`none` a panic. -/
def tryRules : List CompiledRule → Space → Bindings → Nat →
    Option (Option (Symbol × Space × Bindings × Nat))
  | [], _, _, _ => some none
  | rule :: rest, s, bs, ctr =>
    match attemptRuleFiring rule s bs ctr with
    | none => none
    | some (true, s2, bs2, ctr2) => some (some (rule.name, s2, bs2, ctr2))
    | some (false, s2, bs2, ctr2) => tryRules rest s2 bs2 ctr2

/-- The outer `'firing: loop` of `run_saturation_with_control`,
fuelled: each round is one pass over the rules; a firing consults the
control callback (state-threaded, as the source's `FnMut` closure) with
the incremented running total; `Stop` returns the `Stopped` error with
the current count, `Continue` restarts the rule pass.  `some none` is
fuel exhaustion (the source loops on), `none` a panic. -/
def runSatLoop (ctrl : κ → Symbol → Space → Nat → RuntimeControl × κ)
    (rules : List CompiledRule) :
    Nat → κ → Nat → Space → Bindings → Nat →
    Option (Option (Except RuntimeError Nat))
  | 0, _, _, _, _, _ => some none
  | fuel + 1, k, run_count, s, bs, ctr =>
    match tryRules rules s bs ctr with
    | none => none
    | some none => some (some (.ok run_count))
    | some (some (rule_name, s2, bs2, ctr2)) =>
      match ctrl k rule_name s2 (run_count + 1) with
      | (.cont, k2) => runSatLoop ctrl rules fuel k2 (run_count + 1) s2 bs2 ctr2
      | (.stop, _) => some (some (.error (.stopped (run_count + 1))))

/-- Embedding of `System::run_saturation_with_control`: build the
binding storage (propagating its error), then run the firing loop from
count 0. -/
def runSaturationWithControl (sys : System)
    (ctrl : κ → Symbol → Space → Nat → RuntimeControl × κ) (k0 : κ)
    (fuel : Nat) (s : Space) (inputs : List Id) (ctr : Nat) :
    Option (Option (Except RuntimeError Nat)) :=
  match sys.make_bindings_storage inputs with
  | none => none
  | some (.error e) => some (some (.error e))
  | some (.ok bs) => runSatLoop ctrl sys.rules fuel k0 0 s bs ctr

/-- Embedding of `system::control_limit_total`: stop as soon as the
running total reaches the limit (`total_count >= total_limit`). -/
def controlLimitTotal (total_limit : Nat) : Symbol → Space → Nat → RuntimeControl :=
  fun _name _space total_count =>
    if total_limit ≤ total_count then .stop else .cont


/-! ## AST (`src/ast.rs`) and cfg lowering (`src/compiler/cfg.rs`)

Spans carry only what the compiler reads from them: the
`location_line` number.  `ast::Literal` values appear through
`Literal::to_value`.  The `RefCell`-shared `instance_counts` /
`access_counts` maps and the shared `AtomicUsize` index sequence are
fields of the explicitly threaded `Env`; the `Not` arm's `env.clone()`
shares them, so after a `Not` body only `visible_bindings` is restored
to the outer scope's map.  `HashMap`s are association lists with unique
keys (`alookup`/`ainsert`/`abump`). -/

/-- Source position, reduced to its line number. -/
abbrev Span := Nat

/-- `ast::Variable`: a wildcard or a named variable. -/
inductive AstVariable where
  | wildcard
  | ident (name : String)
deriving DecidableEq

/-- `Variable::as_str`. -/
def AstVariable.as_str : AstVariable → Option String
  | .wildcard => none
  | .ident name => some name

/-- `ast::Literal`, through the lens of `Literal::to_value`:
symbol, int or float payload. -/
inductive Literal where
  | symbol (s : Symbol)
  | int (n : Int)
  | float (f : F64)

/-- `Literal::to_value`. -/
def Literal.to_value : Literal → Value
  | .symbol s => .sym s
  | .int n => .int n
  | .float f => .float f

/-- `ast::Enumerable`. -/
inductive Enumerable where
  | literal (l : Literal)
  | var (v : AstVariable)

mutual

/-- `ast::ValueSpec` (kind plus position). -/
inductive ValueSpec where
  | mk (kind : ValueSpecKind) (position : Span)

/-- `ast::ValueSpecKind`; the `Bindable { variable, inner }` wrappers
of the tuple/enum/struct payloads are inlined as a leading
`direct` variable. -/
inductive ValueSpecKind where
  | literal (l : Literal)
  | var (v : AstVariable)
  | tuple (direct : AstVariable) (items : List ValueSpec)
  | enum (direct : AstVariable) (options : List Enumerable)
  | struct (direct : AstVariable) (attributes : List AttributeSpec)

/-- `ast::AttributeSpec` (position, attribute name, value spec). -/
inductive AttributeSpec where
  | mk (position : Span) (attr : Symbol) (value_spec : ValueSpec)

end

/-- `ast::BindingAttributeSpec`. -/
structure BindingAttributeSpec where
  position : Span
  var : AstVariable
  attribute_spec : AttributeSpec

/-- `ast::BindingSpec`. -/
structure BindingSpec where
  position : Span
  var : AstVariable
  value_spec : ValueSpec

/-- `ast::Comparable`. -/
inductive Comparable where
  | int (n : Int)
  | float (f : F64)
  | var (v : AstVariable)

/-- `ast::Comparison`. -/
structure AstComparison where
  position : Span
  ordering : CompareOp
  left : Comparable
  right : Comparable

/-- `ast::Calculation` (the source spells the operator arm `BimOp`). -/
inductive AstCalculation where
  | int (n : Int)
  | float (f : F64)
  | var (v : AstVariable)
  | bimOp (op : ArithBinOp) (left : AstCalculation) (right : AstCalculation)

/-- `ast::RuleSelect`. -/
inductive RuleSelect where
  | binding (spec : BindingSpec)
  | bindingAttribute (spec : BindingAttributeSpec)
  | comparison (c : AstComparison)
  | not (subs : List RuleSelect)
  | calculation (v : AstVariable) (c : AstCalculation) (position : Span)

/-- `ast::RuleApply`.  The `ast.rs` in this tree carries an extra
`bool` on `Remove` that the cited `cfg.rs` stage does not destructure;
only the spec is represented. -/
inductive RuleApply where
  | add (spec : BindingAttributeSpec)
  | remove (spec : BindingAttributeSpec)

/-- `ast::Rule` (the fields `ast_to_cfg` reads). -/
structure AstRule where
  name : Symbol
  select : List RuleSelect
  apply : List RuleApply

/-- Compile errors (`compiler::CompileError`); `IllegalNewBinding` is
the variant `cfg.rs` raises for a non-existing binding (named
`ExistingBindingRequired` in the enum of the `compiler.rs` in this
tree). -/
inductive CompileError where
  | illegalWildcard (line : Nat)
  | illegalNamedBinding (line : Nat) (name : String)
  | illegalBindingMatch (line : Nat) (name : String)
  | repeatBindings (names : List String)
  | singleBindingUse (names : List String)
  | illegalReuse (line : Nat) (name : String)
  | illegalNewBinding (line : Nat) (name : String)
  | illegalEnumSpecification (line : Nat)
  | illegalObjectSpecification (line : Nat)
deriving DecidableEq

/-- First-match association-list lookup (`HashMap::get`). -/
def alookup [DecidableEq κ] : List (κ × ν) → κ → Option ν
  | [], _ => none
  | (k, v) :: rest, key => if k = key then some v else alookup rest key

/-- Association-list insert: replace the first entry with the key, or
append (`HashMap::insert` on unique-key lists). -/
def ainsert [DecidableEq κ] : List (κ × ν) → κ → ν → List (κ × ν)
  | [], key, v => [(key, v)]
  | (k, w) :: rest, key, v =>
    if k = key then (key, v) :: rest else (k, w) :: ainsert rest key v

/-- The `*map.entry(key).or_insert(0) += 1` pattern. -/
def abump [DecidableEq κ] (m : List (κ × Nat)) (key : κ) : List (κ × Nat) :=
  match alookup m key with
  | some c => ainsert m key (c + 1)
  | none => ainsert m key 1

/-- The compile environment (`cfg::Env`): the shared binding index
sequence, the scope's visible name map, and the shared instance/access
count maps. -/
structure Env where
  index_sequence : Nat
  visible_bindings : List (String × Nat)
  instance_counts : List (String × Nat)
  access_counts : List (Nat × Nat)

/-- `Env::new` over fresh shared cells. -/
def Env.new : Env := ⟨0, [], [], []⟩

/-- `Env::bind`: an already visible name counts one more access on its
binding; a new name draws a fresh index, becomes visible, and counts
one instance and one access. -/
def Env.bind (e : Env) (name : String) : Nat × Env :=
  match alookup e.visible_bindings name with
  | some binding =>
    (binding, { e with access_counts := abump e.access_counts binding })
  | none =>
    let binding := e.index_sequence
    (binding, { e with
      index_sequence := e.index_sequence + 1
      visible_bindings := ainsert e.visible_bindings name binding
      instance_counts := abump e.instance_counts name
      access_counts := abump e.access_counts binding })

/-- `Env::bind_new`: refuse an already visible name. -/
def Env.bind_new (e : Env) (name : String) : Option (Nat × Env) :=
  if (alookup e.visible_bindings name).isSome then none else some (e.bind name)

/-- `Env::find`: bind (count an access) only when already visible. -/
def Env.find (e : Env) (name : String) : Option (Nat × Env) :=
  if (alookup e.visible_bindings name).isSome then some (e.bind name) else none

/-- `Env::anon`: draw a fresh index without making anything visible. -/
def Env.anon (e : Env) : Nat × Env :=
  (e.index_sequence, { e with index_sequence := e.index_sequence + 1 })

/-- `Env::binding`: reverse lookup of a binding index to a visible
name (`HashMap` iteration order is the list order here). -/
def Env.binding (e : Env) (binding : Nat) : Option String :=
  (e.visible_bindings.find? (fun p => p.2 = binding)).map (fun p => p.1)

/-- `cfg::verify_multi_usage`: collect the visible names of bindings
with exactly one access; any such name is a `SingleBindingUse`
error. -/
def verify_multi_usage (e : Env) (access_counts : List (Nat × Nat)) :
    Except CompileError Unit :=
  let single_use := access_counts.filterMap
    (fun p => if p.2 = 1 then e.binding p.1 else none)
  if single_use.isEmpty then .ok () else .error (.singleBindingUse single_use)

/-- `cfg::verify_distinct_bindings`: any name bound more than once (in
distinct scopes) is a `RepeatBindings` error. -/
def verify_distinct_bindings (instance_counts : List (String × Nat)) :
    Except CompileError Unit :=
  let repeated := instance_counts.filterMap
    (fun p => if 1 < p.2 then some p.1 else none)
  if repeated.isEmpty then .ok () else .error (.repeatBindings repeated)

/-- `cfg::existing_named_binding`. -/
def existing_named_binding (e : Env) (v : AstVariable) (position : Span) :
    Except CompileError (Nat × Env) :=
  match v.as_str with
  | some name =>
    match e.find name with
    | some r => .ok r
    | none => .error (.illegalNewBinding position name)
  | none => .error (.illegalWildcard position)

/-- `cfg::nameable_new_binding`. -/
def nameable_new_binding (e : Env) (v : AstVariable) (position : Span) :
    Except CompileError (Nat × Env) :=
  match v.as_str with
  | some name =>
    match e.bind_new name with
    | some r => .ok r
    | none => .error (.illegalReuse position name)
  | none => .ok e.anon

/-- `cfg::no_binding`. -/
def no_binding (v : AstVariable) (position : Span) : Except CompileError Unit :=
  match v.as_str with
  | some name => .error (.illegalNamedBinding position name)
  | none => .ok ()

/-- `cfg::optional_binding`. -/
def optional_binding (e : Env) (v : AstVariable) : Option Nat × Env :=
  match v.as_str with
  | some name =>
    let r := e.bind name
    (some r.1, r.2)
  | none => (none, e)

/-- `cfg::nameable_binding`. -/
def nameable_binding (e : Env) (v : AstVariable) : Nat × Env :=
  match v.as_str with
  | some name => e.bind name
  | none => e.anon

/-- `cfg::named_binding`. -/
def named_binding (e : Env) (v : AstVariable) (position : Span) :
    Except CompileError (Nat × Env) :=
  match v.as_str with
  | some name => .ok (e.bind name)
  | none => .error (.illegalWildcard position)

/-- `cfg::compile_calculation`. -/
def compile_calculation (e : Env) (position : Span) :
    AstCalculation → Except CompileError (Calculation × Env)
  | .int n => .ok (.value (.int n), e)
  | .float f => .ok (.value (.float f), e)
  | .var v =>
    match named_binding e v position with
    | .error err => .error err
    | .ok (b, e2) => .ok (.binding b, e2)
  | .bimOp op l r =>
    match compile_calculation e position l with
    | .error err => .error err
    | .ok (cl, e2) =>
      match compile_calculation e2 position r with
      | .error err => .error err
      | .ok (cr, e3) => .ok (.binOp op cl cr, e3)

/-- `cfg::compile_comparable`. -/
def compile_comparable (e : Env) (position : Span) :
    Comparable → Except CompileError (CompareValue × Env)
  | .int n => .ok (.value (.int n), e)
  | .float f => .ok (.value (.float f), e)
  | .var v =>
    match named_binding e v position with
    | .error err => .error err
    | .ok (b, e2) => .ok (.binding b, e2)

/-- `cfg::compile_select_comparison`: left side first. -/
def compile_select_comparison (e : Env) (c : AstComparison)
    (ops : List CfgOpSelect) : Except CompileError (List CfgOpSelect × Env) :=
  match compile_comparable e c.position c.left with
  | .error err => .error err
  | .ok (l, e2) =>
    match compile_comparable e2 c.position c.right with
    | .error err => .error err
    | .ok (r, e3) => .ok (ops ++ [.compare c.ordering l r], e3)

/-- The option loop of `cfg::compile_select_enum`. -/
def compile_select_enum_items (e : Env) (position : Span) :
    List Enumerable → Except CompileError (List EnumOption × Env)
  | [] => .ok ([], e)
  | .literal l :: rest =>
    match compile_select_enum_items e position rest with
    | .error err => .error err
    | .ok (items, e2) => .ok (.value l.to_value :: items, e2)
  | .var v :: rest =>
    match named_binding e v position with
    | .error err => .error err
    | .ok (item_binding, e2) =>
      match compile_select_enum_items e2 position rest with
      | .error err => .error err
      | .ok (items, e3) => .ok (.binding item_binding :: items, e3)

/-- `cfg::compile_select_enum`: compile the options, push the
`EnumBinding` op. -/
def compile_select_enum (e : Env) (binding : Nat) (options : List Enumerable)
    (position : Span) (ops : List CfgOpSelect) :
    Except CompileError (List CfgOpSelect × Env) :=
  match compile_select_enum_items e position options with
  | .error err => .error err
  | .ok (items, e2) => .ok (ops ++ [.enumBinding binding items], e2)

mutual

/-- The item loop of `cfg::compile_select_tuple`; the trailing
`TupleBinding` push of nested `compile_select_tuple` calls is inlined
at the recursive call sites (the wrapper for outside callers is
`compile_select_tuple` below). -/
def compile_select_tuple_items (e : Env) :
    List ValueSpec → List OpenTupleItem → List CfgOpSelect →
    Except CompileError (List OpenTupleItem × List CfgOpSelect × Env)
  | [], acc, ops => .ok (acc, ops, e)
  | .mk kind position :: rest, acc, ops =>
    match kind with
    | .literal l => compile_select_tuple_items e rest (acc ++ [.compare l.to_value]) ops
    | .var v =>
      match optional_binding e v with
      | (some item_binding, e2) =>
        compile_select_tuple_items e2 rest (acc ++ [.binding item_binding]) ops
      | (none, e2) => compile_select_tuple_items e2 rest (acc ++ [.ignore]) ops
    | .enum direct options =>
      let r := nameable_binding e direct
      match compile_select_enum r.2 r.1 options position ops with
      | .error err => .error err
      | .ok (ops2, e2) => compile_select_tuple_items e2 rest (acc ++ [.binding r.1]) ops2
    | .tuple direct items2 =>
      let r := nameable_binding e direct
      match compile_select_tuple_items r.2 items2 [] ops with
      | .error err => .error err
      | .ok (cfg_items2, ops2, e2) =>
        compile_select_tuple_items e2 rest (acc ++ [.binding r.1])
          (ops2 ++ [.tupleBinding r.1 cfg_items2])
    | .struct direct attributes =>
      let r := nameable_binding e direct
      match compile_select_attributes r.2 r.1 attributes position
          (ops ++ [.assertObjectBinding r.1]) with
      | .error err => .error err
      | .ok (ops2, e2) => compile_select_tuple_items e2 rest (acc ++ [.binding r.1]) ops2

/-- `cfg::compile_select_attribute`. -/
def compile_select_attribute (e : Env) (binding : Nat)
    (attr_spec : AttributeSpec) (position : Span) (ops : List CfgOpSelect) :
    Except CompileError (List CfgOpSelect × Env) :=
  match attr_spec with
  | .mk _apos attrName value_spec =>
    match value_spec with
    | .mk kind _vpos =>
      match kind with
      | .literal l =>
        .ok (ops ++ [.requireValueAttribute binding attrName l.to_value], e)
      | .var v =>
        match optional_binding e v with
        | (some value_binding, e2) =>
          .ok (ops ++ [.attributeBinding binding attrName value_binding], e2)
        | (none, e2) => .ok (ops ++ [.requireAttribute binding attrName], e2)
      | .tuple direct items =>
        let r := nameable_binding e direct
        match compile_select_tuple_items r.2 items []
            (ops ++ [.attributeBinding binding attrName r.1]) with
        | .error err => .error err
        | .ok (cfg_items, ops2, e2) =>
          .ok (ops2 ++ [.tupleBinding r.1 cfg_items], e2)
      | .enum direct options =>
        let r := nameable_binding e direct
        compile_select_enum r.2 r.1 options position
          (ops ++ [.attributeBinding binding attrName r.1])
      | .struct direct attributes =>
        let r := nameable_binding e direct
        compile_select_attributes r.2 r.1 attributes position
          (ops ++ [.attributeBinding binding attrName r.1, .assertObjectBinding r.1])

/-- `cfg::compile_select_attributes`. -/
def compile_select_attributes (e : Env) (binding : Nat) :
    List AttributeSpec → Span → List CfgOpSelect →
    Except CompileError (List CfgOpSelect × Env)
  | [], _, ops => .ok (ops, e)
  | a :: rest, position, ops =>
    match compile_select_attribute e binding a position ops with
    | .error err => .error err
    | .ok (ops2, e2) => compile_select_attributes e2 binding rest position ops2

end

/-- `cfg::compile_select_tuple`: compile the items (collecting the cfg
tuple items and pushing nested ops), then push the `TupleBinding`
op. -/
def compile_select_tuple (e : Env) (binding : Nat) (items : List ValueSpec)
    (ops : List CfgOpSelect) : Except CompileError (List CfgOpSelect × Env) :=
  match compile_select_tuple_items e items [] ops with
  | .error err => .error err
  | .ok (cfg_items, ops2, e2) => .ok (ops2 ++ [.tupleBinding binding cfg_items], e2)

/-- `cfg::compile_select_toplevel_binding` (with
`named_binding_with_name` inlined). -/
def compile_select_toplevel_binding (e : Env) (v : AstVariable)
    (position : Span) (value_spec : ValueSpec) (ops : List CfgOpSelect) :
    Except CompileError (List CfgOpSelect × Env) :=
  match v.as_str with
  | none => .error (.illegalWildcard position)
  | some variable_name =>
    let r := e.bind variable_name
    match value_spec with
    | .mk kind _vpos =>
      match kind with
      | .literal l => .ok (ops ++ [.compareBinding r.1 l.to_value], r.2)
      | .enum direct options =>
        match no_binding direct position with
        | .error err => .error err
        | .ok _ => compile_select_enum r.2 r.1 options position ops
      | .tuple direct items =>
        match no_binding direct position with
        | .error err => .error err
        | .ok _ => compile_select_tuple r.2 r.1 items ops
      | .struct direct attributes =>
        match no_binding direct position with
        | .error err => .error err
        | .ok _ => compile_select_attributes r.2 r.1 attributes position
            (ops ++ [.assertObjectBinding r.1])
      | .var _ => .error (.illegalBindingMatch position variable_name)

mutual

/-- `cfg::compile_rule_selects`. -/
def compile_rule_selects (e : Env) :
    List RuleSelect → List CfgOpSelect →
    Except CompileError (List CfgOpSelect × Env)
  | [], ops => .ok (ops, e)
  | sel :: rest, ops =>
    match compile_rule_select e sel ops with
    | .error err => .error err
    | .ok (ops2, e2) => compile_rule_selects e2 rest ops2

/-- `cfg::compile_rule_select`; the `Not` arm compiles the body in a
cloned environment (shared counts and sequence), keeps the body's
counts and sequence, and restores the outer visible-binding map. -/
def compile_rule_select (e : Env) :
    RuleSelect → List CfgOpSelect →
    Except CompileError (List CfgOpSelect × Env)
  | .binding spec, ops =>
    compile_select_toplevel_binding e spec.var spec.position spec.value_spec ops
  | .bindingAttribute spec, ops =>
    match named_binding e spec.var spec.position with
    | .error err => .error err
    | .ok (binding, e2) =>
      compile_select_attribute e2 binding spec.attribute_spec spec.position ops
  | .not subs, ops =>
    match compile_rule_selects e subs [] with
    | .error err => .error err
    | .ok (sub_ops, sub_env) =>
      .ok (ops ++ [.not sub_ops],
        { sub_env with visible_bindings := e.visible_bindings })
  | .comparison c, ops => compile_select_comparison e c ops
  | .calculation v c position, ops =>
    match named_binding e v position with
    | .error err => .error err
    | .ok (result_binding, e2) =>
      match compile_calculation e2 position c with
      | .error err => .error err
      | .ok (operation, e3) =>
        .ok (ops ++ [.calculation result_binding operation], e3)

end

/-- Apply-side cfg ops (`cfg::CfgOpApply`; this stage has no removal
modes or conditionals). -/
inductive CfgOpApply where
  | createObject (binding : Binding)
  | createTuple (binding : Binding) (items : List CfgApplyTupleItem)
  | addBindingAttribute (binding : Binding) (attr : Symbol) (value_binding : Binding)
  | removeBindingAttribute (binding : Binding) (attr : Symbol) (value_binding : Binding)
  | addValueAttribute (binding : Binding) (attr : Symbol) (value : Value)
  | removeValueAttribute (binding : Binding) (attr : Symbol) (value : Value)

/-- `cfg::CfgApplyTupleItem`. -/
inductive CfgApplyTupleItem where
  | value (v : Value)
  | binding (b : Binding)

mutual

/-- `cfg::compile_apply_add_attribute`; the trailing op pushes of the
nested `compile_apply_tuple`/`compile_apply_object` calls are inlined
at the recursive call sites (outside callers use the wrappers
below). -/
def compile_apply_add_attribute (e : Env) (binding : Nat)
    (spec : AttributeSpec) (ops : List CfgOpApply) :
    Except CompileError (List CfgOpApply × Env) :=
  match spec with
  | .mk position attrName value_spec =>
    match value_spec with
    | .mk kind _vpos =>
      match kind with
      | .literal l =>
        .ok (ops ++ [.addValueAttribute binding attrName l.to_value], e)
      | .var v =>
        match existing_named_binding e v position with
        | .error err => .error err
        | .ok (value_binding, e2) =>
          .ok (ops ++ [.addBindingAttribute binding attrName value_binding], e2)
      | .tuple direct values =>
        match nameable_new_binding e direct position with
        | .error err => .error err
        | .ok (value_binding, e2) =>
          match compile_apply_tuple_items e2 values true [] ops with
          | .error err => .error err
          | .ok (items, ops2, e3) =>
            .ok (ops2 ++ [.createTuple value_binding items,
              .addBindingAttribute binding attrName value_binding], e3)
      | .enum _ _ => .error (.illegalEnumSpecification position)
      | .struct direct attributes =>
        match nameable_new_binding e direct position with
        | .error err => .error err
        | .ok (value_binding, e2) =>
          match compile_apply_attributes e2 value_binding attributes
              (ops ++ [.createObject value_binding]) with
          | .error err => .error err
          | .ok (ops2, e3) =>
            .ok (ops2 ++ [.addBindingAttribute binding attrName value_binding], e3)

/-- The attribute loop of `cfg::compile_apply_object`. -/
def compile_apply_attributes (e : Env) (binding : Nat) :
    List AttributeSpec → List CfgOpApply →
    Except CompileError (List CfgOpApply × Env)
  | [], ops => .ok (ops, e)
  | a :: rest, ops =>
    match compile_apply_add_attribute e binding a ops with
    | .error err => .error err
    | .ok (ops2, e2) => compile_apply_attributes e2 binding rest ops2

/-- The value loop of `cfg::compile_apply_tuple`. -/
def compile_apply_tuple_items (e : Env) :
    List ValueSpec → Bool → List CfgApplyTupleItem → List CfgOpApply →
    Except CompileError (List CfgApplyTupleItem × List CfgOpApply × Env)
  | [], _, acc, ops => .ok (acc, ops, e)
  | .mk kind position :: rest, allow, acc, ops =>
    match kind with
    | .literal l =>
      compile_apply_tuple_items e rest allow (acc ++ [.value l.to_value]) ops
    | .var v =>
      match existing_named_binding e v position with
      | .error err => .error err
      | .ok (value_binding, e2) =>
        compile_apply_tuple_items e2 rest allow (acc ++ [.binding value_binding]) ops
    | .tuple direct values2 =>
      match nameable_new_binding e direct position with
      | .error err => .error err
      | .ok (value_binding, e2) =>
        match compile_apply_tuple_items e2 values2 allow [] ops with
        | .error err => .error err
        | .ok (items2, ops2, e3) =>
          compile_apply_tuple_items e3 rest allow (acc ++ [.binding value_binding])
            (ops2 ++ [.createTuple value_binding items2])
    | .struct direct attributes =>
      if allow then
        match nameable_new_binding e direct position with
        | .error err => .error err
        | .ok (value_binding, e2) =>
          match compile_apply_attributes e2 value_binding attributes
              (ops ++ [.createObject value_binding]) with
          | .error err => .error err
          | .ok (ops2, e3) =>
            compile_apply_tuple_items e3 rest allow (acc ++ [.binding value_binding]) ops2
      else .error (.illegalObjectSpecification position)
    | .enum _ _ => .error (.illegalEnumSpecification position)

end

/-- `cfg::compile_apply_object`: a `CreateObject` op, then the
attribute additions. -/
def compile_apply_object (e : Env) (binding : Nat)
    (attributes : List AttributeSpec) (ops : List CfgOpApply) :
    Except CompileError (List CfgOpApply × Env) :=
  compile_apply_attributes e binding attributes (ops ++ [.createObject binding])

/-- `cfg::compile_apply_tuple`: compile the values, then push the
`CreateTuple` op. -/
def compile_apply_tuple (e : Env) (binding : Nat) (values : List ValueSpec)
    (allow_object_construction : Bool) (ops : List CfgOpApply) :
    Except CompileError (List CfgOpApply × Env) :=
  match compile_apply_tuple_items e values allow_object_construction [] ops with
  | .error err => .error err
  | .ok (items, ops2, e2) => .ok (ops2 ++ [.createTuple binding items], e2)

/-- `cfg::compile_apply_add`. -/
def compile_apply_add (e : Env) (spec : BindingAttributeSpec)
    (ops : List CfgOpApply) : Except CompileError (List CfgOpApply × Env) :=
  match existing_named_binding e spec.var spec.position with
  | .error err => .error err
  | .ok (binding, e2) =>
    compile_apply_add_attribute e2 binding spec.attribute_spec ops

/-- `cfg::compile_apply_remove` (all error lines come from the
enclosing spec's position, as in the source). -/
def compile_apply_remove (e : Env) (spec : BindingAttributeSpec)
    (ops : List CfgOpApply) : Except CompileError (List CfgOpApply × Env) :=
  match existing_named_binding e spec.var spec.position with
  | .error err => .error err
  | .ok (binding, e2) =>
    match spec.attribute_spec with
    | .mk _apos attrName value_spec =>
      match value_spec with
      | .mk kind _vpos =>
        match kind with
        | .literal l =>
          .ok (ops ++ [.removeValueAttribute binding attrName l.to_value], e2)
        | .var v =>
          match named_binding e2 v spec.position with
          | .error err => .error err
          | .ok (value_binding, e3) =>
            .ok (ops ++ [.removeBindingAttribute binding attrName value_binding], e3)
        | .tuple direct values =>
          match nameable_new_binding e2 direct spec.position with
          | .error err => .error err
          | .ok (value_binding, e3) =>
            match compile_apply_tuple e3 value_binding values false ops with
            | .error err => .error err
            | .ok (ops2, e4) =>
              .ok (ops2 ++ [.removeBindingAttribute binding attrName value_binding], e4)
        | .enum _ _ => .error (.illegalEnumSpecification spec.position)
        | .struct _ _ => .error (.illegalObjectSpecification spec.position)

/-- `cfg::compile_rule_apply`. -/
def compile_rule_apply (e : Env) : RuleApply → List CfgOpApply →
    Except CompileError (List CfgOpApply × Env)
  | .remove spec, ops => compile_apply_remove e spec ops
  | .add spec, ops => compile_apply_add e spec ops

/-- `cfg::compile_rule_applys`. -/
def compile_rule_applys (e : Env) :
    List RuleApply → List CfgOpApply →
    Except CompileError (List CfgOpApply × Env)
  | [], ops => .ok (ops, e)
  | ra :: rest, ops =>
    match compile_rule_apply e ra ops with
    | .error err => .error err
    | .ok (ops2, e2) => compile_rule_applys e2 rest ops2

/-- The input-variable binding loop at the top of `ast_to_cfg`. -/
def bindInputVars (e : Env) : List String → Env
  | [] => e
  | v :: rest => bindInputVars (e.bind v).2 rest

/-- `cfg::CfgRule`. -/
structure CfgRule where
  name : Symbol
  select : List CfgOpSelect
  apply : List CfgOpApply
  bindings_len : Nat

/-- `cfg::ast_to_cfg`: bind the inputs, compile selects then applys,
then run the distinct-bindings and multi-usage verifications. -/
def ast_to_cfg (ast : AstRule) (input_variables : List String) :
    Except CompileError CfgRule :=
  let env0 := bindInputVars Env.new input_variables
  match compile_rule_selects env0 ast.select [] with
  | .error err => .error err
  | .ok (select, env1) =>
    match compile_rule_applys env1 ast.apply [] with
    | .error err => .error err
    | .ok (apply, env2) =>
      match verify_distinct_bindings env2.instance_counts with
      | .error err => .error err
      | .ok _ =>
        match verify_multi_usage env2 env2.access_counts with
        | .error err => .error err
        | .ok _ => .ok ⟨ast.name, select, apply, env2.index_sequence⟩


/-! ### Variable occurrence (the claim's "references") and environment
evolution

`varMentions` and its liftings decide whether a rule part syntactically
contains the named variable; every `Env.bind` call the compiler makes
draws its name from such an occurrence.  `Evolves` captures the
environment operations available when a name is never bound: binds of
other names, anonymous draws, and `Not`-scope restores. -/

/-- Occurrence of a name in one `ast::Variable`. -/
def varMentions (x : String) : AstVariable → Bool
  | .wildcard => false
  | .ident name => name = x

/-- Occurrence of a name in enum options. -/
def enumMentions (x : String) : List Enumerable → Bool
  | [] => false
  | .literal _ :: rest => enumMentions x rest
  | .var v :: rest => varMentions x v || enumMentions x rest

mutual

/-- Occurrence of a name in a value spec. -/
def vsMentions (x : String) : ValueSpec → Bool
  | .mk kind _ => vskMentions x kind

/-- Occurrence of a name in a value-spec kind. -/
def vskMentions (x : String) : ValueSpecKind → Bool
  | .literal _ => false
  | .var v => varMentions x v
  | .tuple direct items => varMentions x direct || vsListMentions x items
  | .enum direct options => varMentions x direct || enumMentions x options
  | .struct direct attributes => varMentions x direct || asListMentions x attributes

/-- Occurrence of a name in an attribute spec. -/
def asMentions (x : String) : AttributeSpec → Bool
  | .mk _ _ vs => vsMentions x vs

/-- Occurrence of a name in a value-spec list. -/
def vsListMentions (x : String) : List ValueSpec → Bool
  | [] => false
  | v :: rest => vsMentions x v || vsListMentions x rest

/-- Occurrence of a name in an attribute-spec list. -/
def asListMentions (x : String) : List AttributeSpec → Bool
  | [] => false
  | a :: rest => asMentions x a || asListMentions x rest

end

/-- Occurrence of a name in a calculation. -/
def calcMentions (x : String) : AstCalculation → Bool
  | .int _ => false
  | .float _ => false
  | .var v => varMentions x v
  | .bimOp _ l r => calcMentions x l || calcMentions x r

/-- Occurrence of a name in a comparison side. -/
def cmpMentions (x : String) : Comparable → Bool
  | .int _ => false
  | .float _ => false
  | .var v => varMentions x v

mutual

/-- Occurrence of a name in a select clause. -/
def selMentions (x : String) : RuleSelect → Bool
  | .binding spec => varMentions x spec.var || vsMentions x spec.value_spec
  | .bindingAttribute spec =>
    varMentions x spec.var || asMentions x spec.attribute_spec
  | .comparison c => cmpMentions x c.left || cmpMentions x c.right
  | .not subs => selListMentions x subs
  | .calculation v c _ => varMentions x v || calcMentions x c

/-- Occurrence of a name in a select-clause list. -/
def selListMentions (x : String) : List RuleSelect → Bool
  | [] => false
  | sel :: rest => selMentions x sel || selListMentions x rest

end

/-- Occurrence of a name in an apply clause. -/
def applyMentions (x : String) : RuleApply → Bool
  | .add spec => varMentions x spec.var || asMentions x spec.attribute_spec
  | .remove spec => varMentions x spec.var || asMentions x spec.attribute_spec

/-- Occurrence of a name in an apply-clause list. -/
def applyListMentions (x : String) : List RuleApply → Bool
  | [] => false
  | ra :: rest => applyMentions x ra || applyListMentions x rest

/-- Environment evolutions that never bind the name `x`: binds of
other names, anonymous index draws, and the `Not`-scope restore of an
earlier visible map. -/
inductive Evolves (x : String) : Env → Env → Prop where
  | refl (e : Env) : Evolves x e e
  | bindStep (e e2 : Env) (name : String) : Evolves x e e2 → name ≠ x →
      Evolves x e (e2.bind name).2
  | anonStep (e e2 : Env) : Evolves x e e2 → Evolves x e e2.anon.2
  | scopeStep (e e2 e3 : Env) : Evolves x e e2 → Evolves x e2 e3 →
      Evolves x e { e3 with visible_bindings := e2.visible_bindings }

/-- Invariant tracking a pre-bound name through compilation: `x` is
visible as binding `b0`, `b0` and every visible binding are below the
index sequence, only `x` is visible as `b0`, and `b0` has exactly one
recorded access. -/
def XInv (x : String) (b0 : Nat) (e : Env) : Prop :=
  alookup e.visible_bindings x = some b0 ∧
  b0 < e.index_sequence ∧
  (∀ p ∈ e.visible_bindings, p.2 < e.index_sequence) ∧
  (∀ p ∈ e.visible_bindings, p.2 = b0 → p.1 = x) ∧
  alookup e.access_counts b0 = some 1

-- ===================================================================
-- THEOREMS
-- ===================================================================

/-! ## Association list lemmas -/

theorem odLookup_odInsert_self (m : ObjectData) (id : Id) (a : AttrData) :
    odLookup (odInsert m id a) id = some a := by
  induction m with
  | nil => simp [odInsert, odLookup]
  | cons p rest ih =>
    obtain ⟨k, b⟩ := p
    by_cases h : k = id
    · simp [odInsert, odLookup, h]
    · simp [odInsert, odLookup, h, ih]

theorem odLookup_odInsert_other (m : ObjectData) (id id2 : Id) (a : AttrData)
    (h : id2 ≠ id) : odLookup (odInsert m id a) id2 = odLookup m id2 := by
  have h2 : ¬id = id2 := fun hc => h hc.symm
  induction m with
  | nil => simp [odInsert, odLookup, h2]
  | cons p rest ih =>
    obtain ⟨k, b⟩ := p
    by_cases hp : k = id
    · subst hp
      simp [odInsert, odLookup, h2]
    · by_cases hp2 : k = id2
      · simp [odInsert, odLookup, hp, hp2, h, h2]
      · simp [odInsert, odLookup, hp, hp2, ih]

theorem odLookup_eq_none_of_not_mem (L : ObjectData) (id : Id)
    (h : id ∉ L.map Prod.fst) : odLookup L id = none := by
  induction L with
  | nil => rfl
  | cons p rest ih =>
    obtain ⟨k, b⟩ := p
    simp only [List.map_cons, List.mem_cons] at h
    push_neg at h
    have hk : ¬k = id := fun hc => h.1 hc.symm
    simp only [odLookup, if_neg hk]
    exact ih h.2

theorem odLookup_foldl_insert (L : ObjectData) (m : ObjectData)
    (hnd : (L.map Prod.fst).Nodup) (id : Id) :
    odLookup (L.foldl (fun m p => odInsert m p.1 p.2) m) id
      = match odLookup L id with
        | some a => some a
        | none => odLookup m id := by
  induction L generalizing m with
  | nil => simp [odLookup]
  | cons p rest ih =>
    obtain ⟨k, b⟩ := p
    simp only [List.map_cons, List.nodup_cons] at hnd
    obtain ⟨hni, hnd2⟩ := hnd
    rw [List.foldl_cons, ih _ hnd2]
    by_cases h : k = id
    · subst h
      have hrest : odLookup rest k = none := odLookup_eq_none_of_not_mem _ _ hni
      simp [odLookup, hrest, odLookup_odInsert_self]
    · simp only [odLookup, if_neg h]
      cases hrest : odLookup rest id with
      | some a => simp
      | none => simp [odLookup_odInsert_other _ _ _ _ (fun hc => h hc.symm)]

theorem odLookup_append (a b : ObjectData) (id : Id) :
    odLookup (a ++ b) id
      = match odLookup a id with
        | some x => some x
        | none => odLookup b id := by
  induction a with
  | nil => simp [odLookup]
  | cons p rest ih =>
    by_cases h : p.1 = id
    · simp [odLookup, h]
    · simp [odLookup, h, ih]

/-! ## Claim C1: transaction commit/rollback semantics -/

/-- Claim C1: for every `Access` handle (a `Space` or a `Transaction`)
and every transaction body: if the body returns `none` (rollback), the
transaction call returns `false` and the parent is completely unchanged
(roots and all attribute lists included); if the body returns
`some tx` (commit), the call returns `true`, the parent's root set is
replaced by `tx`'s local roots, the attribute list of every id present
in `tx`'s local objects is replaced by the local copy, and all other
attribute lists are unchanged.  The `Nodup` hypotheses record that the
overlay is a hash map (unique keys). -/
theorem c1_transaction_commit_rollback
    (s : Space) (t : Transaction) (run : Transaction → Option Transaction) :
    (run s.newTransaction = none → s.transaction run = (false, s)) ∧
    (∀ tx, run s.newTransaction = some tx →
      (tx.local_objects.map Prod.fst).Nodup →
      (s.transaction run).1 = true ∧
      (s.transaction run).2.root_objects = tx.local_root_objects ∧
      (∀ id a, odLookup tx.local_objects id = some a →
        odLookup (s.transaction run).2.objects id = some a) ∧
      (∀ id, odLookup tx.local_objects id = none →
        odLookup (s.transaction run).2.objects id = odLookup s.objects id)) ∧
    (run t.newNested = none → t.transaction run = (false, t)) ∧
    (∀ tx, run t.newNested = some tx →
      (tx.local_objects.map Prod.fst).Nodup →
      (t.transaction run).1 = true ∧
      (t.transaction run).2.local_root_objects = tx.local_root_objects ∧
      (∀ id a, odLookup tx.local_objects id = some a →
        (t.transaction run).2.attributes id = a) ∧
      (∀ id, odLookup tx.local_objects id = none →
        (t.transaction run).2.attributes id = t.attributes id)) := by
  refine ⟨?_, ?_, ?_, ?_⟩
  · intro h
    simp [Space.transaction, h]
  · intro tx h hnd
    simp only [Space.transaction, h]
    refine ⟨by simp, by simp [Space.commitTx], ?_, ?_⟩
    · intro id a ha
      simp only [Space.commitTx]
      rw [odLookup_foldl_insert _ _ hnd, ha]
    · intro id ha
      simp only [Space.commitTx]
      rw [odLookup_foldl_insert _ _ hnd, ha]
  · intro h
    simp [Transaction.transaction, h]
  · intro tx h hnd
    simp only [Transaction.transaction, h]
    refine ⟨by simp, by simp [Transaction.commitTx], ?_, ?_⟩
    · intro id a ha
      simp only [Transaction.commitTx, Transaction.attributes, odLookup_append]
      rw [odLookup_foldl_insert _ _ hnd, ha]
      simp
    · intro id ha
      simp only [Transaction.commitTx, Transaction.attributes, odLookup_append]
      rw [odLookup_foldl_insert _ _ hnd, ha]

/-- Witness for C1 at a concrete space, transaction and body: a commit
replacing the roots with `[7]` and object `4`'s attributes, observed
through both `Space.transaction` and a nested `Transaction.transaction`. -/
theorem c1_transaction_commit_rollback_witness :
    (let s : Space := ⟨[1], [(4, [("a", [Value.int 1])]), (5, [])]⟩
     let t : Transaction := ⟨[(4, [("a", [Value.int 1])])], [1], [(5, [("b", [])])]⟩
     let body : Transaction → Option Transaction := fun tx =>
       some { tx with local_root_objects := [7],
                      local_objects := [(4, [("a", [Value.int 2])])] }
     (s.transaction body).1 = true ∧
     (s.transaction body).2.root_objects = [7] ∧
     odLookup (s.transaction body).2.objects 4 = some [("a", [Value.int 2])] ∧
     odLookup (s.transaction body).2.objects 5 = some [] ∧
     (t.transaction body).1 = true ∧
     (t.transaction body).2.attributes 4 = [("a", [Value.int 2])] ∧
     (t.transaction body).2.attributes 5 = t.attributes 5) := by
  intro s t body
  have h := c1_transaction_commit_rollback s t body
  have hc := h.2.1 _ rfl (by decide)
  have hc2 := h.2.2.2 _ rfl (by decide)
  refine ⟨hc.1, hc.2.1, ?_, ?_, hc2.1, ?_, ?_⟩
  · exact hc.2.2.1 4 _ (by decide)
  · rw [hc.2.2.2 5 (by decide)]; decide
  · exact hc2.2.2.1 4 _ (by decide)
  · exact hc2.2.2.2 5 (by decide)

/-! ## Claim C9: `AttributesMut::remove_single` -/

/-- Claim C9: `remove_single(name, value)` consults only the first
attribute group whose name matches: when that group contains a matching
value it removes and returns the first such value, keeping the rest of
the group in order and every other group untouched; when the first
matching group has no matching value, or no group has the name, it
returns `none` and changes nothing -- even if a later group with the
same name does contain a match. -/
theorem c9_remove_single_first_group
    (pre post : AttrData) (name : Symbol) (vs : List Value) (m : Value → Bool)
    (hpre : ∀ g ∈ pre, g.1 ≠ name) :
    (removeSingle (pre ++ (name, vs) :: post) name m
      = match removeFirstMatch m vs with
        | some (w, remaining) => (some w, pre ++ (name, remaining) :: post)
        | none => (none, pre ++ (name, vs) :: post)) ∧
    (∀ attrs : AttrData, (∀ g ∈ attrs, g.1 ≠ name) →
      removeSingle attrs name m = (none, attrs)) := by
  constructor
  · induction pre with
    | nil =>
      simp only [List.nil_append, removeSingle, if_pos rfl]
      cases h : removeFirstMatch m vs with
      | some p => cases p; simp
      | none => simp
    | cons g rest ih =>
      have hg : g.1 ≠ name := hpre g (List.mem_cons_self g rest)
      have ih2 := ih (fun g2 hg2 => hpre g2 (List.mem_cons_of_mem g hg2))
      obtain ⟨gn, gv⟩ := g
      simp only [List.cons_append, removeSingle, if_neg hg, List.append_eq]
      rw [ih2]
      cases h : removeFirstMatch m vs with
      | some p => cases p; simp
      | none => simp
  · intro attrs
    induction attrs with
    | nil => intro _; rfl
    | cons g rest ih =>
      intro hall
      have hg : g.1 ≠ name := hall g (List.mem_cons_self g rest)
      have ih2 := ih (fun g2 hg2 => hall g2 (List.mem_cons_of_mem _ hg2))
      obtain ⟨gn, gv⟩ := g
      simp only [removeSingle, if_neg hg]
      rw [ih2]

/-- Witness for C9: on groups `b, a(1 3), a(3)` removing the first value
equal to `3` under name `a` hits only the first `a` group, and removing
name `c` (present nowhere) changes nothing. -/
theorem c9_remove_single_first_group_witness :
    (removeSingle [("b", [Value.int 9]), ("a", [Value.int 1, Value.int 3]), ("a", [Value.int 3])]
        "a" (fun v => valueEqb v (Value.int 3))
      = (some (Value.int 3),
         [("b", [Value.int 9]), ("a", [Value.int 1]), ("a", [Value.int 3])])) ∧
    (removeSingle [("b", [Value.int 9])] "c" (fun v => valueEqb v (Value.int 3))
      = (none, [("b", [Value.int 9])])) := by
  have h := c9_remove_single_first_group [("b", [Value.int 9])] [("a", [Value.int 3])]
    "a" [Value.int 1, Value.int 3] (fun v => valueEqb v (Value.int 3))
    (by intro g hg; simp at hg; rw [hg]; decide)
  constructor
  · rw [show ([("b", [Value.int 9]), ("a", [Value.int 1, Value.int 3]), ("a", [Value.int 3])] : AttrData)
        = [("b", [Value.int 9])] ++ ("a", [Value.int 1, Value.int 3]) :: [("a", [Value.int 3])] from rfl]
    rw [h.1]
    decide
  · exact h.2 [("b", [Value.int 9])] (by intro g hg; simp at hg; rw [hg]; decide)

/-! ## Claim C6: `value_compare` (code bug at large integers) -/

/-- Claim C6 (code bug evaluation): `value_compare` compares `Int`
against `Float` by converting the integer with `as f64`, which rounds.
At the failing input the distinct integers `9007199254740993` and
`9007199254740992` both compare `Equal` to the float
`9007199254740992.0` while comparing `Less`/`Greater` with each other,
so the induced equality is not transitive and `cmp` is not a total
order consistent with equality, contradicting the claim (and the `Ord`
contract the implementation is bound to). -/
theorem c6_value_compare_intransitive_at_two_pow_53 :
    valueCompare (.int 9007199254740993) (.float (.num 9007199254740992)) = .eq ∧
    valueCompare (.float (.num 9007199254740992)) (.int 9007199254740992) = .eq ∧
    valueCompare (.int 9007199254740992) (.int 9007199254740993) = .lt := by
  refine ⟨by decide, by decide, by decide⟩

/-! ## Claim C2: garbage collection -/

theorem valuesWeight_append (a b : List Value) :
    valuesWeight (a ++ b) = valuesWeight a + valuesWeight b := by
  induction a with
  | nil => simp [valuesWeight]
  | cons v rest ih => simp [valuesWeight, ih]; omega

theorem valuesWeight_reverse (l : List Value) :
    valuesWeight l.reverse = valuesWeight l := by
  induction l with
  | nil => rfl
  | cons v rest ih =>
    simp [List.reverse_cons, valuesWeight_append, valuesWeight, ih]
    omega

theorem Value.weight_pos (v : Value) : 1 ≤ v.weight := by
  cases v <;> simp [Value.weight]

theorem mem_valuesIds_append (x : Id) (a b : List Value) :
    x ∈ valuesIds (a ++ b) ↔ x ∈ valuesIds a ∨ x ∈ valuesIds b := by
  induction a with
  | nil => simp [valuesIds]
  | cons v rest ih => simp [valuesIds, ih, List.mem_append]; tauto

theorem mem_valuesIds_reverse (x : Id) (l : List Value) :
    x ∈ valuesIds l.reverse ↔ x ∈ valuesIds l := by
  induction l with
  | nil => simp
  | cons v rest ih =>
    simp [List.reverse_cons, mem_valuesIds_append, valuesIds, ih, List.mem_append]
    tauto

theorem mem_insortId (x id : Id) (l : List Id) :
    x ∈ insortId id l ↔ x = id ∨ x ∈ l := by
  induction l with
  | nil => simp [insortId]
  | cons m rest ih =>
    by_cases h1 : id < m
    · simp [insortId, h1]
    · by_cases h2 : id = m
      · subst h2; simp [insortId, h1]
      · simp [insortId, h1, h2, ih]; tauto

theorem containsId_iff (l : List Id) (x : Id) : l.contains x = true ↔ x ∈ l :=
  List.elem_iff

theorem length_filter_mono {α : Type} (l : List α) (p q : α → Bool)
    (h : ∀ x, q x = true → p x = true) :
    (l.filter q).length ≤ (l.filter p).length := by
  induction l with
  | nil => simp
  | cons b rest ih =>
    rw [List.filter_cons, List.filter_cons]
    cases hq : q b with
    | true =>
      rw [h b hq]
      simpa using ih
    | false =>
      cases hp : p b with
      | true => simp; omega
      | false => simpa using ih

theorem length_filter_strict {α : Type} (l : List α) (p q : α → Bool)
    (h : ∀ x, q x = true → p x = true)
    (a : α) (ha : a ∈ l) (hpa : p a = true) (hqa : q a = false) :
    (l.filter q).length < (l.filter p).length := by
  induction l with
  | nil => cases ha
  | cons b rest ih =>
    rw [List.filter_cons, List.filter_cons]
    cases hq : q b with
    | true =>
      have hab : a ≠ b := by
        intro hc
        rw [← hc, hqa] at hq
        cases hq
      have ha2 : a ∈ rest := by
        rcases List.mem_cons.mp ha with h1 | h1
        · exact absurd h1 hab
        · exact h1
      rw [h b hq]
      simpa using ih ha2
    | false =>
      cases hp : p b with
      | true =>
        have := length_filter_mono rest p q h
        simp
        omega
      | false =>
        have hab : a ≠ b := by
          intro hc
          rw [← hc, hpa] at hp
          cases hp
        have ha2 : a ∈ rest := by
          rcases List.mem_cons.mp ha with h1 | h1
          · exact absurd h1 hab
          · exact h1
        simpa using ih ha2

theorem contains_insort_imp (id : Id) (marked : List Id) (x : Id)
    (h : ((insortId id marked).contains x) = false) : (marked.contains x) = false := by
  by_contra hc
  simp only [Bool.not_eq_false] at hc
  have hx : x ∈ insortId id marked :=
    (mem_insortId x id marked).mpr (Or.inr ((containsId_iff _ _).mp hc))
  rw [(containsId_iff _ _).mpr hx] at h
  cases h

theorem gcU_insort_le (objects : ObjectData) (id : Id) (marked : List Id) :
    gcU objects (insortId id marked) ≤ gcU objects marked := by
  unfold gcU
  refine length_filter_mono _ _ _ ?_
  intro x hx
  simp only [Bool.not_eq_true'] at hx ⊢
  exact contains_insort_imp id marked x hx

theorem gcU_insort_lt (objects : ObjectData) (id : Id) (marked : List Id)
    (hk : id ∈ objects.map Prod.fst) (hm : marked.contains id = false) :
    gcU objects (insortId id marked) < gcU objects marked := by
  unfold gcU
  refine length_filter_strict _ _ _ ?_ id hk ?_ ?_
  · intro x hx
    simp only [Bool.not_eq_true'] at hx ⊢
    exact contains_insort_imp id marked x hx
  · simp only [Bool.not_eq_true']
    exact hm
  · simp only [Bool.not_eq_false']
    exact (containsId_iff _ _).mpr ((mem_insortId id id marked).mpr (Or.inl rfl))

theorem odLookup_mem (L : ObjectData) (id : Id) (a : AttrData)
    (h : odLookup L id = some a) : (id, a) ∈ L := by
  induction L with
  | nil => cases h
  | cons p rest ih =>
    obtain ⟨k, b⟩ := p
    by_cases hk : k = id
    · subst hk
      rw [odLookup, if_pos rfl] at h
      obtain rfl := Option.some.inj h
      exact List.mem_cons_self _ _
    · rw [odLookup, if_neg hk] at h
      exact List.mem_cons_of_mem _ (ih h)

theorem attrsWeight_le_totalWeight (L : ObjectData) (id : Id) (a : AttrData)
    (h : (id, a) ∈ L) : attrsWeight a ≤ totalWeight L := by
  induction L with
  | nil => cases h
  | cons p rest ih =>
    obtain ⟨k, b⟩ := p
    rcases List.mem_cons.mp h with h1 | h1
    · cases h1
      simp [totalWeight]
    · have := ih h1
      simp [totalWeight]
      omega

theorem gcTraceF_obj (objects : ObjectData) (fuel : Nat) (marked : List Id)
    (id : Id) (rest : List Value) :
    gcTraceF objects (fuel + 1) marked (Value.obj id :: rest)
      = if marked.contains id then gcTraceF objects fuel marked rest
        else gcTraceF objects fuel (insortId id marked)
          ((attrsValues ((odLookup objects id).getD [])).reverse ++ rest) := rfl

theorem gcMeasure_le_of_parts (objects : ObjectData) (m1 m2 : List Id)
    (t1 t2 : List Value)
    (hU : gcU objects m1 ≤ gcU objects m2)
    (hW : valuesWeight t1 ≤ valuesWeight t2) :
    gcMeasure objects m1 t1 ≤ gcMeasure objects m2 t2 := by
  unfold gcMeasure
  have := Nat.mul_le_mul_right (totalWeight objects + 1)
    (Nat.add_le_add_right hU 1)
  omega

theorem gcTraceF_isSome (objects : ObjectData) :
    ∀ (fuel : Nat) (marked : List Id) (trace : List Value),
      gcMeasure objects marked trace ≤ fuel →
      (gcTraceF objects fuel marked trace).isSome = true := by
  intro fuel
  induction fuel with
  | zero =>
    intro marked trace h
    exfalso
    unfold gcMeasure at h
    have h1 : 0 < (gcU objects marked + 1) * (totalWeight objects + 1) :=
      Nat.mul_pos (Nat.succ_pos _) (Nat.succ_pos _)
    omega
  | succ fuel ih =>
    intro marked trace h
    match trace with
    | [] => simp [gcTraceF]
    | v :: rest =>
      cases v with
      | tuple vs =>
        refine ih _ (vs.reverse ++ rest) ?_
        have e1 := valuesWeight_append vs.reverse rest
        have e2 := valuesWeight_reverse vs
        unfold gcMeasure at h ⊢
        simp only [valuesWeight, Value.weight] at h
        omega
      | sym a =>
        refine ih _ rest ?_
        unfold gcMeasure at h ⊢
        simp only [valuesWeight, Value.weight] at h
        omega
      | int a =>
        refine ih _ rest ?_
        unfold gcMeasure at h ⊢
        simp only [valuesWeight, Value.weight] at h
        omega
      | float a =>
        refine ih _ rest ?_
        unfold gcMeasure at h ⊢
        simp only [valuesWeight, Value.weight] at h
        omega
      | obj id =>
        rw [gcTraceF_obj]
        cases hm : marked.contains id with
        | true =>
          rw [if_pos rfl]
          refine ih _ rest ?_
          unfold gcMeasure at h ⊢
          simp only [valuesWeight, Value.weight] at h
          omega
        | false =>
          rw [if_neg (by simp)]
          refine ih _ _ ?_
          unfold gcMeasure at h ⊢
          simp only [valuesWeight, Value.weight] at h
          rw [valuesWeight_append, valuesWeight_reverse]
          cases hl : odLookup objects id with
          | none =>
            have hU := gcU_insort_le objects id marked
            have hmul : (gcU objects (insortId id marked) + 1) * (totalWeight objects + 1)
                ≤ (gcU objects marked + 1) * (totalWeight objects + 1) :=
              Nat.mul_le_mul_right _ (by omega)
            simp only [Option.getD_none, attrsValues, valuesWeight]
            omega
          | some a =>
            have hk : id ∈ objects.map Prod.fst :=
              List.mem_map.mpr ⟨(id, a), odLookup_mem objects id a hl, rfl⟩
            have hlt := gcU_insort_lt objects id marked hk hm
            have hT : attrsWeight a ≤ totalWeight objects :=
              attrsWeight_le_totalWeight objects id a (odLookup_mem objects id a hl)
            have hmul : (gcU objects (insortId id marked) + 1) * (totalWeight objects + 1)
                ≤ gcU objects marked * (totalWeight objects + 1) :=
              Nat.mul_le_mul_right _ (by omega)
            have hsucc : (gcU objects marked + 1) * (totalWeight objects + 1)
                = gcU objects marked * (totalWeight objects + 1) + (totalWeight objects + 1) :=
              Nat.succ_mul _ _
            unfold attrsWeight at hT
            simp only [Option.getD_some]
            omega

theorem gcTrace_sound (s : Space) :
    ∀ (fuel : Nat) (marked : List Id) (trace : List Value) (res : List Id),
      gcTraceF s.objects fuel marked trace = some res →
      (∀ id ∈ marked, Reaches s id) →
      (∀ id, id ∈ valuesIds trace → Reaches s id) →
      ∀ id ∈ res, Reaches s id := by
  intro fuel
  induction fuel with
  | zero => intro _ _ _ h; cases h
  | succ fuel ih =>
    intro marked trace res hrun hm ht
    match trace with
    | [] =>
      simp only [gcTraceF, Option.some.injEq] at hrun
      subst hrun
      exact hm
    | v :: rest =>
      cases v with
      | tuple vs =>
        refine ih _ _ _ hrun hm ?_
        intro x hx
        rcases (mem_valuesIds_append x _ _).mp hx with h1 | h1
        · exact ht x (by
            simp only [valuesIds, List.mem_append]
            exact Or.inl ((by simpa [valueIds] using (mem_valuesIds_reverse x vs).mp h1)))
        · exact ht x (by simp only [valuesIds, List.mem_append]; exact Or.inr h1)
      | sym a =>
        refine ih _ _ _ hrun hm ?_
        intro x hx
        exact ht x (by simp [valuesIds, valueIds]; exact hx)
      | int a =>
        refine ih _ _ _ hrun hm ?_
        intro x hx
        exact ht x (by simp [valuesIds, valueIds]; exact hx)
      | float a =>
        refine ih _ _ _ hrun hm ?_
        intro x hx
        exact ht x (by simp [valuesIds, valueIds]; exact hx)
      | obj id =>
        have hid : Reaches s id := ht id (by simp [valuesIds, valueIds])
        rw [show gcTraceF s.objects (fuel + 1) marked (Value.obj id :: rest)
            = if marked.contains id then gcTraceF s.objects fuel marked rest
              else gcTraceF s.objects fuel (insortId id marked)
                ((attrsValues ((odLookup s.objects id).getD [])).reverse ++ rest)
            from rfl] at hrun
        by_cases hmem : marked.contains id = true
        · rw [if_pos hmem] at hrun
          refine ih _ _ _ hrun hm ?_
          intro x hx
          exact ht x (by simp only [valuesIds, valueIds, List.mem_append]; exact Or.inr hx)
        · rw [if_neg hmem] at hrun
          refine ih _ _ _ hrun ?_ ?_
          · intro x hx
            rcases (mem_insortId x id marked).mp hx with h1 | h1
            · subst h1; exact hid
            · exact hm x h1
          · intro x hx
            rcases (mem_valuesIds_append x _ _).mp hx with h1 | h1
            · refine Reaches.step id x hid ?_
              have := (mem_valuesIds_reverse x _).mp h1
              simpa [Space.attributes] using this
            · exact ht x (by simp only [valuesIds, valueIds, List.mem_append]; exact Or.inr h1)

theorem gcTrace_complete (s : Space) :
    ∀ (fuel : Nat) (marked : List Id) (trace : List Value) (res : List Id),
      gcTraceF s.objects fuel marked trace = some res →
      (∀ r ∈ s.root_objects, r ∈ marked ∨ r ∈ valuesIds trace) →
      (∀ a ∈ marked, ∀ x, x ∈ valuesIds (attrsValues (s.attributes a)) →
        x ∈ marked ∨ x ∈ valuesIds trace) →
      (∀ r ∈ s.root_objects, r ∈ res) ∧
      (∀ a ∈ res, ∀ x, x ∈ valuesIds (attrsValues (s.attributes a)) → x ∈ res) := by
  intro fuel
  induction fuel with
  | zero => intro _ _ _ h; cases h
  | succ fuel ih =>
    intro marked trace res hrun hroot hcl
    match trace with
    | [] =>
      simp only [gcTraceF, Option.some.injEq] at hrun
      subst hrun
      constructor
      · intro r hr
        rcases hroot r hr with h1 | h1
        · exact h1
        · simp [valuesIds] at h1
      · intro a ha x hx
        rcases hcl a ha x hx with h1 | h1
        · exact h1
        · simp [valuesIds] at h1
    | v :: rest =>
      cases v with
      | tuple vs =>
        refine ih _ _ _ hrun ?_ ?_
        · intro r hr
          rcases hroot r hr with h1 | h1
          · exact Or.inl h1
          · right
            rw [mem_valuesIds_append]
            simp only [valuesIds, valueIds, List.mem_append] at h1
            rcases h1 with h2 | h2
            · exact Or.inl ((mem_valuesIds_reverse r vs).mpr h2)
            · exact Or.inr h2
        · intro a ha x hx
          rcases hcl a ha x hx with h1 | h1
          · exact Or.inl h1
          · right
            rw [mem_valuesIds_append]
            simp only [valuesIds, valueIds, List.mem_append] at h1
            rcases h1 with h2 | h2
            · exact Or.inl ((mem_valuesIds_reverse x vs).mpr h2)
            · exact Or.inr h2
      | sym b =>
        refine ih _ _ _ hrun ?_ ?_
        · intro r hr
          rcases hroot r hr with h1 | h1
          · exact Or.inl h1
          · right; simpa [valuesIds, valueIds] using h1
        · intro a ha x hx
          rcases hcl a ha x hx with h1 | h1
          · exact Or.inl h1
          · right; simpa [valuesIds, valueIds] using h1
      | int b =>
        refine ih _ _ _ hrun ?_ ?_
        · intro r hr
          rcases hroot r hr with h1 | h1
          · exact Or.inl h1
          · right; simpa [valuesIds, valueIds] using h1
        · intro a ha x hx
          rcases hcl a ha x hx with h1 | h1
          · exact Or.inl h1
          · right; simpa [valuesIds, valueIds] using h1
      | float b =>
        refine ih _ _ _ hrun ?_ ?_
        · intro r hr
          rcases hroot r hr with h1 | h1
          · exact Or.inl h1
          · right; simpa [valuesIds, valueIds] using h1
        · intro a ha x hx
          rcases hcl a ha x hx with h1 | h1
          · exact Or.inl h1
          · right; simpa [valuesIds, valueIds] using h1
      | obj id =>
        rw [show gcTraceF s.objects (fuel + 1) marked (Value.obj id :: rest)
            = if marked.contains id then gcTraceF s.objects fuel marked rest
              else gcTraceF s.objects fuel (insortId id marked)
                ((attrsValues ((odLookup s.objects id).getD [])).reverse ++ rest)
            from rfl] at hrun
        by_cases hmem : marked.contains id = true
        · rw [if_pos hmem] at hrun
          have hidm : id ∈ marked := (containsId_iff _ _).mp hmem
          refine ih _ _ _ hrun ?_ ?_
          · intro r hr
            rcases hroot r hr with h1 | h1
            · exact Or.inl h1
            · simp only [valuesIds, valueIds, List.mem_append, List.mem_singleton] at h1
              rcases h1 with h2 | h2
              · exact Or.inl (by rw [h2]; exact hidm)
              · exact Or.inr h2
          · intro a ha x hx
            rcases hcl a ha x hx with h1 | h1
            · exact Or.inl h1
            · simp only [valuesIds, valueIds, List.mem_append, List.mem_singleton] at h1
              rcases h1 with h2 | h2
              · exact Or.inl (by rw [h2]; exact hidm)
              · exact Or.inr h2
        · rw [if_neg hmem] at hrun
          have hattr : s.attributes id = (odLookup s.objects id).getD [] := rfl
          refine ih _ _ _ hrun ?_ ?_
          · intro r hr
            rcases hroot r hr with h1 | h1
            · exact Or.inl ((mem_insortId r id marked).mpr (Or.inr h1))
            · simp only [valuesIds, valueIds, List.mem_append] at h1
              rcases h1 with h2 | h2
              · exact Or.inl ((mem_insortId r id marked).mpr
                  (Or.inl (by rwa [List.mem_singleton] at h2)))
              · right
                rw [mem_valuesIds_append]
                exact Or.inr h2
          · intro a ha x hx
            rcases (mem_insortId a id marked).mp ha with h1 | h1
            · subst h1
              right
              rw [mem_valuesIds_append]
              left
              rw [mem_valuesIds_reverse, ← hattr]
              exact hx
            · rcases hcl a h1 x hx with h2 | h2
              · exact Or.inl ((mem_insortId x id marked).mpr (Or.inr h2))
              · simp only [valuesIds, valueIds, List.mem_append] at h2
                rcases h2 with h3 | h3
                · exact Or.inl ((mem_insortId x id marked).mpr
                    (Or.inl (by rwa [List.mem_singleton] at h3)))
                · right
                  rw [mem_valuesIds_append]
                  exact Or.inr h3

theorem mem_initTrace_iff (s : Space) (x : Id) :
    x ∈ valuesIds (gcInitTrace s) ↔ x ∈ s.root_objects := by
  unfold gcInitTrace
  rw [mem_valuesIds_reverse]
  induction s.root_objects with
  | nil => simp [valuesIds]
  | cons r rest ih => simp [valuesIds, valueIds, ih]

theorem gcMarked_iff (s : Space) (id : Id) : id ∈ gcMarked s ↔ Reaches s id := by
  have hsome := gcTraceF_isSome s.objects (gcFuel s) [] (gcInitTrace s) (le_refl _)
  obtain ⟨res, hres⟩ := Option.isSome_iff_exists.mp hsome
  have hg : gcMarked s = res := by unfold gcMarked; rw [hres]; rfl
  rw [hg]
  constructor
  · intro hmem
    refine gcTrace_sound s _ _ _ _ hres (by intro x hx; cases hx) ?_ id hmem
    intro x hx
    exact Reaches.root x ((mem_initTrace_iff s x).mp hx)
  · intro hre
    have hcomp := gcTrace_complete s _ _ _ _ hres
      (by intro r hr; exact Or.inr ((mem_initTrace_iff s r).mpr hr))
      (by intro a ha; cases ha)
    induction hre with
    | root r hr => exact hcomp.1 r hr
    | step a x hra hx iha => exact hcomp.2 a iha x hx

/-- Claim C2: `collect_garbage` retains exactly the object entries whose
id is reachable from the registered roots through chains of attribute
values (tracing object references and recursing into tuple contents,
with symbols/ints/floats terminating the traversal), removes every
other entry, leaves the roots untouched, and returns the number of
removed entries. -/
theorem c2_collect_garbage_reachable (s : Space) :
    (∀ id a, (id, a) ∈ s.collect_garbage.2.objects ↔
      ((id, a) ∈ s.objects ∧ Reaches s id)) ∧
    s.collect_garbage.1 + s.collect_garbage.2.objects.length = s.objects.length ∧
    s.collect_garbage.2.root_objects = s.root_objects := by
  refine ⟨?_, ?_, rfl⟩
  · intro id a
    show (id, a) ∈ s.objects.filter (fun p => (gcMarked s).contains p.1) ↔ _
    rw [List.mem_filter]
    constructor
    · intro ⟨h1, h2⟩
      refine ⟨h1, ?_⟩
      rw [← gcMarked_iff]
      exact (containsId_iff _ _).mp h2
    · intro ⟨h1, h2⟩
      refine ⟨h1, ?_⟩
      rw [← gcMarked_iff] at h2
      exact (containsId_iff _ _).mpr h2
  · show s.objects.length - (s.objects.filter _).length + (s.objects.filter _).length = _
    have := List.length_filter_le (fun p => (gcMarked s).contains p.1) s.objects
    omega

/-! ## Claim C4: the search machine terminates -/

theorem pcPot_pos (N K pc : Nat) (hK : 1 ≤ K) : 1 ≤ pcPot N K pc :=
  Nat.one_le_pow _ _ (by omega)

theorem pcPot_anti (N K : Nat) (hK : 1 ≤ K) {p1 p2 : Nat} (h : p1 ≤ p2) :
    pcPot N K p2 ≤ pcPot N K p1 :=
  Nat.pow_le_pow_right hK (by omega)

theorem pcPot_step (N K p : Nat) (hp : p ≤ N) :
    pcPot N K p = K * pcPot N K (p + 1) := by
  unfold pcPot
  rw [show min p (N + 1) = p from by omega,
      show min (p + 1) (N + 1) = p + 1 from by omega,
      show N + 1 - p = (N + 1 - (p + 1)) + 1 from by omega,
      pow_succ]
  ring

theorem unwind_pot (N K : Nat) :
    ∀ (frames : List Frame) (bs : Bindings) (pc2 : Nat) (frames2 : List Frame)
      (bs2 : Bindings),
      unwind frames bs = .go pc2 frames2 bs2 →
      pcPot N K pc2 + framesPot N K frames2 ≤ framesPot N K frames := by
  intro frames
  induction frames with
  | nil => intro bs pc2 f2 b2 h; cases h
  | cons f rest ih =>
    intro bs pc2 f2 b2 h
    match f with
    | .notScope i cont =>
      simp only [unwind, UnwindOut.go.injEq] at h
      obtain ⟨rfl, rfl, rfl⟩ := h
      simp [framesPot, framePot]
    | .iter [] b t =>
      have h2 := ih bs pc2 f2 b2 (by simpa [unwind] using h)
      simp only [framesPot]
      omega
    | .iter (v :: vs) b t =>
      simp only [unwind] at h
      cases hset : bSet bs b v with
      | none => rw [hset] at h; cases h
      | some bs3 =>
        rw [hset] at h
        simp only [UnwindOut.go.injEq] at h
        obtain ⟨rfl, rfl, rfl⟩ := h
        simp only [framesPot, framePot, List.length_cons]
        have e1 : (vs.length + 1 + 1) * pcPot N K t
            = (vs.length + 1) * pcPot N K t + pcPot N K t := Nat.succ_mul _ _
        omega

theorem truncAtNot_pot (N K idx : Nat) :
    ∀ (frames frames2 : List Frame), truncAtNot idx frames = some frames2 →
      framesPot N K frames2 ≤ framesPot N K frames := by
  intro frames
  induction frames with
  | nil => intro f2 h; cases h
  | cons f rest ih =>
    intro f2 h
    simp only [truncAtNot] at h
    cases ht : truncAtNot idx rest with
    | some r =>
      rw [ht] at h
      obtain rfl := Option.some.inj h
      have := ih r ht
      simp only [framesPot]
      omega
    | none =>
      rw [ht] at h
      match f with
      | .iter l b t => cases h
      | .notScope fidx t =>
        simp only at h
        by_cases hidx : fidx = idx
        · rw [if_pos hidx] at h
          obtain rfl := Option.some.inj h
          simp only [framesPot]
          omega
        · rw [if_neg hidx] at h; cases h

theorem iterNamed_le_attrsMaxLen (attrs : AttrData) (name : Symbol) :
    (iterNamed attrs name).length ≤ attrsMaxLen attrs := by
  induction attrs with
  | nil => simp [iterNamed, attrsMaxLen]
  | cons g rest ih =>
    obtain ⟨gn, gv⟩ := g
    by_cases h : gn = name
    · simp [iterNamed, h, attrsMaxLen]
    · simp only [iterNamed, if_neg h, attrsMaxLen]
      omega

theorem attrsMaxLen_viewAttrs_le (view : AccessView) (id : Id) :
    attrsMaxLen (viewAttrs view id) ≤ maxIterLen view := by
  unfold viewAttrs
  induction view with
  | nil => simp [odLookup, attrsMaxLen, maxIterLen]
  | cons p rest ih =>
    obtain ⟨k, a⟩ := p
    by_cases hk : k = id
    · simp only [odLookup, if_pos hk, Option.getD_some, maxIterLen]
      omega
    · simp only [odLookup, if_neg hk, maxIterLen]
      omega

theorem iter_len_bound (view : AccessView) (id : Id) (attr : Symbol) :
    (iterNamed (viewAttrs view id) attr).length ≤ maxIterLen view :=
  le_trans (iterNamed_le_attrsMaxLen _ _) (attrsMaxLen_viewAttrs_le view id)

theorem execOp_cases {σ : Type} (ctrl : σ → Bindings → RuntimeControl × σ)
    (view : AccessView) (p : Nat) (op : Op) (frames : List Frame)
    (bs : Bindings) (c : σ) :
    execOp ctrl view p op frames bs c = .panic ∨
    (∃ bs2 c2, execOp ctrl view p op frames bs c = .stop bs2 c2) ∨
    (∃ bs2 c2, execOp ctrl view p op frames bs c = .flow .nextOp frames bs2 c2) ∨
    (∃ i t bs2 c2, p + 1 ≤ t ∧
      execOp ctrl view p op frames bs c
        = .flow .nextOp (.notScope i t :: frames) bs2 c2) ∨
    (∃ bs2 c2, execOp ctrl view p op frames bs c = .flow .nextBranch frames bs2 c2) ∨
    (∃ l vb bs2 c2, l.length ≤ maxIterLen view ∧
      execOp ctrl view p op frames bs c
        = .flow .nextBranch (.iter l vb (p + 1) :: frames) bs2 c2) ∨
    (∃ i frames2 bs2 c2, truncAtNot i frames = some frames2 ∧
      execOp ctrl view p op frames bs c = .flow .nextBranch frames2 bs2 c2) := by
  cases op with
  | assertObjectBinding b =>
    cases hbg : bGet bs b with
    | none => exact Or.inl (by simp [execOp, *])
    | some v =>
      cases hobj : v.object with
      | some i => exact Or.inr (Or.inr (Or.inl ⟨bs, c, by simp [execOp, *]⟩))
      | none => exact Or.inr (Or.inr (Or.inr (Or.inr (Or.inl ⟨bs, c, by simp [execOp, *]⟩))))
  | requireAttributeBinding b attr vb =>
    cases hbg : bGet bs b with
    | none => exact Or.inl (by simp [execOp, *])
    | some v =>
      cases hobj : v.object with
      | none => exact Or.inr (Or.inr (Or.inr (Or.inr (Or.inl ⟨bs, c, by simp [execOp, *]⟩))))
      | some i =>
        cases hvb : bGet bs vb with
        | none => exact Or.inl (by simp [execOp, *])
        | some vv =>
          by_cases h : attrsHas (viewAttrs view i) attr (fun ex => valueEqb ex vv) = true
          · exact Or.inr (Or.inr (Or.inl ⟨bs, c, by simp [execOp, *]⟩))
          · exact Or.inr (Or.inr (Or.inr (Or.inr (Or.inl ⟨bs, c, by simp [execOp, *]⟩))))
  | requireAttributeValue b attr v =>
    cases hbg : bGet bs b with
    | none => exact Or.inl (by simp [execOp, *])
    | some bv =>
      cases hobj : bv.object with
      | none => exact Or.inr (Or.inr (Or.inr (Or.inr (Or.inl ⟨bs, c, by simp [execOp, *]⟩))))
      | some i =>
        by_cases h : attrsHas (viewAttrs view i) attr (fun ex => valueEqb ex v) = true
        · exact Or.inr (Or.inr (Or.inl ⟨bs, c, by simp [execOp, *]⟩))
        · exact Or.inr (Or.inr (Or.inr (Or.inr (Or.inl ⟨bs, c, by simp [execOp, *]⟩))))
  | requireAttribute b attr =>
    cases hbg : bGet bs b with
    | none => exact Or.inl (by simp [execOp, *])
    | some bv =>
      cases hobj : bv.object with
      | none => exact Or.inr (Or.inr (Or.inr (Or.inr (Or.inl ⟨bs, c, by simp [execOp, *]⟩))))
      | some i =>
        by_cases h : attrsHasNamed (viewAttrs view i) attr = true
        · exact Or.inr (Or.inr (Or.inl ⟨bs, c, by simp [execOp, *]⟩))
        · exact Or.inr (Or.inr (Or.inr (Or.inr (Or.inl ⟨bs, c, by simp [execOp, *]⟩))))
  | compareBinding b v =>
    cases hbg : bGet bs b with
    | none => exact Or.inl (by simp [execOp, *])
    | some bv =>
      by_cases h : valueEqb bv v = true
      · exact Or.inr (Or.inr (Or.inl ⟨bs, c, by simp [execOp, *]⟩))
      · exact Or.inr (Or.inr (Or.inr (Or.inr (Or.inl ⟨bs, c, by simp [execOp, *]⟩))))
  | searchAttributeBinding b attr vb =>
    cases hbg : bGet bs b with
    | none => exact Or.inl (by simp [execOp, *])
    | some bv =>
      cases hobj : bv.object with
      | some i =>
        refine Or.inr (Or.inr (Or.inr (Or.inr (Or.inr (Or.inl
          ⟨iterNamed (viewAttrs view i) attr, vb, bs, c, ?_, by simp [execOp, *]⟩)))))
        exact iter_len_bound view i attr
      | none => exact Or.inr (Or.inr (Or.inr (Or.inr (Or.inl ⟨bs, c, by simp [execOp, *]⟩))))
  | unpackTupleBinding b items =>
    cases hbg : bGet bs b with
    | none => exact Or.inl (by simp [execOp, *])
    | some bv =>
      cases htv : bv.tupleVals with
      | none => exact Or.inr (Or.inr (Or.inr (Or.inr (Or.inl ⟨bs, c, by simp [execOp, *]⟩))))
      | some vs =>
        by_cases hlen : vs.length = items.length
        · cases hunp : unpackItems items vs bs with
          | none => exact Or.inl (by simp [execOp, *])
          | some r =>
            obtain ⟨matched, bs2⟩ := r
            cases matched with
            | true => exact Or.inr (Or.inr (Or.inl ⟨bs2, c, by simp [execOp, *]⟩))
            | false =>
              exact Or.inr (Or.inr (Or.inr (Or.inr (Or.inl ⟨bs2, c, by simp [execOp, *]⟩))))
        · exact Or.inr (Or.inr (Or.inr (Or.inr (Or.inl ⟨bs, c, by simp [execOp, *]⟩))))
  | matchEnumBinding b options =>
    cases hbg : bGet bs b with
    | none => exact Or.inl (by simp [execOp, *])
    | some bv =>
      cases hme : matchEnum bs bv options with
      | none => exact Or.inl (by simp [execOp, *])
      | some matched =>
        cases matched with
        | true => exact Or.inr (Or.inr (Or.inl ⟨bs, c, by simp [execOp, *]⟩))
        | false => exact Or.inr (Or.inr (Or.inr (Or.inr (Or.inl ⟨bs, c, by simp [execOp, *]⟩))))
  | compare cmp =>
    cases hlv : cmp.left.resolve bs with
    | none => exact Or.inl (by simp [execOp, *])
    | some lv =>
      cases hrv : cmp.right.resolve bs with
      | none => exact Or.inl (by simp [execOp, *])
      | some rv =>
        cases hun : unify_numeric_types lv rv with
        | none => exact Or.inr (Or.inr (Or.inr (Or.inr (Or.inl ⟨bs, c, by simp [execOp, *]⟩))))
        | some pr =>
          obtain ⟨l2, r2⟩ := pr
          by_cases h : compareMatched cmp.operator (some (valueCompare l2 r2)) = true
          · exact Or.inr (Or.inr (Or.inl ⟨bs, c, by simp [execOp, *]⟩))
          · exact Or.inr (Or.inr (Or.inr (Or.inr (Or.inl ⟨bs, c, by simp [execOp, *]⟩))))
  | calculation b operation =>
    cases hpc : performCalculation bs operation with
    | none => exact Or.inl (by simp [execOp, *])
    | some r =>
      cases r with
      | none => exact Or.inr (Or.inr (Or.inr (Or.inr (Or.inl ⟨bs, c, by simp [execOp, *]⟩))))
      | some v =>
        cases hset : bSet bs b v with
        | some bs2 => exact Or.inr (Or.inr (Or.inl ⟨bs2, c, by simp [execOp, *]⟩))
        | none => exact Or.inl (by simp [execOp, *])
  | beginNot idx len =>
    exact Or.inr (Or.inr (Or.inr (Or.inl ⟨idx, p + len + 1, bs, c, by omega, by simp [execOp]⟩)))
  | endNot idx =>
    cases ht : truncAtNot idx frames with
    | none => exact Or.inl (by simp [execOp, *])
    | some frames2 =>
      exact Or.inr (Or.inr (Or.inr (Or.inr (Or.inr (Or.inr
        ⟨idx, frames2, bs, c, ht, by simp [execOp, *]⟩)))))
  | done =>
    cases hc : ctrl c bs with
    | mk control c2 =>
      cases control with
      | cont => exact Or.inr (Or.inr (Or.inr (Or.inr (Or.inl ⟨bs, c2, by simp [execOp, *]⟩))))
      | stop => exact Or.inr (Or.inl ⟨bs, c2, by simp [execOp, *]⟩)

theorem step_decrease {σ : Type} (ctrl : σ → Bindings → RuntimeControl × σ)
    (view : AccessView) (ops : List Op) (K : Nat)
    (hK : maxIterLen view + 3 ≤ K) (st st2 : MState σ)
    (h : step ctrl view ops st = .next st2) :
    statePot ops.length K st2 < statePot ops.length K st := by
  obtain ⟨p, frames, bs, c⟩ := st
  unfold step at h
  cases hget : ops.get? p with
  | none => rw [hget] at h; cases h
  | some op =>
    rw [hget] at h
    dsimp only at h
    have hp : p < ops.length := by
      by_contra hc
      rw [List.get?_eq_none.mpr (by omega)] at hget
      cases hget
    have hKpos : 1 ≤ K := by omega
    have hstep := pcPot_step ops.length K p (by omega)
    have hpos := pcPot_pos ops.length K (p + 1) hKpos
    rcases execOp_cases ctrl view p op frames bs c with
      hx | ⟨bs2, c2, hx⟩ | ⟨bs2, c2, hx⟩ | ⟨i, t, bs2, c2, ht, hx⟩ | ⟨bs2, c2, hx⟩ |
      ⟨l, vb, bs2, c2, hl, hx⟩ | ⟨i, frames2, bs2, c2, htr, hx⟩
    · rw [hx] at h; cases h
    · rw [hx] at h; cases h
    · rw [hx] at h
      simp only [StepOut.next.injEq] at h
      subst h
      simp only [statePot]
      have : pcPot ops.length K (p + 1) < K * pcPot ops.length K (p + 1) := by
        nlinarith [hpos, hK]
      omega
    · rw [hx] at h
      simp only [StepOut.next.injEq] at h
      subst h
      simp only [statePot, framesPot, framePot]
      have hanti := pcPot_anti ops.length K hKpos ht
      have h2 : 2 * pcPot ops.length K (p + 1) < K * pcPot ops.length K (p + 1) := by
        nlinarith [hpos, hK]
      omega
    · rw [hx] at h
      dsimp only at h
      cases hun : unwind frames bs2 with
      | fail => rw [hun] at h; cases h
      | panic => rw [hun] at h; cases h
      | go pc2 frames2 bs3 =>
        rw [hun] at h
        simp only [StepOut.next.injEq] at h
        subst h
        have hb := unwind_pot ops.length K frames bs2 pc2 frames2 bs3 hun
        simp only [statePot]
        have := pcPot_pos ops.length K p hKpos
        omega
    · rw [hx] at h
      dsimp only at h
      cases hun : unwind (Frame.iter l vb (p + 1) :: frames) bs2 with
      | fail => rw [hun] at h; cases h
      | panic => rw [hun] at h; cases h
      | go pc2 frames2 bs3 =>
        rw [hun] at h
        simp only [StepOut.next.injEq] at h
        subst h
        have hb := unwind_pot ops.length K _ bs2 pc2 frames2 bs3 hun
        simp only [framesPot, framePot] at hb
        simp only [statePot]
        have hmul : (l.length + 1) * pcPot ops.length K (p + 1)
            < K * pcPot ops.length K (p + 1) := by
          nlinarith [hpos, hK, hl]
        omega
    · rw [hx] at h
      dsimp only at h
      cases hun : unwind frames2 bs2 with
      | fail => rw [hun] at h; cases h
      | panic => rw [hun] at h; cases h
      | go pc2 frames3 bs3 =>
        rw [hun] at h
        simp only [StepOut.next.injEq] at h
        subst h
        have hb := unwind_pot ops.length K frames2 bs2 pc2 frames3 bs3 hun
        have hb2 := truncAtNot_pot ops.length K i frames frames2 htr
        simp only [statePot]
        have := pcPot_pos ops.length K p hKpos
        omega

theorem runFuel_isSome {σ : Type} (ctrl : σ → Bindings → RuntimeControl × σ)
    (view : AccessView) (ops : List Op) :
    ∀ (fuel : Nat) (st : MState σ),
      statePot ops.length (maxIterLen view + 3) st < fuel →
      (runFuel ctrl view ops fuel st).isSome = true := by
  intro fuel
  induction fuel with
  | zero => intro st h; omega
  | succ fuel ih =>
    intro st h
    unfold runFuel
    cases hstep : step ctrl view ops st with
    | next st2 =>
      have := step_decrease ctrl view ops (maxIterLen view + 3) (le_refl _) st st2 hstep
      exact ih st2 (by omega)
    | found bs c => rfl
    | failed bs c => rfl
    | panic => rfl

/-- Claim C4 counterexample: `search_bindings` does not hold up its
"never panics" guarantee for *every* op-list -- on the empty op-list the
very first loop iteration indexes `ops[0]` out of range, a Rust panic. -/
theorem c4_search_empty_ops_panics :
    find_first_bindings [] [] [] = .panicked := rfl

/-- Claim C4 (amended): for every op-list, every access view (object
space or transaction), every binding array and every control callback,
the search terminates within the explicitly computed step bound
`searchFuel` -- the initial machine potential, determined by the op-list
length and the attribute iteration sizes -- returning success
(`found`), failure (`exhausted`), or a panic outcome (out-of-range
op/binding index or unmatched `EndNot`, possible only for malformed
op-lists); it never loops and never raises a runtime error. -/
theorem c4_search_terminates {σ : Type} (ctrl : σ → Bindings → RuntimeControl × σ)
    (ops : List Op) (view : AccessView) (bs : Bindings) (c0 : σ) :
    (runFuel ctrl view ops (searchFuel view ops ⟨0, [], bs, c0⟩)
      ⟨0, [], bs, c0⟩).isSome = true := by
  refine runFuel_isSome ctrl view ops _ _ ?_
  unfold searchFuel
  omega

/-! ## Claim C5: calculation failures backtrack -/

/-- Values that are numeric operands (Int or Float variants). -/
def Value.isNumeric : Value → Bool
  | .int _ => true
  | .float _ => true
  | _ => false

/-- Claim C5: calculation operands are coerced to a common numeric type
(`Int` stays `Int` when both operands are `Int`; mixed `Int`/`Float`
becomes `Float`); overflow of `Int` addition, subtraction or
multiplication, a zero divisor (`Int` or `Float`), and any non-numeric
operand make the op fail (inner `none`), which in `search_bindings`
triggers `NextBranch` with the binding array untouched -- the result
binding is not assigned and no runtime error is raised. -/
theorem c5_calculation_coercion_and_failures :
    (∀ a b : Int, unify_numeric_types (.int a) (.int b) = some (.int a, .int b)) ∧
    (∀ (a : Int) (f : F64),
      unify_numeric_types (.int a) (.float f) = some (.float (i64ToF64 a), .float f)) ∧
    (∀ (f : F64) (b2 : Int),
      unify_numeric_types (.float f) (.int b2) = some (.float f, .float (i64ToF64 b2))) ∧
    (∀ a b : Int, ¬(i64Min ≤ a + b ∧ a + b ≤ i64Max) →
      calcBinOp .add (.int a) (.int b) = none) ∧
    (∀ a b : Int, ¬(i64Min ≤ a - b ∧ a - b ≤ i64Max) →
      calcBinOp .sub (.int a) (.int b) = none) ∧
    (∀ a b : Int, ¬(i64Min ≤ a * b ∧ a * b ≤ i64Max) →
      calcBinOp .mul (.int a) (.int b) = none) ∧
    (∀ a : Int, calcBinOp .div (.int a) (.int 0) = none) ∧
    (∀ f g : F64, F64.ieeeEq g (.num 0) = true →
      calcBinOp .div (.float f) (.float g) = none) ∧
    (∀ (bs : Bindings) (op : ArithBinOp) (l r : Value),
      l.isNumeric = false ∨ r.isNumeric = false →
      performCalculation bs (.binOp op (.value l) (.value r)) = some none) ∧
    (∀ (bs : Bindings) (a b : Int), i64Min ≤ a + b ∧ a + b ≤ i64Max →
      performCalculation bs (.binOp .add (.value (.int a)) (.value (.int b)))
        = some (some (.int (a + b)))) ∧
    (∀ (bs : Bindings) (a : Int) (f : F64),
      performCalculation bs (.binOp .add (.value (.int a)) (.value (.float f)))
        = some (some (.float (F64.add (i64ToF64 a) f)))) ∧
    (∀ {σ : Type} (ctrl : σ → Bindings → RuntimeControl × σ) (view : AccessView)
      (p : Nat) (b : Binding) (operation : Calculation) (frames : List Frame)
      (bs : Bindings) (c : σ),
      performCalculation bs operation = some none →
      execOp ctrl view p (.calculation b operation) frames bs c
        = .flow .nextBranch frames bs c) := by
  refine ⟨fun a b => rfl, fun a f => rfl, fun f b2 => rfl, ?_, ?_, ?_, ?_, ?_, ?_, ?_, ?_, ?_⟩
  · intro a b h
    rw [show calcBinOp .add (.int a) (.int b) = (checkedAdd a b).map Value.int from rfl]
    unfold checkedAdd
    rw [if_neg h]
    rfl
  · intro a b h
    rw [show calcBinOp .sub (.int a) (.int b) = (checkedSub a b).map Value.int from rfl]
    unfold checkedSub
    rw [if_neg h]
    rfl
  · intro a b h
    rw [show calcBinOp .mul (.int a) (.int b) = (checkedMul a b).map Value.int from rfl]
    unfold checkedMul
    rw [if_neg h]
    rfl
  · intro a
    simp [calcBinOp, checkedDiv]
  · intro f g h
    simp [calcBinOp, h]
  · intro bs op l r h
    cases l with
    | obj i => cases r <;> cases op <;> simp [performCalculation, unify_numeric_types, calcBinOp]
    | sym s => cases r <;> cases op <;> simp [performCalculation, unify_numeric_types, calcBinOp]
    | tuple vs => cases r <;> cases op <;> simp [performCalculation, unify_numeric_types, calcBinOp]
    | int n =>
      cases r with
      | obj i => cases op <;> simp [performCalculation, unify_numeric_types, calcBinOp]
      | sym s => cases op <;> simp [performCalculation, unify_numeric_types, calcBinOp]
      | tuple vs => cases op <;> simp [performCalculation, unify_numeric_types, calcBinOp]
      | int m => simp [Value.isNumeric] at h
      | float f => simp [Value.isNumeric] at h
    | float f =>
      cases r with
      | obj i => cases op <;> simp [performCalculation, unify_numeric_types, calcBinOp]
      | sym s => cases op <;> simp [performCalculation, unify_numeric_types, calcBinOp]
      | tuple vs => cases op <;> simp [performCalculation, unify_numeric_types, calcBinOp]
      | int m => simp [Value.isNumeric] at h
      | float g => simp [Value.isNumeric] at h
  · intro bs a b h
    simp [performCalculation, unify_numeric_types, calcBinOp, checkedAdd, h]
  · intro bs a f
    simp [performCalculation, unify_numeric_types, calcBinOp]
  · intro σ ctrl view p b operation frames bs c h
    simp [execOp, h]

/-- Witness for C5 at concrete inputs: `i64::MAX + 1` overflows and
fails, `1 / 0` fails, `1.0 / -0.0` fails, a symbol operand fails, and a
failing calculation op leaves concrete bindings untouched while
branching; `2 + 2` stays `Int` and `2 + 0.5` becomes `Float`. -/
theorem c5_calculation_coercion_and_failures_witness :
    calcBinOp .add (.int 9223372036854775807) (.int 1) = none ∧
    calcBinOp .div (.int 1) (.int 0) = none ∧
    calcBinOp .div (.float (.num 1)) (.float .negZero) = none ∧
    performCalculation [] (.binOp .mul (.value (.sym "a")) (.value (.int 2))) = some none ∧
    performCalculation [] (.binOp .add (.value (.int 2)) (.value (.int 2)))
      = some (some (.int 4)) ∧
    unify_numeric_types (.int 2) (.float (.num 3))
      = some (.float (.num 2), .float (.num 3)) ∧
    execOp (fun u (_b : Bindings) => (RuntimeControl.stop, u)) [] 0
      (.calculation 0 (.binOp .div (.value (.int 1)) (.value (.int 0))))
      [] [Value.int 7] ()
      = .flow .nextBranch [] [Value.int 7] () := by
  have h := c5_calculation_coercion_and_failures
  refine ⟨h.2.2.2.1 _ _ (by decide), h.2.2.2.2.2.2.1 _, ?_, ?_, ?_, ?_, ?_⟩
  · exact h.2.2.2.2.2.2.2.1 _ _ (by decide)
  · exact h.2.2.2.2.2.2.2.2.1 [] .mul (.sym "a") (.int 2) (Or.inl rfl)
  · exact h.2.2.2.2.2.2.2.2.2.1 [] 2 2 (by decide)
  · have := h.2.1 2 (.num 3)
    rw [this]
    decide
  · exact h.2.2.2.2.2.2.2.2.2.2.2 _ _ _ _ _ _ _ _ rfl

/-! ## Claim C3: optimizer scheduling of `Not` clauses -/

/-- Membership in an ordered insertion comes from the inserted element
or the original list. -/
theorem mem_insertAsc {α : Type} (le : α → α → Bool) (x y : α) (l : List α)
    (h : y ∈ insertAsc le x l) : y = x ∨ y ∈ l := by
  induction l with
  | nil =>
    simp only [insertAsc, List.mem_singleton] at h
    exact Or.inl h
  | cons z zs ih =>
    simp only [insertAsc] at h
    split at h
    · rcases List.mem_cons.mp h with h1 | h1
      · exact Or.inr (List.mem_cons.mpr (Or.inl h1))
      · rcases ih h1 with h2 | h2
        · exact Or.inl h2
        · exact Or.inr (List.mem_cons.mpr (Or.inr h2))
    · rcases List.mem_cons.mp h with h1 | h1
      · exact Or.inl h1
      · exact Or.inr h1

/-- Membership after the sorting fold comes from the accumulator or the
input list. -/
theorem mem_sort_foldl {α : Type} (le : α → α → Bool) (y : α) :
    ∀ (l acc : List α),
      y ∈ l.foldl (fun acc x => insertAsc le x acc) acc → y ∈ acc ∨ y ∈ l := by
  intro l
  induction l with
  | nil => intro acc h; exact Or.inl h
  | cons x xs ih =>
    intro acc h
    rcases ih (insertAsc le x acc) h with h1 | h1
    · rcases mem_insertAsc le x y acc h1 with h2 | h2
      · exact Or.inr (List.mem_cons.mpr (Or.inl h2))
      · exact Or.inl h2
    · exact Or.inr (List.mem_cons.mpr (Or.inr h1))

/-- The stable sort permutes: every member of the output is a member of
the input (only this direction is needed here). -/
theorem mem_stableSort {α : Type} (le : α → α → Bool) (y : α) (l : List α)
    (h : y ∈ stableSort le l) : y ∈ l := by
  rcases mem_sort_foldl le y l [] h with h1 | h1
  · cases h1
  · exact h1

/-- Inserting at the index right after a prefix splices the element in
between. -/
theorem insertAt_append {α : Type} (l1 l2 : List α) (x : α) :
    insertAt l1.length x (l1 ++ l2) = l1 ++ x :: l2 := by
  unfold insertAt
  rw [List.take_left, List.drop_left]

/-- An `advance`d state's op list extends the previous state's op list
(packaged for the shape `((some st', seq)).1 = some st` that the
`transform_op` arms produce). -/
theorem advance_pair_extends (prev : OpState) (op : Op) (f : ℚ → ℚ)
    (nb : List Binding) (seq : Nat) (st : OpState)
    (h : ((some (prev.advance op f nb), seq) : Option OpState × Nat).1 = some st) :
    ∃ tail, st.ops = prev.ops ++ tail := by
  have h2 : some (prev.advance op f nb) = some st := h
  injection h2 with h2
  exact ⟨[op], by rw [← h2]; rfl⟩

/-- Every branch produced by the candidate loop extends the branch
state's op list, provided the transformer does. -/
theorem expandOne_mem_extends (tf : TransformFn)
    (hf : ∀ op prev seq st, (tf op prev seq).1 = some st →
      ∃ tail, st.ops = prev.ops ++ tail)
    (branch : OpState) :
    ∀ (rest pre : List CfgOpSelect) (seq : Nat) (p : Branch),
      p ∈ (expandOne tf branch pre rest seq).1 →
      ∃ tail, p.1.ops = branch.ops ++ tail := by
  intro rest
  induction rest with
  | nil => intro pre seq p hp; simp [expandOne] at hp
  | cons op rest2 ih =>
    intro pre seq p hp
    rcases htf : tf op branch seq with ⟨r1, seq1⟩
    cases r1 with
    | none =>
      simp only [expandOne, htf] at hp
      exact ih _ _ _ hp
    | some st2 =>
      simp only [expandOne, htf] at hp
      rcases List.mem_cons.mp hp with h1 | h1
      · rw [h1]
        exact hf op branch seq st2 (by rw [htf])
      · exact ih _ _ _ h1

/-- Every branch produced by the drain loop extends a common base op
list, provided all incoming branches do and the transformer extends. -/
theorem expandBranches_mem_extends (tf : TransformFn)
    (hf : ∀ op prev seq st, (tf op prev seq).1 = some st →
      ∃ tail, st.ops = prev.ops ++ tail)
    (base : OpState) :
    ∀ (branches : List Branch) (seq : Nat),
      (∀ b ∈ branches, ∃ tail, b.1.ops = base.ops ++ tail) →
      ∀ p ∈ (expandBranches tf branches seq).1,
        ∃ tail, p.1.ops = base.ops ++ tail := by
  intro branches
  induction branches with
  | nil => intro seq hinv p hp; simp [expandBranches] at hp
  | cons b more ih =>
    obtain ⟨branch, rest_ops⟩ := b
    intro seq hinv p hp
    simp only [expandBranches] at hp
    rcases List.mem_append.mp hp with h1 | h1
    · obtain ⟨t1, ht1⟩ := expandOne_mem_extends tf hf branch rest_ops [] seq p h1
      obtain ⟨t0, ht0⟩ := hinv (branch, rest_ops) (List.mem_cons_self _ _)
      have ht0b : branch.ops = base.ops ++ t0 := ht0
      exact ⟨t0 ++ t1, by rw [ht1, ht0b, List.append_assoc]⟩
    · exact ih _ (fun b2 hb2 => hinv b2 (List.mem_cons_of_mem _ hb2)) p h1

/-- Every branch surviving the beam-search rounds extends a common base
op list, provided all incoming branches do and the transformer
extends. -/
theorem stepLoop_mem_extends (tf : TransformFn)
    (hf : ∀ op prev seq st, (tf op prev seq).1 = some st →
      ∃ tail, st.ops = prev.ops ++ tail)
    (base : OpState) :
    ∀ (n : Nat) (branches : List Branch) (seq : Nat) (res : List Branch)
      (seq2 : Nat),
      stepLoop tf n branches seq = (some res, seq2) →
      (∀ b ∈ branches, ∃ tail, b.1.ops = base.ops ++ tail) →
      ∀ p ∈ res, ∃ tail, p.1.ops = base.ops ++ tail := by
  intro n
  induction n with
  | zero =>
    intro branches seq res seq2 h hinv p hp
    simp only [stepLoop] at h
    injection h with h1 h2
    injection h1 with h1
    subst h1
    exact hinv p hp
  | succ n ih =>
    intro branches seq res seq2 h hinv p hp
    simp only [stepLoop] at h
    by_cases hemp : branches.isEmpty = true
    · rw [if_pos hemp] at h
      injection h with h1 h2
      cases h1
    · rw [if_neg hemp] at h
      refine ih _ _ _ _ h ?_ p hp
      intro b hb
      have hb1 : b ∈ stableSort (fun a b => decide (a.1.cost ≤ b.1.cost))
          (expandBranches tf branches seq).1 := List.take_subset _ _ hb
      have hb2 := mem_stableSort _ b _ hb1
      exact expandBranches_mem_extends tf hf base branches seq hinv b hb2

/-- A successful `assemble_ops` run returns a state whose op list
extends the previous state's op list, provided the transformer
extends. -/
theorem assembleOpsG_extends (tf : TransformFn)
    (hf : ∀ op prev seq st, (tf op prev seq).1 = some st →
      ∃ tail, st.ops = prev.ops ++ tail)
    (select : List CfgOpSelect) (prev : OpState) (seq : Nat) (st : OpState)
    (h : (assembleOpsG tf select prev seq).1 = some st) :
    ∃ tail, st.ops = prev.ops ++ tail := by
  simp only [assembleOpsG] at h
  rcases hr : stepLoop tf select.length [(prev, select)] seq with ⟨r1, seq2⟩
  rw [hr] at h
  cases r1 with
  | none => simp at h
  | some branches =>
    cases branches with
    | nil => simp at h
    | cons b bs =>
      obtain ⟨selected, rest_ops⟩ := b
      have h3 : ((if rest_ops.isEmpty = true then ((some selected : Option OpState), seq2)
          else (none, seq2)) : Option OpState × Nat).1 = some st := h
      by_cases hemp : rest_ops.isEmpty = true
      · rw [if_pos hemp] at h3
        have hsel : some selected = some st := h3
        injection hsel with hsel
        have hinv0 : ∀ b2 ∈ [((prev, select) : Branch)],
            ∃ tail, b2.1.ops = prev.ops ++ tail := by
          intro b2 hb2
          rw [List.mem_singleton] at hb2
          subst hb2
          exact ⟨[], by simp⟩
        obtain ⟨tail, ht⟩ := stepLoop_mem_extends tf hf prev select.length
          [(prev, select)] seq ((selected, rest_ops) :: bs) seq2 hr hinv0
          (selected, rest_ops) (List.mem_cons_self _ _)
        exact ⟨tail, by rw [← hsel]; exact ht⟩
      · rw [if_neg hemp] at h3
        exact Option.noConfusion (show (none : Option OpState) = some st from h3)

/-- Unfolding equation of the fuel-limited `transform_op`. -/
theorem transformOp_succ (fuel : Nat) :
    transformOp (fuel + 1) = transformOpStep (transformOp fuel) := rfl

/-- A successful `transform_op` step returns a state whose op list
extends the previous state's op list. -/
theorem transformOp_extends :
    ∀ (fuel : Nat) (op : CfgOpSelect) (prev : OpState) (seq : Nat) (st : OpState),
      (transformOp fuel op prev seq).1 = some st →
      ∃ tail, st.ops = prev.ops ++ tail := by
  intro fuel
  induction fuel with
  | zero => intro op prev seq st h; cases h
  | succ fuel ih =>
    intro op prev seq st h
    rw [transformOp_succ] at h
    cases op with
    | assertObjectBinding b =>
      simp only [transformOpStep] at h
      split at h
      · exact advance_pair_extends _ _ _ _ _ _ h
      · exact Option.noConfusion (show (none : Option OpState) = some st from h)
    | compareBinding b v =>
      simp only [transformOpStep] at h
      split at h
      · exact advance_pair_extends _ _ _ _ _ _ h
      · exact Option.noConfusion (show (none : Option OpState) = some st from h)
    | tupleBinding b values =>
      simp only [transformOpStep] at h
      split at h
      · exact advance_pair_extends _ _ _ _ _ _ h
      · exact Option.noConfusion (show (none : Option OpState) = some st from h)
    | enumBinding b options =>
      simp only [transformOpStep] at h
      split at h
      · exact advance_pair_extends _ _ _ _ _ _ h
      · exact Option.noConfusion (show (none : Option OpState) = some st from h)
    | requireValueAttribute b attr v =>
      simp only [transformOpStep] at h
      split at h
      · exact advance_pair_extends _ _ _ _ _ _ h
      · exact Option.noConfusion (show (none : Option OpState) = some st from h)
    | requireAttribute b attr =>
      simp only [transformOpStep] at h
      split at h
      · exact advance_pair_extends _ _ _ _ _ _ h
      · exact Option.noConfusion (show (none : Option OpState) = some st from h)
    | attributeBinding b attr vb =>
      simp only [transformOpStep] at h
      split at h
      · split at h
        · exact advance_pair_extends _ _ _ _ _ _ h
        · exact advance_pair_extends _ _ _ _ _ _ h
      · exact Option.noConfusion (show (none : Option OpState) = some st from h)
    | compare operator left right =>
      simp only [transformOpStep] at h
      split at h
      · exact advance_pair_extends _ _ _ _ _ _ h
      · exact Option.noConfusion (show (none : Option OpState) = some st from h)
    | calculation rb operation =>
      simp only [transformOpStep] at h
      split at h
      · exact advance_pair_extends _ _ _ _ _ _ h
      · exact Option.noConfusion (show (none : Option OpState) = some st from h)
    | not body =>
      simp only [transformOpStep] at h
      rcases hasm : assembleOpsG (transformOp fuel) body prev seq with ⟨r1, seqB⟩
      rw [hasm] at h
      cases r1 with
      | none => simp at h
      | some body_state =>
        obtain ⟨tail, ht⟩ := assembleOpsG_extends (transformOp fuel) ih body prev seq
          body_state (by rw [hasm])
        have h2 : some ({ body_state with
            ops := insertAt prev.ops.length
              (Op.beginNot seqB
                ((body_state.ops ++ [Op.endNot seqB]).length - prev.ops.length))
              (body_state.ops ++ [Op.endNot seqB]) } : OpState) = some st := h
        injection h2 with h2
        refine ⟨Op.beginNot seqB
            ((body_state.ops ++ [Op.endNot seqB]).length - prev.ops.length)
          :: (tail ++ [Op.endNot seqB]), ?_⟩
        rw [← h2]
        show insertAt prev.ops.length _ (body_state.ops ++ [Op.endNot seqB]) = _
        rw [ht, List.append_assoc]
        exact insertAt_append _ _ _

/-- Claim C3 counterexample: on the rule fragment
`Not([AttributeBinding 0 "a" 1])` scheduled from a state providing only
binding `0`, the provided set after consuming the `Not` is `[0, 1]` --
the body's new binding `1` IS promoted into the outer provided set,
contradicting the claim that it equals the pre-`Not` provided set. -/
theorem c3_not_promotes_body_bindings :
    ((transformOp 5 (.not [.attributeBinding 0 "a" 1])
        { ops := [], cost := 1000, provided := [0] } 0).1.map OpState.provided)
      = some [0, 1] ∧ ([0, 1] : List Binding) ≠ [0] :=
  ⟨by decide, by decide⟩

/-- Claim C3 (amended): scheduling `Not(body)` recursively schedules the
body through `assemble_ops`, wraps the body's newly emitted op sequence
in `BeginNot`/`EndNot` carrying a fresh sequence index, and inherits the
body's cost; however the bindings newly bound inside the body are NOT
dropped: the result state keeps the body state's provided list, so the
body's new bindings are promoted into the outer provided set. -/
theorem c3_not_schedules_body (fuel : Nat) (body : List CfgOpSelect)
    (prev : OpState) (seq : Nat) (st : OpState) (seq2 : Nat)
    (h : transformOp (fuel + 1) (.not body) prev seq = (some st, seq2)) :
    ∃ (bodySt : OpState) (seqB : Nat) (tail : List Op),
      assembleOps fuel body prev seq = (some bodySt, seqB) ∧
      seq2 = seqB + 1 ∧
      bodySt.ops = prev.ops ++ tail ∧
      st.cost = bodySt.cost ∧
      st.provided = bodySt.provided ∧
      st.ops = prev.ops ++
        Op.beginNot seqB (tail.length + 1) :: (tail ++ [Op.endNot seqB]) := by
  rw [transformOp_succ] at h
  simp only [transformOpStep] at h
  rcases hasm : assembleOpsG (transformOp fuel) body prev seq with ⟨r1, seqB⟩
  rw [hasm] at h
  cases r1 with
  | none =>
    have h2 : ((none : Option OpState), seqB) = (some st, seq2) := h
    injection h2 with ha hb
    exact Option.noConfusion ha
  | some bodySt =>
    have h2 : (some ({ bodySt with
        ops := insertAt prev.ops.length
          (Op.beginNot seqB
            ((bodySt.ops ++ [Op.endNot seqB]).length - prev.ops.length))
          (bodySt.ops ++ [Op.endNot seqB]) } : OpState), seqB + 1)
        = (some st, seq2) := h
    injection h2 with ha hb
    injection ha with ha
    subst ha
    subst hb
    obtain ⟨tail, ht⟩ := assembleOpsG_extends (transformOp fuel)
      (transformOp_extends fuel) body prev seq bodySt (by rw [hasm])
    have hlen : (bodySt.ops ++ [Op.endNot seqB]).length - prev.ops.length
        = tail.length + 1 := by
      rw [ht]
      simp only [List.length_append, List.length_cons, List.length_nil]
      omega
    refine ⟨bodySt, seqB, tail, hasm, rfl, ht, rfl, rfl, ?_⟩
    show insertAt prev.ops.length
        (Op.beginNot seqB
          ((bodySt.ops ++ [Op.endNot seqB]).length - prev.ops.length))
        (bodySt.ops ++ [Op.endNot seqB])
      = prev.ops ++ Op.beginNot seqB (tail.length + 1) :: (tail ++ [Op.endNot seqB])
    rw [hlen, ht, List.append_assoc]
    exact insertAt_append _ _ _

/-- Closed witness for the amended C3 theorem: the concrete `Not` rule
fragment of the counterexample satisfies the amended description with
its actual body state. -/
theorem c3_not_schedules_body_witness :
    ∃ (st bodySt : OpState) (seqB : Nat) (tail : List Op),
      transformOp 5 (.not [.attributeBinding 0 "a" 1])
        { ops := [], cost := 1000, provided := [0] } 0 = (some st, seqB + 1) ∧
      assembleOps 4 [.attributeBinding 0 "a" 1]
        { ops := [], cost := 1000, provided := [0] } 0 = (some bodySt, seqB) ∧
      bodySt.ops = [] ++ tail ∧
      st.cost = bodySt.cost ∧
      st.provided = bodySt.provided ∧
      st.ops = [] ++
        Op.beginNot seqB (tail.length + 1) :: (tail ++ [Op.endNot seqB]) := by
  have hs : (transformOp 5 (.not [.attributeBinding 0 "a" 1])
      { ops := [], cost := 1000, provided := [0] } 0).1.isSome = true := by decide
  obtain ⟨st, hst⟩ := Option.isSome_iff_exists.mp hs
  have hpair : transformOp 5 (.not [.attributeBinding 0 "a" 1])
      { ops := [], cost := 1000, provided := [0] } 0
      = (some st, (transformOp 5 (.not [.attributeBinding 0 "a" 1])
          { ops := [], cost := 1000, provided := [0] } 0).2) := by
    rw [← hst]
  obtain ⟨bodySt, seqB, tail, h1, h2, h3, h4, h5, h6⟩ :=
    c3_not_schedules_body 4 [.attributeBinding 0 "a" 1]
      { ops := [], cost := 1000, provided := [0] } 0 st _ hpair
  exact ⟨st, bodySt, seqB, tail, by rw [hpair, h2], h1, h3, h4, h5, h6⟩

/-! ## Claim C7: saturation run with total-limit control -/

/-- With a rule pass that always fires and the total-limit control, the
saturation loop always ends in `Stopped limit`: from a running count
below the limit with enough fuel rounds left. -/
theorem runSatLoop_limit_stops (rules : List CompiledRule) (limit : Nat)
    (hfire : ∀ s bs ctr, ∃ out, tryRules rules s bs ctr = some (some out)) :
    ∀ (fuel m : Nat) (s : Space) (bs : Bindings) (ctr : Nat),
      m < limit → limit - m ≤ fuel →
      runSatLoop (fun u n sp c => (controlLimitTotal limit n sp c, u)) rules
        fuel () m s bs ctr
        = some (some (.error (.stopped limit))) := by
  intro fuel
  induction fuel with
  | zero => intro m s bs ctr hm hf; omega
  | succ fuel ih =>
    intro m s bs ctr hm hf
    obtain ⟨⟨rule_name, s2, bs2, ctr2⟩, hout⟩ := hfire s bs ctr
    simp only [runSatLoop, hout, controlLimitTotal]
    by_cases hstop : limit ≤ m + 1
    · rw [if_pos hstop]
      have hm1 : m + 1 = limit := by omega
      rw [hm1]
    · rw [if_neg hstop]
      exact ih (m + 1) s2 bs2 ctr2 (by omega) (by omega)

/-- Claim C7: for a system whose rule pass always fires (a rule whose
selection and application always succeed, such as the endless rule
`{} do {}` -- empty select compiles to `[End]`, empty apply), the full
saturation run with the total-firing-limit control set to 10 returns
the `Stopped` error with count 10: after every successful firing the
control callback is consulted with the running total, and its `Stop`
verdict terminates the run at the current firing count (any fuel of at
least 10 rounds, any space, any id counter). -/
theorem c7_saturation_total_limit_stops (sys : System) (inputs : List Id)
    (hfire : ∀ s bs ctr, ∃ out, tryRules sys.rules s bs ctr = some (some out))
    (bs0 : Bindings) (hbs : sys.make_bindings_storage inputs = some (.ok bs0))
    (s : Space) (ctr : Nat) (fuel : Nat) (hfuel : 10 ≤ fuel) :
    runSaturationWithControl sys
      (fun u n sp c => (controlLimitTotal 10 n sp c, u)) () fuel s inputs ctr
      = some (some (.error (.stopped 10))) := by
  simp only [runSaturationWithControl, hbs]
  exact runSatLoop_limit_stops sys.rules 10 hfire fuel 0 s bs0 ctr (by omega)
    (by omega)

/-- Closed witness for C7: the one-rule system `{} do {}` (select ops
`[End]`, empty apply, no inputs), run on the empty space with fuel 10;
every rule pass fires because `End` under the find-first control
immediately reports a match and the empty application succeeds. -/
theorem c7_saturation_total_limit_stops_witness :
    runSaturationWithControl (⟨[], 0, [⟨"endless", 0, [Op.done], []⟩]⟩ : System)
      (fun u n sp c => (controlLimitTotal 10 n sp c, u)) () 10
      (⟨[], []⟩ : Space) [] 0
      = some (some (.error (.stopped 10))) :=
  c7_saturation_total_limit_stops (⟨[], 0, [⟨"endless", 0, [Op.done], []⟩]⟩ : System)
    []
    (fun s bs ctr => ⟨("endless", s.commitTx s.newTransaction, bs, ctr), rfl⟩)
    [] rfl (⟨[], []⟩ : Space) 0 10 (by omega)

/-! ## Claims C8 and C10: the binding-usage verifications -/

/-- A successful association lookup is a member. -/
theorem alookup_mem {κ ν : Type} [DecidableEq κ] (m : List (κ × ν)) (k : κ)
    (v : ν) (h : alookup m k = some v) : (k, v) ∈ m := by
  induction m with
  | nil => cases h
  | cons p rest ih =>
    obtain ⟨k2, v2⟩ := p
    simp only [alookup] at h
    split at h
    · injection h with h
      subst h
      rename_i heq
      subst heq
      exact List.mem_cons_self _ _
    · exact List.mem_cons_of_mem _ (ih h)

/-- Lookup misses when no entry has the key. -/
theorem alookup_eq_none {κ ν : Type} [DecidableEq κ] (m : List (κ × ν)) (k : κ)
    (h : ∀ p ∈ m, p.1 ≠ k) : alookup m k = none := by
  induction m with
  | nil => rfl
  | cons p rest ih =>
    obtain ⟨k2, v2⟩ := p
    simp only [alookup]
    rw [if_neg (h (k2, v2) (List.mem_cons_self _ _))]
    exact ih (fun q hq => h q (List.mem_cons_of_mem _ hq))

/-- Lookup after inserting the same key. -/
theorem alookup_ainsert_self {κ ν : Type} [DecidableEq κ] (m : List (κ × ν))
    (k : κ) (v : ν) : alookup (ainsert m k v) k = some v := by
  induction m with
  | nil => simp [ainsert, alookup]
  | cons p rest ih =>
    obtain ⟨k2, v2⟩ := p
    simp only [ainsert]
    split
    · simp [alookup]
    · rename_i hne
      simp only [alookup]
      rw [if_neg hne]
      exact ih

/-- Lookup after inserting a different key. -/
theorem alookup_ainsert_other {κ ν : Type} [DecidableEq κ] (m : List (κ × ν))
    (k k2 : κ) (v : ν) (hne : k2 ≠ k) :
    alookup (ainsert m k v) k2 = alookup m k2 := by
  induction m with
  | nil =>
    simp only [ainsert, alookup]
    rw [if_neg (fun h => hne h.symm)]
  | cons p rest ih =>
    obtain ⟨k3, v3⟩ := p
    simp only [ainsert]
    split
    · rename_i heq
      subst heq
      simp only [alookup]
      rw [if_neg (fun h => hne h.symm), if_neg (fun h => hne h.symm)]
    · simp only [alookup]
      split
      · rfl
      · exact ih

/-- Members of an insert: the new entry or an original one. -/
theorem mem_ainsert {κ ν : Type} [DecidableEq κ] (m : List (κ × ν)) (k : κ)
    (v : ν) (p : κ × ν) (h : p ∈ ainsert m k v) : p = (k, v) ∨ p ∈ m := by
  induction m with
  | nil =>
    simp only [ainsert, List.mem_singleton] at h
    exact Or.inl h
  | cons q rest ih =>
    obtain ⟨k2, v2⟩ := q
    simp only [ainsert] at h
    split at h
    · rcases List.mem_cons.mp h with h1 | h1
      · exact Or.inl h1
      · exact Or.inr (List.mem_cons_of_mem _ h1)
    · rcases List.mem_cons.mp h with h1 | h1
      · exact Or.inr (h1 ▸ List.mem_cons_self _ _)
      · rcases ih h1 with h2 | h2
        · exact Or.inl h2
        · exact Or.inr (List.mem_cons_of_mem _ h2)

/-- Lookup after bumping a different key. -/
theorem alookup_abump_other {κ : Type} [DecidableEq κ] (m : List (κ × Nat))
    (k k2 : κ) (hne : k2 ≠ k) : alookup (abump m k) k2 = alookup m k2 := by
  unfold abump
  cases alookup m k with
  | some c => exact alookup_ainsert_other m k k2 (c + 1) hne
  | none => exact alookup_ainsert_other m k k2 1 hne

/-- Bumping a missing key records one access. -/
theorem alookup_abump_fresh {κ : Type} [DecidableEq κ] (m : List (κ × Nat))
    (k : κ) (h : alookup m k = none) : alookup (abump m k) k = some 1 := by
  unfold abump
  rw [h]
  exact alookup_ainsert_self m k 1

/-- Members of a bump: the bumped key or an original entry. -/
theorem mem_abump {κ : Type} [DecidableEq κ] (m : List (κ × Nat)) (k : κ)
    (p : κ × Nat) (h : p ∈ abump m k) : p.1 = k ∨ p ∈ m := by
  unfold abump at h
  cases halu : alookup m k with
  | some c =>
    rw [halu] at h
    rcases mem_ainsert m k (c + 1) p h with h1 | h1
    · exact Or.inl (by rw [h1])
    · exact Or.inr h1
  | none =>
    rw [halu] at h
    rcases mem_ainsert m k 1 p h with h1 | h1
    · exact Or.inl (by rw [h1])
    · exact Or.inr h1

/-- Evolution is transitive. -/
theorem evolves_trans {x : String} {a b c : Env} (h1 : Evolves x a b)
    (h2 : Evolves x b c) : Evolves x a c := by
  induction h2 with
  | refl e => exact h1
  | bindStep e e2 name hev hne ih => exact .bindStep _ _ name (ih h1) hne
  | anonStep e e2 hev ih => exact .anonStep _ _ (ih h1)
  | scopeStep e e2 e3 hev1 hev2 ih1 _ih2 => exact .scopeStep _ _ _ (ih1 h1) hev2

/-- Binding a name other than `x` preserves the tracking invariant and
advances the sequence monotonically. -/
theorem bind_preserves_xinv (x : String) (b0 : Nat) (e : Env) (name : String)
    (hne : name ≠ x) (h : XInv x b0 e) :
    XInv x b0 (e.bind name).2 ∧
      e.index_sequence ≤ (e.bind name).2.index_sequence := by
  obtain ⟨hvis, hlt, hfr, honly, hacc⟩ := h
  unfold Env.bind
  cases hlu : alookup e.visible_bindings name with
  | some b =>
    refine ⟨⟨hvis, hlt, hfr, honly, ?_⟩, le_refl _⟩
    have hbne : b ≠ b0 := by
      intro hb
      exact hne (honly (name, b) (alookup_mem _ _ _ hlu) hb)
    rw [alookup_abump_other e.access_counts b b0 (fun hx => hbne hx.symm)]
    exact hacc
  | none =>
    refine ⟨⟨?_, ?_, ?_, ?_, ?_⟩, by simp⟩
    · rw [alookup_ainsert_other _ _ _ _ hne.symm]
      exact hvis
    · exact Nat.lt_succ_of_lt hlt
    · intro p hp
      rcases mem_ainsert _ _ _ p hp with h1 | h1
      · rw [h1]
        exact Nat.lt_succ_self _
      · exact Nat.lt_succ_of_lt (hfr p h1)
    · intro p hp hb
      rcases mem_ainsert _ _ _ p hp with h1 | h1
      · rw [h1] at hb
        exact absurd hb.symm (Nat.ne_of_lt hlt)
      · exact honly p h1 hb
    · rw [alookup_abump_other _ _ _ (Nat.ne_of_lt hlt)]
      exact hacc

/-- An anonymous draw preserves the tracking invariant. -/
theorem anon_preserves_xinv (x : String) (b0 : Nat) (e : Env)
    (h : XInv x b0 e) :
    XInv x b0 e.anon.2 ∧ e.index_sequence ≤ e.anon.2.index_sequence := by
  obtain ⟨hvis, hlt, hfr, honly, hacc⟩ := h
  exact ⟨⟨hvis, Nat.lt_succ_of_lt hlt,
    fun p hp => Nat.lt_succ_of_lt (hfr p hp), honly, hacc⟩, by simp [Env.anon]⟩

/-- Any `x`-free evolution preserves the tracking invariant. -/
theorem evolves_xinv {x : String} {b0 : Nat} {e e2 : Env}
    (hev : Evolves x e e2) (h : XInv x b0 e) :
    XInv x b0 e2 ∧ e.index_sequence ≤ e2.index_sequence := by
  induction hev with
  | refl e => exact ⟨h, le_refl _⟩
  | bindStep e e2 name hev hne ih =>
    obtain ⟨h2, hmono⟩ := ih h
    obtain ⟨h3, hmono2⟩ := bind_preserves_xinv x b0 e2 name hne h2
    exact ⟨h3, le_trans hmono hmono2⟩
  | anonStep e e2 hev ih =>
    obtain ⟨h2, hmono⟩ := ih h
    obtain ⟨h3, hmono2⟩ := anon_preserves_xinv x b0 e2 h2
    exact ⟨h3, le_trans hmono hmono2⟩
  | scopeStep e e2 e3 hev1 hev2 ih1 ih2 =>
    obtain ⟨h2, hmono1⟩ := ih1 h
    obtain ⟨h3, hmono2⟩ := ih2 h2
    obtain ⟨hvis2, hlt2, hfr2, honly2, _hacc2⟩ := h2
    obtain ⟨_, hlt3, _, _, hacc3⟩ := h3
    exact ⟨⟨hvis2, hlt3, fun p hp => lt_of_lt_of_le (hfr2 p hp) hmono2,
      honly2, hacc3⟩, le_trans hmono1 hmono2⟩

/-- A `named_binding` success evolves the environment without touching
an unmentioned name. -/
theorem named_binding_evolves (x : String) (e : Env) (v : AstVariable)
    (position : Span) (b : Nat) (e2 : Env) (hm : varMentions x v = false)
    (h : named_binding e v position = .ok (b, e2)) : Evolves x e e2 := by
  cases v with
  | wildcard => simp [named_binding, AstVariable.as_str] at h
  | ident name =>
    have hne : name ≠ x := by
      simp [varMentions] at hm
      exact hm
    simp only [named_binding, AstVariable.as_str] at h
    injection h with h
    have h2 : (e.bind name).2 = e2 := by rw [h]
    rw [← h2]
    exact .bindStep _ _ name (.refl e) hne

/-- An `existing_named_binding` success evolves the environment. -/
theorem existing_named_binding_evolves (x : String) (e : Env)
    (v : AstVariable) (position : Span) (b : Nat) (e2 : Env)
    (hm : varMentions x v = false)
    (h : existing_named_binding e v position = .ok (b, e2)) : Evolves x e e2 := by
  cases v with
  | wildcard => simp [existing_named_binding, AstVariable.as_str] at h
  | ident name =>
    have hne : name ≠ x := by
      simp [varMentions] at hm
      exact hm
    simp only [existing_named_binding, AstVariable.as_str] at h
    cases hf : e.find name with
    | none => rw [hf] at h; cases h
    | some p =>
      rw [hf] at h
      injection h with h
      unfold Env.find at hf
      split at hf
      · injection hf with hf
        have h2 : (e.bind name).2 = e2 := by rw [hf, h]
        rw [← h2]
        exact .bindStep _ _ name (.refl e) hne
      · cases hf

/-- A `nameable_new_binding` success evolves the environment. -/
theorem nameable_new_binding_evolves (x : String) (e : Env)
    (v : AstVariable) (position : Span) (b : Nat) (e2 : Env)
    (hm : varMentions x v = false)
    (h : nameable_new_binding e v position = .ok (b, e2)) : Evolves x e e2 := by
  cases v with
  | wildcard =>
    simp only [nameable_new_binding, AstVariable.as_str] at h
    injection h with h
    have h2 : e.anon.2 = e2 := by rw [h]
    rw [← h2]
    exact .anonStep _ _ (.refl e)
  | ident name =>
    have hne : name ≠ x := by
      simp [varMentions] at hm
      exact hm
    simp only [nameable_new_binding, AstVariable.as_str] at h
    cases hf : e.bind_new name with
    | none => rw [hf] at h; cases h
    | some p =>
      rw [hf] at h
      injection h with h
      unfold Env.bind_new at hf
      split at hf
      · cases hf
      · injection hf with hf
        have h2 : (e.bind name).2 = e2 := by rw [hf, h]
        rw [← h2]
        exact .bindStep _ _ name (.refl e) hne

/-- An `optional_binding` call evolves the environment. -/
theorem optional_binding_evolves (x : String) (e : Env) (v : AstVariable)
    (hm : varMentions x v = false) : Evolves x e (optional_binding e v).2 := by
  cases v with
  | wildcard => exact .refl e
  | ident name =>
    have hne : name ≠ x := by
      simp [varMentions] at hm
      exact hm
    exact .bindStep _ _ name (.refl e) hne

/-- A `nameable_binding` call evolves the environment. -/
theorem nameable_binding_evolves (x : String) (e : Env) (v : AstVariable)
    (hm : varMentions x v = false) : Evolves x e (nameable_binding e v).2 := by
  cases v with
  | wildcard => exact .anonStep _ _ (.refl e)
  | ident name =>
    have hne : name ≠ x := by
      simp [varMentions] at hm
      exact hm
    exact .bindStep _ _ name (.refl e) hne

/-- A successful calculation compilation evolves the environment. -/
theorem compile_calculation_evolves (x : String) :
    ∀ (c : AstCalculation) (e : Env) (position : Span) (r : Calculation × Env),
      calcMentions x c = false → compile_calculation e position c = .ok r →
      Evolves x e r.2 := by
  intro c
  induction c with
  | int n =>
    intro e position r hm h
    injection h with h
    rw [← h]
    exact .refl e
  | float f =>
    intro e position r hm h
    injection h with h
    rw [← h]
    exact .refl e
  | var v =>
    intro e position r hm h
    simp only [compile_calculation] at h
    cases hnb : named_binding e v position with
    | error err => rw [hnb] at h; cases h
    | ok p =>
      obtain ⟨b, e2⟩ := p
      rw [hnb] at h
      injection h with h
      rw [← h]
      exact named_binding_evolves x e v position b e2 (by simpa [calcMentions] using hm) hnb
  | bimOp op l rr ihl ihr =>
    intro e position r hm h
    simp only [calcMentions, Bool.or_eq_false_iff] at hm
    simp only [compile_calculation] at h
    cases hl : compile_calculation e position l with
    | error err => rw [hl] at h; cases h
    | ok p =>
      obtain ⟨cl, e2⟩ := p
      rw [hl] at h
      dsimp only at h
      cases hr : compile_calculation e2 position rr with
      | error err => rw [hr] at h; cases h
      | ok q =>
        obtain ⟨cr, e3⟩ := q
        rw [hr] at h
        injection h with h
        rw [← h]
        exact evolves_trans (ihl e position (cl, e2) hm.1 hl)
          (ihr e2 position (cr, e3) hm.2 hr)

/-- A successful comparable compilation evolves the environment. -/
theorem compile_comparable_evolves (x : String) (c : Comparable) (e : Env)
    (position : Span) (r : CompareValue × Env)
    (hm : cmpMentions x c = false) (h : compile_comparable e position c = .ok r) :
    Evolves x e r.2 := by
  cases c with
  | int n => injection h with h; rw [← h]; exact .refl e
  | float f => injection h with h; rw [← h]; exact .refl e
  | var v =>
    simp only [compile_comparable] at h
    cases hnb : named_binding e v position with
    | error err => rw [hnb] at h; cases h
    | ok p =>
      obtain ⟨b, e2⟩ := p
      rw [hnb] at h
      injection h with h
      rw [← h]
      exact named_binding_evolves x e v position b e2 (by simpa [cmpMentions] using hm) hnb

/-- A successful comparison compilation evolves the environment. -/
theorem compile_select_comparison_evolves (x : String) (e : Env)
    (c : AstComparison) (ops : List CfgOpSelect) (r : List CfgOpSelect × Env)
    (hml : cmpMentions x c.left = false) (hmr : cmpMentions x c.right = false)
    (h : compile_select_comparison e c ops = .ok r) : Evolves x e r.2 := by
  simp only [compile_select_comparison] at h
  cases hl : compile_comparable e c.position c.left with
  | error err => rw [hl] at h; cases h
  | ok p =>
    obtain ⟨l, e2⟩ := p
    rw [hl] at h
    dsimp only at h
    cases hr : compile_comparable e2 c.position c.right with
    | error err => rw [hr] at h; cases h
    | ok q =>
      obtain ⟨rr, e3⟩ := q
      rw [hr] at h
      injection h with h
      rw [← h]
      exact evolves_trans (compile_comparable_evolves x c.left e c.position (l, e2) hml hl)
        (compile_comparable_evolves x c.right e2 c.position (rr, e3) hmr hr)

/-- A successful enum-option compilation evolves the environment. -/
theorem compile_select_enum_items_evolves (x : String) :
    ∀ (options : List Enumerable) (e : Env) (position : Span)
      (r : List EnumOption × Env),
      enumMentions x options = false →
      compile_select_enum_items e position options = .ok r → Evolves x e r.2 := by
  intro options
  induction options with
  | nil =>
    intro e position r hm h
    injection h with h
    rw [← h]
    exact .refl e
  | cons opt rest ih =>
    intro e position r hm h
    cases opt with
    | literal l =>
      simp only [compile_select_enum_items] at h
      cases hrest : compile_select_enum_items e position rest with
      | error err => rw [hrest] at h; cases h
      | ok p =>
        obtain ⟨items, e2⟩ := p
        rw [hrest] at h
        injection h with h
        rw [← h]
        exact ih e position (items, e2) (by simpa [enumMentions] using hm) hrest
    | var v =>
      simp only [enumMentions, Bool.or_eq_false_iff] at hm
      simp only [compile_select_enum_items] at h
      cases hnb : named_binding e v position with
      | error err => rw [hnb] at h; cases h
      | ok p =>
        obtain ⟨b, e2⟩ := p
        rw [hnb] at h
        dsimp only at h
        cases hrest : compile_select_enum_items e2 position rest with
        | error err => rw [hrest] at h; cases h
        | ok q =>
          obtain ⟨items, e3⟩ := q
          rw [hrest] at h
          injection h with h
          rw [← h]
          exact evolves_trans (named_binding_evolves x e v position b e2 hm.1 hnb)
            (ih e2 position (items, e3) hm.2 hrest)

/-- A successful enum compilation evolves the environment. -/
theorem compile_select_enum_evolves (x : String) (e : Env) (binding : Nat)
    (options : List Enumerable) (position : Span) (ops : List CfgOpSelect)
    (r : List CfgOpSelect × Env) (hm : enumMentions x options = false)
    (h : compile_select_enum e binding options position ops = .ok r) :
    Evolves x e r.2 := by
  simp only [compile_select_enum] at h
  cases hit : compile_select_enum_items e position options with
  | error err => rw [hit] at h; cases h
  | ok p =>
    obtain ⟨items, e2⟩ := p
    rw [hit] at h
    injection h with h
    rw [← h]
    exact compile_select_enum_items_evolves x options e position (items, e2) hm hit

mutual

/-- A successful tuple-item compilation evolves the environment. -/
theorem cstItems_evolves (x : String) :
    ∀ (items : List ValueSpec) (e : Env) (acc : List OpenTupleItem)
      (ops : List CfgOpSelect) (r : List OpenTupleItem × List CfgOpSelect × Env),
      vsListMentions x items = false →
      compile_select_tuple_items e items acc ops = .ok r →
      Evolves x e r.2.2
  | [], e, acc, ops, r, hm, h => by
    injection h with h
    rw [← h]
    exact .refl e
  | .mk kind position :: rest, e, acc, ops, r, hm, h => by
    simp only [vsListMentions, vsMentions, Bool.or_eq_false_iff] at hm
    cases kind with
    | literal l =>
      simp only [compile_select_tuple_items] at h
      exact cstItems_evolves x rest e _ _ r hm.2 h
    | var v =>
      cases v with
      | wildcard =>
        simp only [compile_select_tuple_items, optional_binding,
          AstVariable.as_str] at h
        exact cstItems_evolves x rest e _ _ r hm.2 h
      | ident name =>
        have hne : name ≠ x := by
          have := hm.1
          simp [vskMentions, varMentions] at this
          exact this
        simp only [compile_select_tuple_items, optional_binding,
          AstVariable.as_str] at h
        exact evolves_trans (.bindStep _ _ name (.refl e) hne)
          (cstItems_evolves x rest (e.bind name).2 _ _ r hm.2 h)
    | enum direct options =>
      have hmd : varMentions x direct = false := by
        have := hm.1
        simp [vskMentions, Bool.or_eq_false_iff] at this
        exact this.1
      have hmo : enumMentions x options = false := by
        have := hm.1
        simp [vskMentions, Bool.or_eq_false_iff] at this
        exact this.2
      simp only [compile_select_tuple_items] at h
      cases hen : compile_select_enum (nameable_binding e direct).2
          (nameable_binding e direct).1 options position ops with
      | error err => rw [hen] at h; cases h
      | ok p =>
        obtain ⟨ops2, e2⟩ := p
        rw [hen] at h
        dsimp only at h
        exact evolves_trans
          (evolves_trans (nameable_binding_evolves x e direct hmd)
            (compile_select_enum_evolves x _ _ options position ops (ops2, e2) hmo hen))
          (cstItems_evolves x rest e2 _ _ r hm.2 h)
    | tuple direct items2 =>
      have hmd : varMentions x direct = false := by
        have := hm.1
        simp [vskMentions, Bool.or_eq_false_iff] at this
        exact this.1
      have hmi : vsListMentions x items2 = false := by
        have := hm.1
        simp [vskMentions, Bool.or_eq_false_iff] at this
        exact this.2
      simp only [compile_select_tuple_items] at h
      cases hin : compile_select_tuple_items (nameable_binding e direct).2
          items2 [] ops with
      | error err => rw [hin] at h; cases h
      | ok p =>
        obtain ⟨ci2, ops2, e2⟩ := p
        rw [hin] at h
        dsimp only at h
        exact evolves_trans
          (evolves_trans (nameable_binding_evolves x e direct hmd)
            (cstItems_evolves x items2 (nameable_binding e direct).2 _ _
              (ci2, ops2, e2) hmi hin))
          (cstItems_evolves x rest e2 _ _ r hm.2 h)
    | struct direct attributes =>
      have hmd : varMentions x direct = false := by
        have := hm.1
        simp [vskMentions, Bool.or_eq_false_iff] at this
        exact this.1
      have hma : asListMentions x attributes = false := by
        have := hm.1
        simp [vskMentions, Bool.or_eq_false_iff] at this
        exact this.2
      simp only [compile_select_tuple_items] at h
      cases hst : compile_select_attributes (nameable_binding e direct).2
          (nameable_binding e direct).1 attributes position
          (ops ++ [.assertObjectBinding (nameable_binding e direct).1]) with
      | error err => rw [hst] at h; cases h
      | ok p =>
        obtain ⟨ops2, e2⟩ := p
        rw [hst] at h
        dsimp only at h
        exact evolves_trans
          (evolves_trans (nameable_binding_evolves x e direct hmd)
            (csas_evolves x attributes (nameable_binding e direct).2 _ _ _
              (ops2, e2) hma hst))
          (cstItems_evolves x rest e2 _ _ r hm.2 h)

/-- A successful attribute-spec compilation evolves the environment. -/
theorem csa_evolves (x : String) :
    ∀ (attr_spec : AttributeSpec) (e : Env) (binding : Nat) (position : Span)
      (ops : List CfgOpSelect) (r : List CfgOpSelect × Env),
      asMentions x attr_spec = false →
      compile_select_attribute e binding attr_spec position ops = .ok r →
      Evolves x e r.2
  | .mk apos attrName (.mk kind vpos), e, binding, position, ops, r, hm, h => by
    simp only [asMentions, vsMentions] at hm
    cases kind with
    | literal l =>
      simp only [compile_select_attribute] at h
      injection h with h
      rw [← h]
      exact .refl e
    | var v =>
      cases v with
      | wildcard =>
        simp only [compile_select_attribute, optional_binding,
          AstVariable.as_str] at h
        injection h with h
        rw [← h]
        exact .refl e
      | ident name =>
        have hne : name ≠ x := by
          simp [vskMentions, varMentions] at hm
          exact hm
        simp only [compile_select_attribute, optional_binding,
          AstVariable.as_str] at h
        injection h with h
        rw [← h]
        exact .bindStep _ _ name (.refl e) hne
    | tuple direct items =>
      simp only [vskMentions, Bool.or_eq_false_iff] at hm
      simp only [compile_select_attribute] at h
      cases hin : compile_select_tuple_items (nameable_binding e direct).2
          items [] (ops ++ [.attributeBinding binding attrName
            (nameable_binding e direct).1]) with
      | error err => rw [hin] at h; cases h
      | ok p =>
        obtain ⟨ci, ops2, e2⟩ := p
        rw [hin] at h
        dsimp only at h
        injection h with h
        rw [← h]
        exact evolves_trans (nameable_binding_evolves x e direct hm.1)
          (cstItems_evolves x items (nameable_binding e direct).2 _ _
            (ci, ops2, e2) hm.2 hin)
    | enum direct options =>
      simp only [vskMentions, Bool.or_eq_false_iff] at hm
      simp only [compile_select_attribute] at h
      exact evolves_trans (nameable_binding_evolves x e direct hm.1)
        (compile_select_enum_evolves x _ _ options position _ r hm.2 h)
    | struct direct attributes =>
      simp only [vskMentions, Bool.or_eq_false_iff] at hm
      simp only [compile_select_attribute] at h
      exact evolves_trans (nameable_binding_evolves x e direct hm.1)
        (csas_evolves x attributes (nameable_binding e direct).2 _ _ _ r hm.2 h)

/-- A successful attribute-list compilation evolves the environment. -/
theorem csas_evolves (x : String) :
    ∀ (attributes : List AttributeSpec) (e : Env) (binding : Nat)
      (position : Span) (ops : List CfgOpSelect) (r : List CfgOpSelect × Env),
      asListMentions x attributes = false →
      compile_select_attributes e binding attributes position ops = .ok r →
      Evolves x e r.2
  | [], e, binding, position, ops, r, hm, h => by
    injection h with h
    rw [← h]
    exact .refl e
  | a :: rest, e, binding, position, ops, r, hm, h => by
    simp only [asListMentions, Bool.or_eq_false_iff] at hm
    simp only [compile_select_attributes] at h
    cases ha : compile_select_attribute e binding a position ops with
    | error err => rw [ha] at h; cases h
    | ok p =>
      obtain ⟨ops2, e2⟩ := p
      rw [ha] at h
      dsimp only at h
      exact evolves_trans (csa_evolves x a e binding position ops (ops2, e2) hm.1 ha)
        (csas_evolves x rest e2 binding position ops2 r hm.2 h)

end

/-- A successful tuple compilation evolves the environment. -/
theorem compile_select_tuple_evolves (x : String) (e : Env) (binding : Nat)
    (items : List ValueSpec) (ops : List CfgOpSelect)
    (r : List CfgOpSelect × Env) (hm : vsListMentions x items = false)
    (h : compile_select_tuple e binding items ops = .ok r) : Evolves x e r.2 := by
  simp only [compile_select_tuple] at h
  cases hin : compile_select_tuple_items e items [] ops with
  | error err => rw [hin] at h; cases h
  | ok p =>
    obtain ⟨ci, ops2, e2⟩ := p
    rw [hin] at h
    injection h with h
    rw [← h]
    exact cstItems_evolves x items e _ _ (ci, ops2, e2) hm hin

/-- A successful top-level binding compilation evolves the
environment. -/
theorem cstb_evolves (x : String) (e : Env) (v : AstVariable)
    (position : Span) (value_spec : ValueSpec) (ops : List CfgOpSelect)
    (r : List CfgOpSelect × Env) (hmv : varMentions x v = false)
    (hms : vsMentions x value_spec = false)
    (h : compile_select_toplevel_binding e v position value_spec ops = .ok r) :
    Evolves x e r.2 := by
  cases v with
  | wildcard => simp [compile_select_toplevel_binding, AstVariable.as_str] at h
  | ident name =>
    have hne : name ≠ x := by
      simp [varMentions] at hmv
      exact hmv
    have hbind : Evolves x e (e.bind name).2 := .bindStep _ _ name (.refl e) hne
    obtain ⟨kind, vpos⟩ := value_spec
    simp only [vsMentions] at hms
    cases kind with
    | literal l =>
      simp only [compile_select_toplevel_binding, AstVariable.as_str] at h
      injection h with h
      rw [← h]
      exact hbind
    | var v2 =>
      simp [compile_select_toplevel_binding, AstVariable.as_str] at h
    | enum direct options =>
      simp only [vskMentions, Bool.or_eq_false_iff] at hms
      simp only [compile_select_toplevel_binding, AstVariable.as_str] at h
      cases hnb : no_binding direct position with
      | error err => rw [hnb] at h; cases h
      | ok u =>
        rw [hnb] at h
        dsimp only at h
        exact evolves_trans hbind
          (compile_select_enum_evolves x _ _ options position ops r hms.2 h)
    | tuple direct items =>
      simp only [vskMentions, Bool.or_eq_false_iff] at hms
      simp only [compile_select_toplevel_binding, AstVariable.as_str] at h
      cases hnb : no_binding direct position with
      | error err => rw [hnb] at h; cases h
      | ok u =>
        rw [hnb] at h
        dsimp only at h
        exact evolves_trans hbind
          (compile_select_tuple_evolves x _ _ items ops r hms.2 h)
    | struct direct attributes =>
      simp only [vskMentions, Bool.or_eq_false_iff] at hms
      simp only [compile_select_toplevel_binding, AstVariable.as_str] at h
      cases hnb : no_binding direct position with
      | error err => rw [hnb] at h; cases h
      | ok u =>
        rw [hnb] at h
        dsimp only at h
        exact evolves_trans hbind
          (csas_evolves x attributes _ _ position _ r hms.2 h)

mutual

/-- A successful select-clause compilation evolves the environment. -/
theorem crs_evolves (x : String) :
    ∀ (sel : RuleSelect) (e : Env) (ops : List CfgOpSelect)
      (r : List CfgOpSelect × Env),
      selMentions x sel = false → compile_rule_select e sel ops = .ok r →
      Evolves x e r.2
  | .binding spec, e, ops, r, hm, h => by
    simp only [selMentions, Bool.or_eq_false_iff] at hm
    simp only [compile_rule_select] at h
    exact cstb_evolves x e spec.var spec.position spec.value_spec ops r hm.1 hm.2 h
  | .bindingAttribute spec, e, ops, r, hm, h => by
    simp only [selMentions, Bool.or_eq_false_iff] at hm
    simp only [compile_rule_select] at h
    cases hnb : named_binding e spec.var spec.position with
    | error err => rw [hnb] at h; cases h
    | ok p =>
      obtain ⟨binding, e2⟩ := p
      rw [hnb] at h
      dsimp only at h
      exact evolves_trans
        (named_binding_evolves x e spec.var spec.position binding e2 hm.1 hnb)
        (csa_evolves x spec.attribute_spec e2 binding spec.position ops r hm.2 h)
  | .comparison c, e, ops, r, hm, h => by
    simp only [selMentions, Bool.or_eq_false_iff] at hm
    simp only [compile_rule_select] at h
    exact compile_select_comparison_evolves x e c ops r hm.1 hm.2 h
  | .not subs, e, ops, r, hm, h => by
    simp only [selMentions] at hm
    simp only [compile_rule_select] at h
    cases hsub : compile_rule_selects e subs [] with
    | error err => rw [hsub] at h; cases h
    | ok p =>
      obtain ⟨sub_ops, sub_env⟩ := p
      rw [hsub] at h
      injection h with h
      rw [← h]
      exact .scopeStep _ _ _ (.refl e)
        (crss_evolves x subs e [] (sub_ops, sub_env) hm hsub)
  | .calculation v c position, e, ops, r, hm, h => by
    simp only [selMentions, Bool.or_eq_false_iff] at hm
    simp only [compile_rule_select] at h
    cases hnb : named_binding e v position with
    | error err => rw [hnb] at h; cases h
    | ok p =>
      obtain ⟨result_binding, e2⟩ := p
      rw [hnb] at h
      dsimp only at h
      cases hc : compile_calculation e2 position c with
      | error err => rw [hc] at h; cases h
      | ok q =>
        obtain ⟨operation, e3⟩ := q
        rw [hc] at h
        injection h with h
        rw [← h]
        exact evolves_trans
          (named_binding_evolves x e v position result_binding e2 hm.1 hnb)
          (compile_calculation_evolves x c e2 position (operation, e3) hm.2 hc)

/-- A successful select-list compilation evolves the environment. -/
theorem crss_evolves (x : String) :
    ∀ (sels : List RuleSelect) (e : Env) (ops : List CfgOpSelect)
      (r : List CfgOpSelect × Env),
      selListMentions x sels = false → compile_rule_selects e sels ops = .ok r →
      Evolves x e r.2
  | [], e, ops, r, hm, h => by
    injection h with h
    rw [← h]
    exact .refl e
  | sel :: rest, e, ops, r, hm, h => by
    simp only [selListMentions, Bool.or_eq_false_iff] at hm
    simp only [compile_rule_selects] at h
    cases hs : compile_rule_select e sel ops with
    | error err => rw [hs] at h; cases h
    | ok p =>
      obtain ⟨ops2, e2⟩ := p
      rw [hs] at h
      dsimp only at h
      exact evolves_trans (crs_evolves x sel e ops (ops2, e2) hm.1 hs)
        (crss_evolves x rest e2 ops2 r hm.2 h)

end

mutual

/-- A successful apply-attribute compilation evolves the
environment. -/
theorem caa_evolves (x : String) :
    ∀ (spec : AttributeSpec) (e : Env) (binding : Nat)
      (ops : List CfgOpApply) (r : List CfgOpApply × Env),
      asMentions x spec = false →
      compile_apply_add_attribute e binding spec ops = .ok r →
      Evolves x e r.2
  | .mk position attrName (.mk kind vpos), e, binding, ops, r, hm, h => by
    simp only [asMentions, vsMentions] at hm
    cases kind with
    | literal l =>
      simp only [compile_apply_add_attribute] at h
      injection h with h
      rw [← h]
      exact .refl e
    | var v =>
      simp only [vskMentions] at hm
      simp only [compile_apply_add_attribute] at h
      cases hen : existing_named_binding e v position with
      | error err => rw [hen] at h; cases h
      | ok p =>
        obtain ⟨value_binding, e2⟩ := p
        rw [hen] at h
        injection h with h
        rw [← h]
        exact existing_named_binding_evolves x e v position value_binding e2 hm hen
    | tuple direct values =>
      simp only [vskMentions, Bool.or_eq_false_iff] at hm
      simp only [compile_apply_add_attribute] at h
      cases hnn : nameable_new_binding e direct position with
      | error err => rw [hnn] at h; cases h
      | ok p =>
        obtain ⟨value_binding, e2⟩ := p
        rw [hnn] at h
        dsimp only at h
        cases hit : compile_apply_tuple_items e2 values true [] ops with
        | error err => rw [hit] at h; cases h
        | ok q =>
          obtain ⟨items, ops2, e3⟩ := q
          rw [hit] at h
          injection h with h
          rw [← h]
          exact evolves_trans
            (nameable_new_binding_evolves x e direct position value_binding e2 hm.1 hnn)
            (catItems_evolves x values e2 true [] ops (items, ops2, e3) hm.2 hit)
    | enum direct options =>
      simp [compile_apply_add_attribute] at h
    | struct direct attributes =>
      simp only [vskMentions, Bool.or_eq_false_iff] at hm
      simp only [compile_apply_add_attribute] at h
      cases hnn : nameable_new_binding e direct position with
      | error err => rw [hnn] at h; cases h
      | ok p =>
        obtain ⟨value_binding, e2⟩ := p
        rw [hnn] at h
        dsimp only at h
        cases hat : compile_apply_attributes e2 value_binding attributes
            (ops ++ [.createObject value_binding]) with
        | error err => rw [hat] at h; cases h
        | ok q =>
          obtain ⟨ops2, e3⟩ := q
          rw [hat] at h
          injection h with h
          rw [← h]
          exact evolves_trans
            (nameable_new_binding_evolves x e direct position value_binding e2 hm.1 hnn)
            (caas_evolves x attributes e2 value_binding _ (ops2, e3) hm.2 hat)

/-- A successful apply-attribute-list compilation evolves the
environment. -/
theorem caas_evolves (x : String) :
    ∀ (attributes : List AttributeSpec) (e : Env) (binding : Nat)
      (ops : List CfgOpApply) (r : List CfgOpApply × Env),
      asListMentions x attributes = false →
      compile_apply_attributes e binding attributes ops = .ok r →
      Evolves x e r.2
  | [], e, binding, ops, r, hm, h => by
    injection h with h
    rw [← h]
    exact .refl e
  | a :: rest, e, binding, ops, r, hm, h => by
    simp only [asListMentions, Bool.or_eq_false_iff] at hm
    simp only [compile_apply_attributes] at h
    cases ha : compile_apply_add_attribute e binding a ops with
    | error err => rw [ha] at h; cases h
    | ok p =>
      obtain ⟨ops2, e2⟩ := p
      rw [ha] at h
      dsimp only at h
      exact evolves_trans (caa_evolves x a e binding ops (ops2, e2) hm.1 ha)
        (caas_evolves x rest e2 binding ops2 r hm.2 h)

/-- A successful apply-tuple-item compilation evolves the
environment. -/
theorem catItems_evolves (x : String) :
    ∀ (values : List ValueSpec) (e : Env) (allow : Bool)
      (acc : List CfgApplyTupleItem) (ops : List CfgOpApply)
      (r : List CfgApplyTupleItem × List CfgOpApply × Env),
      vsListMentions x values = false →
      compile_apply_tuple_items e values allow acc ops = .ok r →
      Evolves x e r.2.2
  | [], e, allow, acc, ops, r, hm, h => by
    injection h with h
    rw [← h]
    exact .refl e
  | .mk kind position :: rest, e, allow, acc, ops, r, hm, h => by
    simp only [vsListMentions, vsMentions, Bool.or_eq_false_iff] at hm
    cases kind with
    | literal l =>
      simp only [compile_apply_tuple_items] at h
      exact catItems_evolves x rest e allow _ _ r hm.2 h
    | var v =>
      have hmv : varMentions x v = false := by
        have := hm.1
        simp [vskMentions] at this
        exact this
      simp only [compile_apply_tuple_items] at h
      cases hen : existing_named_binding e v position with
      | error err => rw [hen] at h; cases h
      | ok p =>
        obtain ⟨value_binding, e2⟩ := p
        rw [hen] at h
        dsimp only at h
        exact evolves_trans
          (existing_named_binding_evolves x e v position value_binding e2 hmv hen)
          (catItems_evolves x rest e2 allow _ _ r hm.2 h)
    | tuple direct values2 =>
      have hmd : varMentions x direct = false := by
        have := hm.1
        simp [vskMentions, Bool.or_eq_false_iff] at this
        exact this.1
      have hmi : vsListMentions x values2 = false := by
        have := hm.1
        simp [vskMentions, Bool.or_eq_false_iff] at this
        exact this.2
      simp only [compile_apply_tuple_items] at h
      cases hnn : nameable_new_binding e direct position with
      | error err => rw [hnn] at h; cases h
      | ok p =>
        obtain ⟨value_binding, e2⟩ := p
        rw [hnn] at h
        dsimp only at h
        cases hit : compile_apply_tuple_items e2 values2 allow [] ops with
        | error err => rw [hit] at h; cases h
        | ok q =>
          obtain ⟨items2, ops2, e3⟩ := q
          rw [hit] at h
          dsimp only at h
          exact evolves_trans
            (evolves_trans
              (nameable_new_binding_evolves x e direct position value_binding e2 hmd hnn)
              (catItems_evolves x values2 e2 allow [] ops (items2, ops2, e3) hmi hit))
            (catItems_evolves x rest e3 allow _ _ r hm.2 h)
    | struct direct attributes =>
      have hmd : varMentions x direct = false := by
        have := hm.1
        simp [vskMentions, Bool.or_eq_false_iff] at this
        exact this.1
      have hma : asListMentions x attributes = false := by
        have := hm.1
        simp [vskMentions, Bool.or_eq_false_iff] at this
        exact this.2
      simp only [compile_apply_tuple_items] at h
      cases hallow : allow with
      | false => rw [hallow] at h; simp at h
      | true =>
        rw [hallow] at h
        simp only [if_true] at h
        cases hnn : nameable_new_binding e direct position with
        | error err => rw [hnn] at h; cases h
        | ok p =>
          obtain ⟨value_binding, e2⟩ := p
          rw [hnn] at h
          dsimp only at h
          cases hat : compile_apply_attributes e2 value_binding attributes
              (ops ++ [.createObject value_binding]) with
          | error err => rw [hat] at h; cases h
          | ok q =>
            obtain ⟨ops2, e3⟩ := q
            rw [hat] at h
            dsimp only at h
            exact evolves_trans
              (evolves_trans
                (nameable_new_binding_evolves x e direct position value_binding e2 hmd hnn)
                (caas_evolves x attributes e2 value_binding _ (ops2, e3) hma hat))
              (catItems_evolves x rest e3 true _ _ r hm.2 h)
    | enum direct options =>
      simp [compile_apply_tuple_items] at h

end

/-- A successful apply-tuple compilation evolves the environment. -/
theorem compile_apply_tuple_evolves (x : String) (e : Env) (binding : Nat)
    (values : List ValueSpec) (allow : Bool) (ops : List CfgOpApply)
    (r : List CfgOpApply × Env) (hm : vsListMentions x values = false)
    (h : compile_apply_tuple e binding values allow ops = .ok r) :
    Evolves x e r.2 := by
  simp only [compile_apply_tuple] at h
  cases hit : compile_apply_tuple_items e values allow [] ops with
  | error err => rw [hit] at h; cases h
  | ok p =>
    obtain ⟨items, ops2, e2⟩ := p
    rw [hit] at h
    injection h with h
    rw [← h]
    exact catItems_evolves x values e allow [] ops (items, ops2, e2) hm hit

/-- A successful apply-add compilation evolves the environment. -/
theorem compile_apply_add_evolves (x : String) (e : Env)
    (spec : BindingAttributeSpec) (ops : List CfgOpApply)
    (r : List CfgOpApply × Env) (hmv : varMentions x spec.var = false)
    (hma : asMentions x spec.attribute_spec = false)
    (h : compile_apply_add e spec ops = .ok r) : Evolves x e r.2 := by
  simp only [compile_apply_add] at h
  cases hen : existing_named_binding e spec.var spec.position with
  | error err => rw [hen] at h; cases h
  | ok p =>
    obtain ⟨binding, e2⟩ := p
    rw [hen] at h
    dsimp only at h
    exact evolves_trans
      (existing_named_binding_evolves x e spec.var spec.position binding e2 hmv hen)
      (caa_evolves x spec.attribute_spec e2 binding ops r hma h)

/-- A successful apply-remove compilation evolves the environment. -/
theorem compile_apply_remove_evolves (x : String) (e : Env)
    (spec : BindingAttributeSpec) (ops : List CfgOpApply)
    (r : List CfgOpApply × Env) (hmv : varMentions x spec.var = false)
    (hma : asMentions x spec.attribute_spec = false)
    (h : compile_apply_remove e spec ops = .ok r) : Evolves x e r.2 := by
  obtain ⟨spos, svar, ⟨apos, attrName, ⟨kind, vpos⟩⟩⟩ := spec
  simp only [asMentions, vsMentions] at hma
  simp only [compile_apply_remove] at h
  cases hen : existing_named_binding e svar spos with
  | error err => rw [hen] at h; cases h
  | ok p =>
    obtain ⟨binding, e2⟩ := p
    rw [hen] at h
    dsimp only at h
    have hev1 : Evolves x e e2 :=
      existing_named_binding_evolves x e svar spos binding e2 hmv hen
    cases kind with
    | literal l =>
      injection h with h
      rw [← h]
      exact hev1
    | var v =>
      simp only [vskMentions] at hma
      dsimp only at h
      cases hnb : named_binding e2 v spos with
      | error err => rw [hnb] at h; cases h
      | ok q =>
        obtain ⟨value_binding, e3⟩ := q
        rw [hnb] at h
        injection h with h
        rw [← h]
        exact evolves_trans hev1
          (named_binding_evolves x e2 v spos value_binding e3 hma hnb)
    | tuple direct values =>
      simp only [vskMentions, Bool.or_eq_false_iff] at hma
      dsimp only at h
      cases hnn : nameable_new_binding e2 direct spos with
      | error err => rw [hnn] at h; cases h
      | ok q =>
        obtain ⟨value_binding, e3⟩ := q
        rw [hnn] at h
        dsimp only at h
        cases hct : compile_apply_tuple e3 value_binding values false ops with
        | error err => rw [hct] at h; cases h
        | ok q2 =>
          obtain ⟨ops2, e4⟩ := q2
          rw [hct] at h
          injection h with h
          rw [← h]
          exact evolves_trans hev1 (evolves_trans
            (nameable_new_binding_evolves x e2 direct spos value_binding e3 hma.1 hnn)
            (compile_apply_tuple_evolves x e3 value_binding values false ops
              (ops2, e4) hma.2 hct))
    | enum direct options => simp at h
    | struct direct attributes => simp at h

/-- A successful apply-clause compilation evolves the environment. -/
theorem cra_evolves (x : String) (ra : RuleApply) (e : Env)
    (ops : List CfgOpApply) (r : List CfgOpApply × Env)
    (hm : applyMentions x ra = false) (h : compile_rule_apply e ra ops = .ok r) :
    Evolves x e r.2 := by
  cases ra with
  | add spec =>
    simp only [applyMentions, Bool.or_eq_false_iff] at hm
    simp only [compile_rule_apply] at h
    exact compile_apply_add_evolves x e spec ops r hm.1 hm.2 h
  | remove spec =>
    simp only [applyMentions, Bool.or_eq_false_iff] at hm
    simp only [compile_rule_apply] at h
    exact compile_apply_remove_evolves x e spec ops r hm.1 hm.2 h

/-- A successful apply-list compilation evolves the environment. -/
theorem cras_evolves (x : String) :
    ∀ (applys : List RuleApply) (e : Env) (ops : List CfgOpApply)
      (r : List CfgOpApply × Env),
      applyListMentions x applys = false →
      compile_rule_applys e applys ops = .ok r → Evolves x e r.2 := by
  intro applys
  induction applys with
  | nil =>
    intro e ops r hm h
    injection h with h
    rw [← h]
    exact .refl e
  | cons ra rest ih =>
    intro e ops r hm h
    simp only [applyListMentions, Bool.or_eq_false_iff] at hm
    simp only [compile_rule_applys] at h
    cases ha : compile_rule_apply e ra ops with
    | error err => rw [ha] at h; cases h
    | ok p =>
      obtain ⟨ops2, e2⟩ := p
      rw [ha] at h
      dsimp only at h
      exact evolves_trans (cra_evolves x ra e ops (ops2, e2) hm.1 ha)
        (ih e2 ops2 r hm.2 h)

/-- Input binding distributes over list append. -/
theorem bindInputVars_append (a b : List String) :
    ∀ e : Env, bindInputVars e (a ++ b) = bindInputVars (bindInputVars e a) b := by
  induction a with
  | nil => intro e; rfl
  | cons v rest ih => intro e; exact ih ((e.bind v).2)

/-- One input bind keeps every visible binding and every counted
access key below the sequence, and keeps an unbound distinct name
unbound. -/
theorem bind_ph (x : String) (e : Env) (name : String) (hne : name ≠ x)
    (h1 : ∀ p ∈ e.visible_bindings, p.2 < e.index_sequence)
    (h2 : ∀ p ∈ e.access_counts, p.1 < e.index_sequence)
    (h3 : alookup e.visible_bindings x = none) :
    (∀ p ∈ (e.bind name).2.visible_bindings, p.2 < (e.bind name).2.index_sequence) ∧
    (∀ p ∈ (e.bind name).2.access_counts, p.1 < (e.bind name).2.index_sequence) ∧
    alookup (e.bind name).2.visible_bindings x = none := by
  unfold Env.bind
  cases hlu : alookup e.visible_bindings name with
  | some b =>
    refine ⟨h1, ?_, h3⟩
    intro p hp
    rcases mem_abump _ _ _ hp with hb | hb
    · rw [hb]
      exact h1 (name, b) (alookup_mem _ _ _ hlu)
    · exact h2 p hb
  | none =>
    refine ⟨?_, ?_, ?_⟩
    · intro p hp
      rcases mem_ainsert _ _ _ p hp with hb | hb
      · rw [hb]
        exact Nat.lt_succ_self _
      · exact Nat.lt_succ_of_lt (h1 p hb)
    · intro p hp
      rcases mem_abump _ _ _ hp with hb | hb
      · rw [hb]
        exact Nat.lt_succ_self _
      · exact Nat.lt_succ_of_lt (h2 p hb)
    · rw [alookup_ainsert_other _ _ _ _ hne.symm]
      exact h3

/-- Binding a list of inputs not containing `x` keeps the freshness
facts and keeps `x` unbound. -/
theorem bindInputVars_ph (x : String) :
    ∀ (names : List String) (e : Env), x ∉ names →
    (∀ p ∈ e.visible_bindings, p.2 < e.index_sequence) →
    (∀ p ∈ e.access_counts, p.1 < e.index_sequence) →
    alookup e.visible_bindings x = none →
    (∀ p ∈ (bindInputVars e names).visible_bindings,
        p.2 < (bindInputVars e names).index_sequence) ∧
    (∀ p ∈ (bindInputVars e names).access_counts,
        p.1 < (bindInputVars e names).index_sequence) ∧
    alookup (bindInputVars e names).visible_bindings x = none := by
  intro names
  induction names with
  | nil => intro e _ h1 h2 h3; exact ⟨h1, h2, h3⟩
  | cons v rest ih =>
    intro e hx h1 h2 h3
    have hne : v ≠ x := fun hv => hx (hv ▸ List.mem_cons_self _ _)
    obtain ⟨g1, g2, g3⟩ := bind_ph x e v hne h1 h2 h3
    exact ih ((e.bind v).2) (fun hr => hx (List.mem_cons_of_mem _ hr)) g1 g2 g3

/-- Binding the fresh name `x` establishes the tracking invariant at
the drawn index. -/
theorem bind_establishes_xinv (x : String) (e : Env)
    (h1 : ∀ p ∈ e.visible_bindings, p.2 < e.index_sequence)
    (h2 : ∀ p ∈ e.access_counts, p.1 < e.index_sequence)
    (h3 : alookup e.visible_bindings x = none) :
    XInv x e.index_sequence (e.bind x).2 := by
  unfold Env.bind
  rw [h3]
  refine ⟨alookup_ainsert_self _ _ _, Nat.lt_succ_self _, ?_, ?_, ?_⟩
  · intro p hp
    rcases mem_ainsert _ _ _ p hp with hb | hb
    · rw [hb]
      exact Nat.lt_succ_self _
    · exact Nat.lt_succ_of_lt (h1 p hb)
  · intro p hp hb
    rcases mem_ainsert _ _ _ p hp with hq | hq
    · rw [hq]
    · exact absurd hb (Nat.ne_of_lt (h1 p hq))
  · refine alookup_abump_fresh _ _ (alookup_eq_none _ _ ?_)
    intro p hp
    exact Nat.ne_of_lt (h2 p hp)

/-- Binding further inputs not named `x` preserves the tracking
invariant. -/
theorem bindInputVars_xinv (x : String) (b0 : Nat) :
    ∀ (names : List String) (e : Env), x ∉ names → XInv x b0 e →
    XInv x b0 (bindInputVars e names) := by
  intro names
  induction names with
  | nil => intro e _ h; exact h
  | cons v rest ih =>
    intro e hx h
    have hne : v ≠ x := fun hv => hx (hv ▸ List.mem_cons_self _ _)
    exact ih ((e.bind v).2) (fun hr => hx (List.mem_cons_of_mem _ hr))
      (bind_preserves_xinv x b0 e v hne h).1

/-- The tracking invariant at the final environment forces the
multi-usage verification to fail, reporting `x`. -/
theorem xinv_multi_usage (x : String) (b0 : Nat) (e : Env)
    (h : XInv x b0 e) :
    ∃ names, verify_multi_usage e e.access_counts
      = .error (.singleBindingUse names) ∧ x ∈ names := by
  obtain ⟨hvis, hlt, hfr, honly, hacc⟩ := h
  have hmem : (b0, 1) ∈ e.access_counts := alookup_mem _ _ _ hacc
  have hbind : e.binding b0 = some x := by
    unfold Env.binding
    cases hf : e.visible_bindings.find? (fun p => p.2 = b0) with
    | none =>
      have hxmem : (x, b0) ∈ e.visible_bindings := alookup_mem _ _ _ hvis
      have := List.find?_eq_none.mp hf (x, b0) hxmem
      simp at this
    | some p =>
      have hp := List.find?_some hf
      have hpm := List.mem_of_find?_eq_some hf
      simp only [decide_eq_true_eq] at hp
      have hpx := honly p hpm hp
      simp [hpx]
  have hxin : x ∈ e.access_counts.filterMap
      (fun p => if p.2 = 1 then e.binding p.1 else none) := by
    refine List.mem_filterMap.mpr ⟨(b0, 1), hmem, ?_⟩
    simp [hbind]
  have hne : ¬((e.access_counts.filterMap
      (fun p => if p.2 = 1 then e.binding p.1 else none)).isEmpty = true) := by
    intro hemp
    rw [List.isEmpty_iff] at hemp
    rw [hemp] at hxin
    cases hxin
  refine ⟨_, ?_, hxin⟩
  unfold verify_multi_usage
  rw [if_neg hne]

/-- Claim C10: an input variable the rule never references is rejected
as single-use.  Input variables are pre-bound by `ast_to_cfg` (one
instance, one access); a rule that never mentions the input `x` in its
select or apply parts leaves that access count at one, so -- provided
the select/apply lowering succeeds and the distinct-bindings check
passes -- compilation returns a `SingleBindingUse` error whose name
list contains `x`. -/
theorem c10_unused_input_rejected (ast : AstRule) (pre post : List String)
    (x : String) (hpre : x ∉ pre) (hpost : x ∉ post)
    (hms : selListMentions x ast.select = false)
    (hma : applyListMentions x ast.apply = false)
    (sel : List CfgOpSelect) (env1 : Env)
    (h1 : compile_rule_selects (bindInputVars Env.new (pre ++ x :: post))
      ast.select [] = .ok (sel, env1))
    (ap : List CfgOpApply) (env2 : Env)
    (h2 : compile_rule_applys env1 ast.apply [] = .ok (ap, env2))
    (h3 : verify_distinct_bindings env2.instance_counts = .ok ()) :
    ∃ names, ast_to_cfg ast (pre ++ x :: post)
      = .error (.singleBindingUse names) ∧ x ∈ names := by
  have hx0 : XInv x (bindInputVars Env.new pre).index_sequence
      (bindInputVars Env.new (pre ++ x :: post)) := by
    obtain ⟨g1, g2, g3⟩ := bindInputVars_ph x pre Env.new hpre
      (by intro p hp; cases hp) (by intro p hp; cases hp) rfl
    rw [bindInputVars_append pre (x :: post) Env.new]
    exact bindInputVars_xinv x _ post _ hpost
      (bind_establishes_xinv x _ g1 g2 g3)
  have hx1 : XInv x (bindInputVars Env.new pre).index_sequence env1 :=
    (evolves_xinv (crss_evolves x ast.select _ [] (sel, env1) hms h1) hx0).1
  have hx2 : XInv x (bindInputVars Env.new pre).index_sequence env2 :=
    (evolves_xinv (cras_evolves x ast.apply env1 [] (ap, env2) hma h2) hx1).1
  obtain ⟨names, hvm, hxn⟩ := xinv_multi_usage x _ env2 hx2
  refine ⟨names, ?_, hxn⟩
  simp only [ast_to_cfg]
  rw [h1]
  dsimp only
  rw [h2]
  dsimp only
  rw [h3]
  dsimp only
  rw [hvm]

/-- Closed witness for C10: inputs `x, y`, one select clause
`$y.a: $y` (which uses `y` twice and never mentions `x`), empty apply;
compilation rejects with `SingleBindingUse` naming `x`. -/
theorem c10_unused_input_rejected_witness :
    ∃ names,
      ast_to_cfg
        ⟨"r10",
         [.bindingAttribute ⟨1, .ident "y", .mk 1 "a" (.mk (.var (.ident "y")) 1)⟩],
         []⟩ ["x", "y"]
        = .error (.singleBindingUse names) ∧ "x" ∈ names :=
  c10_unused_input_rejected
    ⟨"r10",
     [.bindingAttribute ⟨1, .ident "y", .mk 1 "a" (.mk (.var (.ident "y")) 1)⟩],
     []⟩
    [] ["y"] "x" (by simp) (by simp) (by decide) (by decide)
    [.attributeBinding 1 "a" 1]
    ⟨2, [("x", 0), ("y", 1)], [("x", 1), ("y", 1)], [(0, 1), (1, 3)]⟩
    rfl
    []
    ⟨2, [("x", 0), ("y", 1)], [("x", 1), ("y", 1)], [(0, 1), (1, 3)]⟩
    rfl rfl

/-- Claim C8 counterexample: the rule with inputs `[x]` and selects
`$x.a: $y`, `$x.c: $y`, `not { $x.b: $z }` compiles successfully even
though the named non-input binding `z` (index 2) is accessed exactly
once overall -- its access count stays 1, but its name is only visible
inside the discarded `Not` scope, so the single-use check never sees
it. -/
theorem c8_not_scope_single_use_escapes :
    (ast_to_cfg
      ⟨"r8",
       [.bindingAttribute ⟨1, .ident "x", .mk 1 "a" (.mk (.var (.ident "y")) 1)⟩,
        .bindingAttribute ⟨2, .ident "x", .mk 2 "c" (.mk (.var (.ident "y")) 2)⟩,
        .not [.bindingAttribute ⟨3, .ident "x", .mk 3 "b" (.mk (.var (.ident "z")) 3)⟩]],
       []⟩ ["x"]).isOk = true ∧
    (compile_rule_selects (bindInputVars Env.new ["x"])
      [.bindingAttribute ⟨1, .ident "x", .mk 1 "a" (.mk (.var (.ident "y")) 1)⟩,
       .bindingAttribute ⟨2, .ident "x", .mk 2 "c" (.mk (.var (.ident "y")) 2)⟩,
       .not [.bindingAttribute ⟨3, .ident "x", .mk 3 "b" (.mk (.var (.ident "z")) 3)⟩]]
      []).toOption.map
        (fun r => (alookup r.2.access_counts 2, alookup r.2.visible_bindings "z"))
      = some (some 1, none) :=
  ⟨rfl, rfl⟩

/-- Claim C8 (amended): the single-use rejection applies exactly to
bindings whose access count is one AND whose name is visible in the
rule's final outer scope.  Every name a `SingleBindingUse` error
reports is visible in the final outer environment with a
once-accessed binding; single-use bindings named only inside `Not`
scopes escape the check (see the counterexample), and pre-bound input
variables are subject to it (claim C10). -/
theorem c8_single_use_reported_names (ast : AstRule) (inputs : List String)
    (sel : List CfgOpSelect) (env1 : Env)
    (h1 : compile_rule_selects (bindInputVars Env.new inputs) ast.select []
      = .ok (sel, env1))
    (ap : List CfgOpApply) (env2 : Env)
    (h2 : compile_rule_applys env1 ast.apply [] = .ok (ap, env2))
    (names : List String)
    (h : ast_to_cfg ast inputs = .error (.singleBindingUse names)) :
    names ≠ [] ∧
    ∀ z ∈ names, ∃ b, (z, b) ∈ env2.visible_bindings ∧
      (b, 1) ∈ env2.access_counts := by
  simp only [ast_to_cfg] at h
  rw [h1] at h
  dsimp only at h
  rw [h2] at h
  dsimp only at h
  cases hd : verify_distinct_bindings env2.instance_counts with
  | error err =>
    rw [hd] at h
    dsimp only at h
    injection h with h
    subst h
    simp only [verify_distinct_bindings] at hd
    split at hd
    · cases hd
    · injection hd with hd
      simp at hd
  | ok u =>
    cases u
    rw [hd] at h
    dsimp only at h
    simp only [verify_multi_usage] at h
    by_cases hemp : ((env2.access_counts.filterMap
        (fun p => if p.2 = 1 then env2.binding p.1 else none)).isEmpty = true)
    · rw [if_pos hemp] at h
      dsimp only at h
      cases h
    · rw [if_neg hemp] at h
      dsimp only at h
      injection h with h
      injection h with h
      subst h
      refine ⟨fun hnil => hemp (by rw [hnil]; rfl), ?_⟩
      intro z hz
      obtain ⟨p, hpmem, hpf⟩ := List.mem_filterMap.mp hz
      by_cases hp1 : p.2 = 1
      · rw [if_pos hp1] at hpf
        unfold Env.binding at hpf
        cases hf : env2.visible_bindings.find? (fun q => q.2 = p.1) with
        | none => rw [hf] at hpf; cases hpf
        | some q =>
          rw [hf] at hpf
          dsimp only [Option.map] at hpf
          injection hpf with hpf
          have hqp := List.find?_some hf
          have hqm := List.mem_of_find?_eq_some hf
          simp only [decide_eq_true_eq] at hqp
          refine ⟨p.1, ?_, ?_⟩
          · rw [← hpf, ← hqp]
            exact hqm
          · rw [← hp1]
            exact hpmem
      · rw [if_neg hp1] at hpf
        cases hpf

/-- Closed witness for the amended C8 theorem: the rule with input `x`
and the single select `$x.a: $y` is rejected reporting `y`, and `y` is
indeed visible in the final outer scope with a once-accessed
binding. -/
theorem c8_single_use_reported_names_witness :
    (["y"] : List String) ≠ [] ∧
    ∀ z ∈ (["y"] : List String), ∃ b,
      (z, b) ∈ [("x", 0), ("y", 1)] ∧ (b, 1) ∈ [(0, 2), (1, 1)] :=
  c8_single_use_reported_names
    ⟨"r8w",
     [.bindingAttribute ⟨1, .ident "x", .mk 1 "a" (.mk (.var (.ident "y")) 1)⟩],
     []⟩ ["x"]
    [.attributeBinding 0 "a" 1]
    ⟨2, [("x", 0), ("y", 1)], [("x", 1), ("y", 1)], [(0, 2), (1, 1)]⟩
    rfl
    []
    ⟨2, [("x", 0), ("y", 1)], [("x", 1), ("y", 1)], [(0, 2), (1, 1)]⟩
    rfl
    ["y"] rfl

end SymEngine
